import Mathlib

/-!
# Aegis: a verification development

A shallow embedding of the chunk pipeline, the content-addressable store, the
metadata index, restore, the repository audit, the hash-chained audit log and
the scheduler of the `aegis` backup engine, with the properties proved about
them.

Conventions of the embedding:

* byte slices are lists of bytes, Go strings are `String`;
* the external primitives (BLAKE3, zstd, AES-256-GCM, SHA-256, the time
  formatter) are the fields of `Prims`; what is assumed of them is `Prims.Laws`;
  Argon2id, `sort.Slice` and `filepath.Match` are the fields of `Lib`, and the
  other functions of `path/filepath` are written out for Unix paths;
* randomness is explicit: an operation that draws a nonce receives the outcome
  of that draw (`none` when the random source fails);
* state is passed explicitly: an operation returns its result and the new state;
* the goroutines of the scheduler are a step function on a state that holds
  where each of them is; a run is a list of the events the runtime chose;
* a decoded entry of the audit log holds texts (`String`): the JSON decoder
  gives valid UTF-8; what `LogAction` is called with are Go strings
  (`GoString`), whose bytes need not be valid UTF-8, and `encoding/json` writes
  U+FFFD for each byte of no valid encoding; other texts (paths, patterns) are
  valid Unicode;
* calls on the repository directory and on the database succeed, apart from
  reading a file that is not there; the counters of a report are natural
  numbers.
-/

namespace Aegis

/-! ## Bytes, `pkg/hash` -/

abbrev Byte := Fin 256
abbrev Bytes := List Byte

deriving instance DecidableEq for Except

/-- One piece of a Go string, which is a sequence of bytes that need not be
valid UTF-8: a character, for the bytes of its encoding, or a byte that is
part of no valid encoding. -/
inductive GoUnit where
  | char (c : Char)
  | bad (b : Byte)
deriving DecidableEq

/-- A Go string, by its pieces in order. -/
abbrev GoString := List GoUnit

/-- The Go string of a text. -/
def GoString.ofText (s : String) : GoString :=
  s.data.map GoUnit.char

/-- The bytes of the Go string are valid UTF-8. -/
def GoString.valid (s : GoString) : Bool :=
  s.all (fun u =>
    match u with
    | .char _ => true
    | .bad _ => false)

/-- What `encoding/json` writes for a Go string, as its decoder reads it back:
a byte that is part of no valid encoding has become U+FFFD, and the encoder
reports no error. -/
def GoString.jsonText (s : GoString) : String :=
  String.mk (s.map (fun u =>
    match u with
    | .char c => c
    | .bad _ => Char.ofNat 0xFFFD))

/-- Go `hash.Hash`, a `[32]byte`. -/
structure Hash where
  bytes : Bytes
  len : bytes.length = 32
deriving DecidableEq

/-- One lower-case hexadecimal digit of `encoding/hex`. -/
def hexDigit (n : Nat) : Char :=
  if n < 10 then Char.ofNat (48 + n) else Char.ofNat (87 + n)

/-- Two digits of a byte, high nibble first. -/
def encodeByte (b : Byte) : List Char :=
  [hexDigit (b.val / 16), hexDigit (b.val % 16)]

/-- Go `hex.EncodeToString`. -/
def hexEncode (bs : Bytes) : String :=
  String.mk (bs.flatMap encodeByte)

/-- Go `fromHexChar` of `encoding/hex`: both cases of the letters are accepted. -/
def fromHexChar (c : Char) : Option Nat :=
  if 48 ≤ c.toNat ∧ c.toNat ≤ 57 then some (c.toNat - 48)
  else if 97 ≤ c.toNat ∧ c.toNat ≤ 102 then some (c.toNat - 87)
  else if 65 ≤ c.toNat ∧ c.toNat ≤ 70 then some (c.toNat - 55)
  else none

/-- Go `hex.DecodeString` on the characters: `none` on an odd length or a
character that is no hexadecimal digit. -/
def hexDecodeChars : List Char → Option Bytes
  | [] => some []
  | [_] => none
  | a :: b :: rest =>
    match fromHexChar a, fromHexChar b, hexDecodeChars rest with
    | some hi, some lo, some tl => some (Fin.ofNat (hi * 16 + lo) :: tl)
    | _, _, _ => none

/-- Go `hex.DecodeString`. -/
def hexDecode (s : String) : Option Bytes :=
  hexDecodeChars s.data

/-- Go `copy(h[:], b)` into a zeroed `[32]byte`. -/
def copy32 (b : Bytes) : Hash :=
  ⟨b.take 32 ++ List.replicate (32 - b.length) 0, by
    simp only [List.length_append, List.length_take, List.length_replicate]
    omega⟩

/-- The method `Hash.hexString` (named apart from the type `String`). -/
def Hash.hexString (h : Hash) : String :=
  hexEncode h.bytes

/-- The function `hash.Parse`: `none` stands for the decoding error. -/
def Hash.Parse (s : String) : Option Hash :=
  match hexDecode s with
  | none => none
  | some b => some (copy32 b)

/-! ## `pkg/crypto` -/

/-- Go `crypto.NonceSize`. -/
def NonceSize : Nat := 12

/-- Go `crypto.KeySize`. -/
def KeySize : Nat := 32

/-- Go `crypto.MasterKey`, a `[KeySize]byte`. -/
structure MasterKey where
  bytes : Bytes
  len : bytes.length = KeySize
deriving DecidableEq

/-- The outcome of a successful `io.ReadFull(rand.Reader, nonce)`. -/
structure Nonce where
  bytes : Bytes
  len : bytes.length = NonceSize
deriving DecidableEq

/-- The external primitives the program calls. -/
structure Prims where
  /-- Go `blake3.Sum256`. -/
  blake3 : Bytes → Hash
  /-- Go `zstd.Encoder.EncodeAll`. -/
  zstdEncode : Bytes → Bytes
  /-- Go `zstd.Decoder.DecodeAll`. -/
  zstdDecode : Bytes → Option Bytes
  /-- Go `gcm.Seal(nil, nonce, plaintext, nil)` under a key. -/
  gcmSeal : MasterKey → Bytes → Bytes → Bytes
  /-- Go `gcm.Open(nil, nonce, data, nil)` under a key. -/
  gcmOpen : MasterKey → Bytes → Bytes → Option Bytes
  /-- Go `sha256`: the digest of the bytes of a Go string. -/
  sha256Raw : GoString → Hash
  /-- Go `time.Time.Format(time.RFC3339Nano)`; instants are numbered. -/
  formatRFC3339Nano : Nat → String
  /-- Go `[]byte(s)` of a text. -/
  strBytes : String → Bytes
  /-- Go `string(b)` of a byte slice. -/
  bytesStr : Bytes → String

/-- The SHA-256 digest of the bytes of a text. -/
def Prims.sha256 (P : Prims) (s : String) : Hash :=
  P.sha256Raw (GoString.ofText s)

/-- The laws of the primitives: opening what was sealed under the same key and
nonce gives the plaintext back, and decoding what zstd encoded gives the input
back. -/
structure Prims.Laws (P : Prims) : Prop where
  open_seal : ∀ (k : MasterKey) (n pt : Bytes), n.length = NonceSize →
    P.gcmOpen k n (P.gcmSeal k n pt) = some pt
  decode_encode : ∀ x : Bytes, P.zstdDecode (P.zstdEncode x) = some x

/-- Errors of `pkg/crypto`. -/
inductive CryptoErr where
  | randFailed
  | tooShort
  | openFailed
deriving DecidableEq, Repr

/-- The method `MasterKey.Encrypt`: the nonce is prepended to the sealed text. -/
def MasterKey.Encrypt (P : Prims) (k : MasterKey) (rnd : Option Nonce) (plaintext : Bytes) :
    Except CryptoErr Bytes :=
  match rnd with
  | none => .error .randFailed
  | some nonce => .ok (nonce.bytes ++ P.gcmSeal k nonce.bytes plaintext)

/-- The method `MasterKey.Decrypt`. -/
def MasterKey.Decrypt (P : Prims) (k : MasterKey) (ciphertext : Bytes) :
    Except CryptoErr Bytes :=
  if ciphertext.length < NonceSize then .error .tooShort
  else
    match P.gcmOpen k (ciphertext.take NonceSize) (ciphertext.drop NonceSize) with
    | none => .error .openFailed
    | some pt => .ok pt

/-! ## `pkg/storage`: the local backend -/

/-- A path below `BasePath`, by components. -/
abbrev RelPath := List String

/-- Go `LocalBackend`: the files below `BasePath`; `puts` counts the calls of
`LocalBackend.Put` (an observation, no part of the data). -/
structure LocalBackend where
  files : List (RelPath × Bytes)
  puts : Nat
deriving DecidableEq

/-- The method `LocalBackend.objectPath`. Keys are hexadecimal, so that
`filepath.Join` is the plain list of the components and the length in bytes
is the number of characters. -/
def objectPath (key : String) : RelPath :=
  if key.length < 2 then ["objects", key]
  else ["objects", String.mk (key.data.take 2), String.mk (key.data.drop 2)]

/-- Go `os.ReadFile` in the modelled directory. -/
def readFile : List (RelPath × Bytes) → RelPath → Option Bytes
  | [], _ => none
  | (q, d) :: rest, p => if q = p then some d else readFile rest p

/-- Go `os.WriteFile`: creates or truncates. -/
def writeFile (files : List (RelPath × Bytes)) (p : RelPath) (data : Bytes) :
    List (RelPath × Bytes) :=
  (p, data) :: files.filter (fun e => e.1 ≠ p)

/-- The method `LocalBackend.Has`. -/
def LocalBackend.Has (l : LocalBackend) (key : String) : Bool :=
  (readFile l.files (objectPath key)).isSome

/-- The method `LocalBackend.Get`: `none` is the error of `os.ReadFile`. -/
def LocalBackend.Get (l : LocalBackend) (key : String) : Option Bytes :=
  readFile l.files (objectPath key)

/-- The method `LocalBackend.Put`: an existing file is left as it is. -/
def LocalBackend.Put (l : LocalBackend) (key : String) (data : Bytes) : LocalBackend :=
  if (readFile l.files (objectPath key)).isSome then
    { l with puts := l.puts + 1 }
  else
    { files := writeFile l.files (objectPath key) data, puts := l.puts + 1 }

/-! ## `pkg/storage`: the content-addressable store -/

/-- Go `ContentAddressableStore` (the zstd coder is in `Prims`). -/
structure ContentAddressableStore where
  backend : LocalBackend
  key : MasterKey
deriving DecidableEq

/-- Errors of the store. -/
inductive StoreErr where
  /-- "encryption failed: ..." -/
  | encryption (e : CryptoErr)
  /-- The error of `backend.Get`. -/
  | notFound
  /-- "decryption failed (wrong key or data corruption): ..." -/
  | decryption (e : CryptoErr)
  /-- The error of `DecodeAll`. -/
  | decode
  /-- "integrity check failed for chunk h" -/
  | integrity (h : Hash)
deriving DecidableEq

/-- The method `ContentAddressableStore.Put`. -/
def ContentAddressableStore.Put (P : Prims) (s : ContentAddressableStore)
    (rnd : Option Nonce) (data : Bytes) : Except StoreErr Hash × ContentAddressableStore :=
  let h := P.blake3 data
  let keyStr := h.hexString
  if s.backend.Has keyStr then (.ok h, s)
  else
    let compressed := P.zstdEncode data
    match s.key.Encrypt P rnd compressed with
    | .error e => (.error (.encryption e), s)
    | .ok encrypted => (.ok h, { s with backend := s.backend.Put keyStr encrypted })

/-- The method `ContentAddressableStore.Get`. -/
def ContentAddressableStore.Get (P : Prims) (s : ContentAddressableStore) (h : Hash) :
    Except StoreErr Bytes :=
  let keyStr := h.hexString
  match s.backend.Get keyStr with
  | none => .error .notFound
  | some encrypted =>
    match s.key.Decrypt P encrypted with
    | .error e => .error (.decryption e)
    | .ok compressed =>
      match P.zstdDecode compressed with
      | none => .error .decode
      | some data =>
        if P.blake3 data ≠ h then .error (.integrity h) else .ok data

/-- The method `ContentAddressableStore.Has`. -/
def ContentAddressableStore.Has (s : ContentAddressableStore) (h : Hash) : Bool :=
  s.backend.Has h.hexString

/-! ## `pkg/chunker` -/

/-- Go `chunker.DefaultChunkSize`. -/
def DefaultChunkSize : Nat := 4 * 1024 * 1024

/-- The errors a read can end with. -/
inductive ReadErr where
  /-- Go `io.EOF`. -/
  | EOF
  /-- Go `io.ErrUnexpectedEOF`. -/
  | ErrUnexpectedEOF
  /-- Any other error of the underlying reader. -/
  | other (code : Nat)
deriving DecidableEq

/-- A byte source (`io.Reader`): the bytes it still delivers, and how it ends:
with `io.EOF` (`none`) or with a read error. -/
structure Reader where
  data : Bytes
  failure : Option Nat
deriving DecidableEq

/-- Go `io.ReadFull(r, buf)` for a buffer of `n` bytes: the bytes read, the
error, and the source afterwards. -/
def ReadFull (r : Reader) (n : Nat) : Bytes × Option ReadErr × Reader :=
  if n ≤ r.data.length then
    (r.data.take n, none, { r with data := r.data.drop n })
  else
    let err : ReadErr :=
      match r.failure with
      | some c => .other c
      | none => if r.data.length = 0 then .EOF else .ErrUnexpectedEOF
    (r.data, some err, { r with data := [] })

/-- Go `chunker.Chunk`. -/
structure Chunk where
  Data : Bytes
  Hash : Hash
deriving DecidableEq

/-- Go `chunker.FixedSizeChunker`; `size` is the length of `buf`. -/
structure FixedSizeChunker where
  reader : Reader
  size : Nat
deriving DecidableEq

/-- Go `chunker.NewFixedSizeChunker`. -/
def NewFixedSizeChunker (r : Reader) (size : Int) : FixedSizeChunker :=
  { reader := r, size := if size ≤ 0 then DefaultChunkSize else size.toNat }

/-- What `Next` returns: no chunk and an error, or a chunk and possibly an error. -/
inductive NextResult where
  | stop (err : ReadErr)
  | chunk (c : Chunk) (err : Option ReadErr)
deriving DecidableEq

/-- The method `FixedSizeChunker.Next`. -/
def FixedSizeChunker.Next (P : Prims) (c : FixedSizeChunker) : NextResult × FixedSizeChunker :=
  match ReadFull c.reader c.size with
  | (buf, err, r) =>
    let c1 : FixedSizeChunker := { c with reader := r }
    let n := buf.length
    if n = 0 ∧ err = some .EOF then (.stop .EOF, c1)
    else
      match n, err with
      | 0, some (.other e) => (.stop (.other e), c1)
      | _, _ =>
        let data := buf.take n
        let h := P.blake3 data
        let err1 := if err = some .ErrUnexpectedEOF then none else err
        (.chunk ⟨data, h⟩ err1, c1)

/-! ## `pkg/index` -/

/-- A row of the table `snapshots`. -/
structure SnapshotRow where
  id : Nat
  timestamp : Nat
  description : String
deriving DecidableEq

/-- A row of the table `files`; `path` is the hex text of the encrypted path. -/
structure FileRow where
  id : Nat
  snapshot_id : Nat
  path : String
  size : Nat
  mode : Nat
  mod_time : Nat
deriving DecidableEq

/-- A row of the table `chunks`. -/
structure ChunkRow where
  id : Nat
  file_id : Nat
  hash : String
  offset : Int
  size : Int
deriving DecidableEq

/-- Go `index.Index`: the three tables in insertion order, the last row id
handed out per table (`AUTOINCREMENT`), and the key. -/
structure Index where
  snapshots : List SnapshotRow
  files : List FileRow
  chunks : List ChunkRow
  seqSnapshots : Nat
  seqFiles : Nat
  seqChunks : Nat
  key : MasterKey
deriving DecidableEq

/-- The index just after `initSchema` on a fresh database. -/
def Index.empty (key : MasterKey) : Index :=
  { snapshots := [], files := [], chunks := [], seqSnapshots := 0, seqFiles := 0,
    seqChunks := 0, key := key }

/-- Errors of the index. -/
inductive IndexErr where
  /-- The error of `Encrypt` in `AddFile`. -/
  | encrypt (e : CryptoErr)
  /-- "metadata corruption (hex decode): ..." -/
  | hexDecode
  /-- "metadata corruption (decrypt): ..." -/
  | decrypt (e : CryptoErr)
deriving DecidableEq

/-- The method `Index.CreateSnapshot`. -/
def Index.CreateSnapshot (i : Index) (now : Nat) (desc : String) : Nat × Index :=
  let id := i.seqSnapshots + 1
  (id, { i with snapshots := i.snapshots ++ [⟨id, now, desc⟩], seqSnapshots := id })

/-- The method `Index.AddFile`. -/
def Index.AddFile (P : Prims) (i : Index) (rnd : Option Nonce) (snapshotID : Nat)
    (path : String) (size mode modTime : Nat) : Except IndexErr Nat × Index :=
  match i.key.Encrypt P rnd (P.strBytes path) with
  | .error e => (.error (.encrypt e), i)
  | .ok encryptedPath =>
    let encodedPath := hexEncode encryptedPath
    let id := i.seqFiles + 1
    (.ok id, { i with files := i.files ++ [⟨id, snapshotID, encodedPath, size, mode, modTime⟩],
                      seqFiles := id })

/-- The method `Index.AddChunk`. -/
def Index.AddChunk (i : Index) (fileID : Nat) (h : Hash) (offset size : Int) : Index :=
  let id := i.seqChunks + 1
  { i with chunks := i.chunks ++ [⟨id, fileID, h.hexString, offset, size⟩], seqChunks := id }

/-- The method `Index.ListSnapshots`: `ORDER BY id DESC`. -/
def Index.ListSnapshots (i : Index) : List SnapshotRow :=
  i.snapshots.insertionSort (fun a b => b.id ≤ a.id)

/-- Go `index.FileRecord`. -/
structure FileRecord where
  ID : Nat
  Path : String
  Size : Nat
  Mode : Nat
  ModTime : Nat
deriving DecidableEq

/-- The loop of `GetFiles` over the selected rows. -/
def decodeFiles (P : Prims) (key : MasterKey) : List FileRow → Except IndexErr (List FileRecord)
  | [] => .ok []
  | r :: rest =>
    match hexDecode r.path with
    | none => .error .hexDecode
    | some encryptedPath =>
      match key.Decrypt P encryptedPath with
      | .error e => .error (.decrypt e)
      | .ok decryptedPath =>
        match decodeFiles P key rest with
        | .error e => .error e
        | .ok fs => .ok (⟨r.id, P.bytesStr decryptedPath, r.size, r.mode, r.mod_time⟩ :: fs)

/-- The method `Index.GetFiles`. -/
def Index.GetFiles (P : Prims) (i : Index) (snapshotID : Nat) :
    Except IndexErr (List FileRecord) :=
  decodeFiles P i.key (i.files.filter (fun r => r.snapshot_id = snapshotID))

/-- Go `index.ChunkRecord`. -/
structure ChunkRecord where
  Hash : String
  Offset : Int
  Size : Int
deriving DecidableEq

/-- The method `Index.GetChunks`: `WHERE file_id = ? ORDER BY offset ASC`. -/
def Index.GetChunks (i : Index) (fileID : Nat) : List ChunkRecord :=
  ((i.chunks.filter (fun r => r.file_id = fileID)).insertionSort
    (fun a b => a.offset ≤ b.offset)).map (fun r => ⟨r.hash, r.offset, r.size⟩)

/-! ## `pkg/engine` -/

/-- Arithmetic of Go `int64`: the sum is taken modulo `2^64` into the signed range. -/
def wrapInt64 (x : Int) : Int :=
  (x + 2 ^ 63) % 2 ^ 64 - 2 ^ 63

/-- A regular file of the source tree as `processFile` meets it: whether
`os.Open` fails, what `f.Stat` reports, its bytes, and a read fault, if any:
`some (k, c)` makes reading fail with error `c` once `k` bytes are delivered. -/
structure SourceFile where
  path : String
  openFails : Bool
  content : Bytes
  mode : Nat
  modTime : Nat
  readFault : Option (Nat × Nat)
deriving DecidableEq

/-- The opened file as an `io.Reader`. -/
def SourceFile.reader (f : SourceFile) : Reader :=
  match f.readFault with
  | none => { data := f.content, failure := none }
  | some (k, c) => { data := f.content.take k, failure := some c }

/-- Errors that abort a backup. -/
inductive BackupErr where
  | store (e : StoreErr)
  | index (e : IndexErr)
  /-- The error of `os.Stat(sourcePath)`. -/
  | stat
  /-- An error handed to the callback of `filepath.Walk`. -/
  | walk (code : Nat)
deriving DecidableEq

/-- The `for` loop of `processFile`. `i` numbers the chunks and selects the
draw of the random source; `none` is returned when the fuel is used up. -/
def processLoop (P : Prims) (fileID : Nat) (rnd : Nat → Option Nonce) :
    Nat → Nat → FixedSizeChunker → Int → Index → ContentAddressableStore →
      Option (Except BackupErr Unit × Index × ContentAddressableStore)
  | 0, _, _, _, _, _ => none
  | fuel + 1, i, chnk, offset, idx, store =>
    match chnk.Next P with
    | (.stop _, _) => some (.ok (), idx, store)
    | (.chunk _ (some _), _) => some (.ok (), idx, store)
    | (.chunk chunk none, chnk1) =>
      match store.Put P (rnd i) chunk.Data with
      | (.error e, store1) => some (.error (.store e), idx, store1)
      | (.ok _, store1) =>
        let idx1 := idx.AddChunk fileID chunk.Hash offset (chunk.Data.length : Int)
        processLoop P fileID rnd fuel (i + 1) chnk1
          (wrapInt64 (offset + (chunk.Data.length : Int))) idx1 store1

/-- The function `processFile`, for a chunk size `size` (the source passes
`chunker.DefaultChunkSize`). Draw `0` of `rnd` encrypts the path, draw `i + 1`
the chunk `i`. The loop gets one round per byte of the file and one more. -/
def processFile (P : Prims) (size : Int) (f : SourceFile) (snapshotID : Nat)
    (rnd : Nat → Option Nonce) (idx : Index) (store : ContentAddressableStore) :
    Option (Except BackupErr Unit × Index × ContentAddressableStore) :=
  if f.openFails then some (.ok (), idx, store)
  else
    match idx.AddFile P (rnd 0) snapshotID f.path f.content.length f.mode f.modTime with
    | (.error e, idx1) => some (.error (.index e), idx1, store)
    | (.ok fileID, idx1) =>
      let chnk := NewFixedSizeChunker f.reader size
      processLoop P fileID (fun i => rnd (i + 1)) (f.content.length + 1) 0 chnk 0 idx1 store

/-- What `filepath.Walk` hands to its callback. -/
inductive WalkEntry where
  | failed (code : Nat)
  | dir
  | file (f : SourceFile)
deriving DecidableEq

/-- What `os.Stat(sourcePath)` finds. -/
inductive Source where
  | missing
  | file (f : SourceFile)
  | dir (entries : List WalkEntry)
deriving DecidableEq

/-- The walk of `Backup` over a directory; `j` numbers the entries. -/
def walkFiles (P : Prims) (size : Int) (snapshotID : Nat) (rnd : Nat → Nat → Option Nonce) :
    List WalkEntry → Nat → Index → ContentAddressableStore →
      Option (Except BackupErr Unit × Index × ContentAddressableStore)
  | [], _, idx, store => some (.ok (), idx, store)
  | .failed c :: _, _, idx, store => some (.error (.walk c), idx, store)
  | .dir :: rest, j, idx, store => walkFiles P size snapshotID rnd rest (j + 1) idx store
  | .file f :: rest, j, idx, store =>
    match processFile P size f snapshotID (rnd j) idx store with
    | none => none
    | some (.error e, idx1, store1) => some (.error e, idx1, store1)
    | some (.ok _, idx1, store1) => walkFiles P size snapshotID rnd rest (j + 1) idx1 store1

/-- The function `Backup` on the index and the store of a repository: the
snapshot id or the error, and the repository afterwards. `absPath` is
`filepath.Abs(sourcePath)`. The entry that `Backup` first appends to the audit
log goes to another file and its result is dropped; see `LogAction`. -/
def Backup (P : Prims) (size : Int) (now : Nat) (absPath : String) (src : Source)
    (rnd : Nat → Nat → Option Nonce) (idx : Index) (store : ContentAddressableStore) :
    Option (Except BackupErr Nat × Index × ContentAddressableStore) :=
  match idx.CreateSnapshot now ("Backup of " ++ absPath) with
  | (snapshotID, idx1) =>
    match src with
    | .missing => some (.error .stat, idx1, store)
    | .file f =>
      match processFile P size f snapshotID (rnd 0) idx1 store with
      | none => none
      | some (.error e, idx2, store2) => some (.error e, idx2, store2)
      | some (.ok _, idx2, store2) => some (.ok snapshotID, idx2, store2)
    | .dir entries =>
      match walkFiles P size snapshotID rnd entries 0 idx1 store with
      | none => none
      | some (.error e, idx2, store2) => some (.error e, idx2, store2)
      | some (.ok _, idx2, store2) => some (.ok snapshotID, idx2, store2)

/-! ## `pkg/restore` -/

/-- Errors of `restoreFile`. -/
inductive RestoreErr where
  /-- The error of `hash.Parse`. -/
  | parse (hash : String)
  /-- "chunk missing or corrupted hash: ..." -/
  | chunk (hash : String) (e : StoreErr)
deriving DecidableEq

/-- The reassembly loop of `restoreFile`: `out` holds the bytes written so far. -/
def restoreChunks (P : Prims) (store : ContentAddressableStore) :
    List ChunkRecord → Bytes → Except RestoreErr Unit × Bytes
  | [], out => (.ok (), out)
  | c :: rest, out =>
    match Hash.Parse c.Hash with
    | none => (.error (.parse c.Hash), out)
    | some h =>
      match store.Get P h with
      | .error e => (.error (.chunk c.Hash e), out)
      | .ok data => restoreChunks P store rest (out ++ data)

/-- The function `restoreFile`: its result and the content of the destination
file (`none` in a dry run, where no file is made). -/
def restoreFile (P : Prims) (idx : Index) (store : ContentAddressableStore) (f : FileRecord)
    (dryRun : Bool) : Except RestoreErr Unit × Option Bytes :=
  let chunks := idx.GetChunks f.ID
  match restoreChunks P store chunks [] with
  | (res, out) => (res, if dryRun then none else some out)

/-! ## `pkg/security`: the audit log -/

/-- Go `security.AuditEntry`. -/
structure AuditEntry where
  Timestamp : Nat
  Action : String
  User : String
  Details : String
  PrevHash : String
  Hash : String
deriving DecidableEq

/-- What the JSON decoder meets next in the log: a value that decodes into an
entry, or text that does not decode. -/
inductive LogItem where
  | entry (e : AuditEntry)
  | undecodable
deriving DecidableEq

/-- The file `security.log`: absent, or its items in order. -/
abbrev LogFile := Option (List LogItem)

/-- The genesis hash: 64 zeros. -/
def genesisHash : String :=
  "0000000000000000000000000000000000000000000000000000000000000000"

/-- The hash both `LogAction` and `VerifyChain` compute for an entry. -/
def computeHash (P : Prims) (e : AuditEntry) : String :=
  (P.sha256 (e.PrevHash ++ P.formatRFC3339Nano e.Timestamp ++ e.Action ++ e.User
    ++ e.Details)).hexString

/-- Errors of the audit log. -/
inductive LogErr where
  /-- "security repo dir not set" -/
  | repoDirNotSet
  /-- "failed to get last hash: ..." -/
  | lastHash
  /-- "corrupt log line n: ..." -/
  | corruptLine (line : Nat)
  /-- "broken chain at line n: prev_hash mismatch" -/
  | brokenChain (line : Nat)
  /-- "integrity failure at line n: hash mismatch" -/
  | integrityFailure (line : Nat)
deriving DecidableEq

/-- The decoding loop of `getLastHash`. -/
def lastHashLoop : List LogItem → String → Option String
  | [], lastLine => some lastLine
  | .undecodable :: _, _ => none
  | .entry e :: rest, _ => lastHashLoop rest e.Hash

/-- The function `getLastHash`; `none` is its error. -/
def getLastHash (log : LogFile) : Option String :=
  match log with
  | none => some genesisHash
  | some items =>
    match lastHashLoop items "" with
    | none => none
    | some lastLine => if lastLine = "" then some genesisHash else some lastLine

/-- The function `LogAction`: `repoDir` is the variable `RepoDir`, `now` the
clock and `user` the environment variable `USER`. The action, the user and the
details are Go strings: the hash is taken of their bytes as they are, and the
entry is appended as `encoding/json` writes it and the decoder of
`getLastHash` and `VerifyChain` reads it back. -/
def LogAction (P : Prims) (repoDir : String) (now : Nat) (user : GoString) (log : LogFile)
    (action details : GoString) : Option LogErr × LogFile :=
  if repoDir = "" then (some .repoDirNotSet, log)
  else
    match getLastHash log with
    | none => (some .lastHash, log)
    | some prevHash =>
      let hash := (P.sha256Raw (GoString.ofText prevHash
        ++ GoString.ofText (P.formatRFC3339Nano now) ++ action ++ user ++ details)).hexString
      let written : AuditEntry :=
        { Timestamp := now, Action := GoString.jsonText action, User := GoString.jsonText user,
          Details := GoString.jsonText details, PrevHash := prevHash, Hash := hash }
      (none, some (log.getD [] ++ [.entry written]))

/-- The loop of `VerifyChain`. -/
def verifyLoop (P : Prims) : List LogItem → String → Nat → Bool × Option LogErr
  | [], _, _ => (true, none)
  | .undecodable :: _, _, line => (false, some (.corruptLine line))
  | .entry entry :: rest, prevHash, line =>
    if entry.PrevHash ≠ prevHash then (false, some (.brokenChain line))
    else if entry.Hash ≠ computeHash P entry then (false, some (.integrityFailure line))
    else verifyLoop P rest entry.Hash (line + 1)

/-- The function `VerifyChain`. -/
def VerifyChain (P : Prims) (log : LogFile) : Bool × Option LogErr :=
  match log with
  | none => (true, none)
  | some items => verifyLoop P items genesisHash 0

/-! ## `pkg/intelligence`: the repository audit -/

/-- Go `intelligence.AuditReport`. -/
structure AuditReport where
  TotalFiles : Nat
  TotalChunks : Nat
  MissingChunks : Nat
  CorruptChunks : Nat
  Healthy : Bool
  Score : Nat
deriving DecidableEq

/-- The loop of `AuditRepository` over the chunks of a file; `checked` is the
set `checkedChunks`. -/
def auditChunks (P : Prims) (store : ContentAddressableStore) :
    List ChunkRecord → AuditReport → List String → AuditReport × List String
  | [], report, checked => (report, checked)
  | c :: rest, report, checked =>
    if c.Hash ∈ checked then auditChunks P store rest report checked
    else
      let checked1 := c.Hash :: checked
      let report1 := { report with TotalChunks := report.TotalChunks + 1 }
      match Hash.Parse c.Hash with
      | none =>
        auditChunks P store rest { report1 with CorruptChunks := report1.CorruptChunks + 1 }
          checked1
      | some h =>
        match store.Get P h with
        | .ok _ => auditChunks P store rest report1 checked1
        | .error _ =>
          if ¬ store.Has h then
            auditChunks P store rest { report1 with MissingChunks := report1.MissingChunks + 1 }
              checked1
          else
            auditChunks P store rest { report1 with CorruptChunks := report1.CorruptChunks + 1 }
              checked1

/-- The loop of `AuditRepository` over the files of a snapshot. -/
def auditFiles (P : Prims) (idx : Index) (store : ContentAddressableStore) :
    List FileRecord → AuditReport → List String → AuditReport × List String
  | [], report, checked => (report, checked)
  | f :: rest, report, checked =>
    match auditChunks P store (idx.GetChunks f.ID) report checked with
    | (report1, checked1) => auditFiles P idx store rest report1 checked1

/-- The loop of `AuditRepository` over the snapshots; an error of `GetFiles`
ends it with the report so far. -/
def auditSnapshots (P : Prims) (idx : Index) (store : ContentAddressableStore) :
    List SnapshotRow → AuditReport → List String → AuditReport × Option IndexErr
  | [], report, _ =>
    if report.MissingChunks > 0 ∨ report.CorruptChunks > 0 then
      ({ report with Healthy := false, Score := 0 }, none)
    else (report, none)
  | s :: rest, report, checked =>
    match idx.GetFiles P s.id with
    | .error e => (report, some e)
    | .ok files =>
      let report1 := { report with TotalFiles := report.TotalFiles + files.length }
      match auditFiles P idx store files report1 checked with
      | (report2, checked2) => auditSnapshots P idx store rest report2 checked2

/-- The function `AuditRepository`. -/
def AuditRepository (P : Prims) (idx : Index) (store : ContentAddressableStore) :
    AuditReport × Option IndexErr :=
  auditSnapshots P idx store idx.ListSnapshots
    { TotalFiles := 0, TotalChunks := 0, MissingChunks := 0, CorruptChunks := 0,
      Healthy := true, Score := 100 } []

/-! ## Repeated calls of `Next`, and what they are compared with -/

/-- Repeated calls of `Next`, up to and with the first call that returns no
chunk or an error: the results in order (`none` when the fuel is used up). -/
def nextAll (P : Prims) : Nat → FixedSizeChunker → Option (List NextResult)
  | 0, _ => none
  | fuel + 1, c =>
    match c.Next P with
    | (.chunk ch none, c1) => (nextAll P fuel c1).map (fun rs => .chunk ch none :: rs)
    | (r, _) => some [r]

/-- The consecutive pieces of `s` bytes of `data`, the last one shorter when
`s` does not divide the length; `fuel` bounds the number of pieces. -/
def splitFuel (s : Nat) : Nat → Bytes → List Bytes
  | 0, _ => []
  | fuel + 1, data => if data = [] then [] else data.take s :: splitFuel s fuel (data.drop s)

/-- The consecutive pieces of `s` bytes of `data`. -/
def splitBytes (s : Nat) (data : Bytes) : List Bytes :=
  splitFuel s data.length data

/-- The chunk size a chunker made with `size` works with. -/
def chunkSizeOf (size : Int) : Nat :=
  (NewFixedSizeChunker ⟨[], none⟩ size).size

/-- The rows `AddChunk` appends for the pieces of one file, from the row id
`seq` and the offset `off` on. -/
def chunkRows (P : Prims) (fileID : Nat) : Nat → Int → List Bytes → List ChunkRow
  | _, _, [] => []
  | seq, off, p :: ps =>
    ⟨seq + 1, fileID, (P.blake3 p).hexString, off, (p.length : Int)⟩ ::
      chunkRows P fileID (seq + 1) (wrapInt64 (off + (p.length : Int))) ps

/-- The rows chain from `start` to `stop`: each row begins where the one
before ended, and has a positive size. -/
def Covers : Int → List ChunkRow → Int → Prop
  | start, [], stop => start = stop
  | start, r :: rs, stop => r.offset = start ∧ 0 < r.size ∧ Covers (start + r.size) rs stop

instance decidableCovers : ∀ (start : Int) (rows : List ChunkRow) (stop : Int),
    Decidable (Covers start rows stop)
  | start, [], stop => inferInstanceAs (Decidable (start = stop))
  | start, r :: rs, stop =>
    have := decidableCovers (start + r.size) rs stop
    inferInstanceAs (Decidable (r.offset = start ∧ 0 < r.size ∧ Covers (start + r.size) rs stop))

/-- The rows of the table `chunks` for a file, in insertion order. -/
def Index.rowsOf (i : Index) (fileID : Nat) : List ChunkRow :=
  i.chunks.filter (fun r => r.file_id = fileID)

/-- No chunk row refers to a file id that is yet to be handed out. -/
def Index.WF (i : Index) : Prop :=
  ∀ r ∈ i.chunks, r.file_id ≤ i.seqFiles


/-! ## What is assumed of a repository -/

/-- The store holds only objects written by `Put` under its key, for
plaintexts among `W`: an object filed under a hash opens, under the key of the
store, to the zstd encoding of a plaintext of `W` with that hash. -/
def StoreInv (P : Prims) (s : ContentAddressableStore) (W : List Bytes) : Prop :=
  ∀ (h : Hash) (env : Bytes), s.backend.Get h.hexString = some env →
    ∃ x ∈ W, P.blake3 x = h ∧ s.key.Decrypt P env = .ok (P.zstdEncode x)

/-- No two plaintexts of `W` have the same BLAKE3 hash. -/
def CollisionFree (P : Prims) (W : List Bytes) : Prop :=
  ∀ a ∈ W, ∀ b ∈ W, P.blake3 a = P.blake3 b → a = b


/-- The path of a file row was written by `AddFile` under the key: it is the
hex text of an envelope that opens under the key. -/
def PathReadable (P : Prims) (key : MasterKey) (r : FileRow) : Prop :=
  ∃ env pt, r.path = hexEncode env ∧ key.Decrypt P env = .ok pt

/-- A chunk row was written by `processFile` into the store: its hash is the
text of a hash, and the backend has an object under it. -/
def RowStored (s : ContentAddressableStore) (r : ChunkRow) : Prop :=
  ∃ h : Hash, r.hash = h.hexString ∧ s.backend.Has r.hash = true

/-- What holds of a repository that backups alone have written. -/
structure RepoInv (P : Prims) (idx : Index) (s : ContentAddressableStore) : Prop where
  wf : idx.WF
  rows : ∀ r ∈ idx.chunks, RowStored s r
  paths : ∀ r ∈ idx.files, PathReadable P idx.key r
  store : ∃ W, StoreInv P s W

/-- How a repository changes while files are processed: rows are only added,
new chunk rows belong to new files and have their object, new file rows are
readable, and no object is removed or changed. -/
structure Grows (P : Prims) (idx : Index) (s : ContentAddressableStore) (idx1 : Index)
    (s1 : ContentAddressableStore) : Prop where
  key : idx1.key = idx.key
  skey : s1.key = s.key
  seq : idx.seqFiles ≤ idx1.seqFiles
  chunks : ∃ rows, idx1.chunks = idx.chunks ++ rows ∧
    ∀ r ∈ rows, idx.seqFiles < r.file_id ∧ r.file_id ≤ idx1.seqFiles ∧ RowStored s1 r
  files : ∃ rows, idx1.files = idx.files ++ rows ∧ ∀ r ∈ rows, PathReadable P idx.key r
  keep : ∀ k, s.backend.Has k = true → s1.backend.Get k = s.backend.Get k

/-- The regular files of a source, in the order of the walk. -/
def Source.files : Source → List SourceFile
  | .missing => []
  | .file f => [f]
  | .dir entries => entries.filterMap (fun e => match e with | .file f => some f | _ => none)

/-- The pieces of the bytes that the files of a source deliver, for a chunk size. -/
def piecesOf (size : Int) (files : List SourceFile) : List Bytes :=
  files.flatMap (fun f => splitBytes (chunkSizeOf size) f.reader.data)

/-- The repositories that backups make, from an empty index and an empty
directory on: each step is one run of `Backup`, whatever its source, its
random draws and its result. -/
inductive Reachable (P : Prims) (key : MasterKey) : Index → ContentAddressableStore → Prop where
  | init : Reachable P key (Index.empty key) { backend := { files := [], puts := 0 }, key := key }
  | backup (size : Int) (now : Nat) (absPath : String) (src : Source)
      (rnd : Nat → Nat → Option Nonce) (idx idx1 : Index) (s s1 : ContentAddressableStore)
      (res : Except BackupErr Nat) :
      Reachable P key idx s →
      Backup P size now absPath src rnd idx s = some (res, idx1, s1) →
      Reachable P key idx1 s1

/-! ## Stand-ins for the primitives, to evaluate the definitions on examples -/

/-- The character codes of a text, as bytes. -/
def toyBytes (s : String) : Bytes :=
  s.data.map (fun c => Fin.ofNat c.toNat)

/-- A checksum of a text: its length, the sum of its character codes and the
sum of the running sums. -/
def toyChecksum (s : String) : Bytes :=
  let r := s.data.foldl (fun (acc : Nat × Nat) c => (acc.1 + c.toNat, acc.2 + acc.1 + c.toNat))
    (0, 0)
  [Fin.ofNat s.length, Fin.ofNat r.1, Fin.ofNat r.2]

/-- The number a piece of a Go string counts with in `toyPrims`. -/
def goCode (u : GoUnit) : Nat :=
  match u with
  | .char c => c.toNat
  | .bad b => b.val

/-- A checksum of a Go string: its length, the sum of the numbers of its pieces
and the sum of the running sums. -/
def rawChecksum (g : GoString) : Bytes :=
  let r := g.foldl (fun (acc : Nat × Nat) u => (acc.1 + goCode u, acc.2 + acc.1 + goCode u))
    (0, 0)
  [Fin.ofNat g.length, Fin.ofNat r.1, Fin.ofNat r.2]

/-- Stand-ins for the primitives: they keep the laws, and nothing more is
meant by them. -/
def toyPrims : Prims where
  blake3 := fun d => copy32 (Fin.ofNat d.length :: d)
  zstdEncode := fun d => 7 :: d
  zstdDecode := fun d =>
    match d with
    | [] => none
    | b :: rest => if b = 7 then some rest else none
  gcmSeal := fun _ n pt => n ++ pt
  gcmOpen := fun _ n ct => if ct.take n.length = n then some (ct.drop n.length) else none
  sha256Raw := fun g => copy32 (rawChecksum g ++ g.map (fun u => Fin.ofNat (goCode u)))
  formatRFC3339Nano := fun t => String.mk (List.replicate t 'T')
  strBytes := toyBytes
  bytesStr := fun b => String.mk (b.map (fun x => Char.ofNat x.val))

/-- A key of 32 zero bytes. -/
def toyKey : MasterKey :=
  ⟨List.replicate 32 0, rfl⟩

/-- A nonce of 12 bytes, all equal to `b`. -/
def toyNonce (b : Byte) : Nonce :=
  ⟨List.replicate 12 b, rfl⟩

/-- A store over an empty directory. -/
def toyStore : ContentAddressableStore :=
  { backend := { files := [], puts := 0 }, key := toyKey }

/-- A store whose one object, filed under the hash of `[1]`, holds the
envelope of the plaintext `[2]`. -/
def swappedStore : ContentAddressableStore :=
  { backend :=
      { files := [(objectPath (toyPrims.blake3 [1]).hexString,
          (toyNonce 0).bytes ++ toyPrims.gcmSeal toyKey (toyNonce 0).bytes
            (toyPrims.zstdEncode [2]))],
        puts := 1 },
    key := toyKey }

/-- The repository `(idx1, s1)` comes from `(idx, s)` by runs of `Backup`,
none or more, whatever their sources, random draws and results. -/
inductive Later (P : Prims) (idx : Index) (s : ContentAddressableStore) :
    Index → ContentAddressableStore → Prop where
  | now : Later P idx s idx s
  | backup (size : Int) (now : Nat) (absPath : String) (src : Source)
      (rnd : Nat → Nat → Option Nonce) (idx1 idx2 : Index) (s1 s2 : ContentAddressableStore)
      (res : Except BackupErr Nat) :
      Later P idx s idx1 s1 →
      Backup P size now absPath src rnd idx1 s1 = some (res, idx2, s2) →
      Later P idx s idx2 s2

/-- A report without findings: no missing and no corrupt chunk, healthy, score 100. -/
def AuditReport.Clean (r : AuditReport) : Prop :=
  r.MissingChunks = 0 ∧ r.CorruptChunks = 0 ∧ r.Healthy = true ∧ r.Score = 100

/-- A source file that opens and reads without error. -/
def srcFile (path : String) (content : Bytes) : SourceFile :=
  { path := path, openFails := false, content := content, mode := 420, modTime := 0,
    readFault := none }

/-- A random source that gives the nonce of bytes `j + i` at draw `i` for file `j`. -/
def toyRnd (j i : Nat) : Option Nonce :=
  some (toyNonce (Fin.ofNat (j + i)))

/-- A backup, with chunks of 2 bytes, of a directory with two files that share
a chunk, into an empty repository. -/
def toyBackup : Option (Except BackupErr Nat × Index × ContentAddressableStore) :=
  Backup toyPrims 2 0 "/src"
    (.dir [.dir, .file (srcFile "/src/a" [1, 2, 3]), .file (srcFile "/src/b" [1, 2, 4, 5])])
    toyRnd (Index.empty toyKey) toyStore

/-- The repository after `toyBackup`. -/
def toyRepo : Index × ContentAddressableStore :=
  match toyBackup with
  | some (_, idx, s) => (idx, s)
  | none => (Index.empty toyKey, toyStore)

/-- The record of a file can be restored to `content`: its rows, in insertion
order, are in ascending order of offset and are the rows of pieces that make
up `content`, and the store gives each piece back for its hash. -/
def Restorable (P : Prims) (idx : Index) (s : ContentAddressableStore) (fileID : Nat)
    (content : Bytes) : Prop :=
  ∃ (pieces : List Bytes) (seq : Nat) (off : Int),
    idx.rowsOf fileID = chunkRows P fileID seq off pieces ∧
    (idx.rowsOf fileID).Sorted (fun a b => a.offset ≤ b.offset) ∧
    pieces.flatten = content ∧
    ∀ p ∈ pieces, s.backend.Has (P.blake3 p).hexString = true ∧ s.Get P (P.blake3 p) = .ok p

/-- A file of four bytes whose reading fails once two bytes are delivered. -/
def faultyFile : SourceFile :=
  { path := "/src/a", openFails := false, content := [1, 2, 3, 4], mode := 420, modTime := 0,
    readFault := some (2, 5) }

/-! ## The audit log: what a valid chain is -/

/-- A log file made of decodable entries. -/
def logOf (entries : List AuditEntry) : LogFile :=
  some (entries.map LogItem.entry)

/-- The chain as the specification words it: the first entry has the genesis
hash as `prev_hash`, every later entry has the hash of the entry before it as
`prev_hash`, and the hash of every entry is the hex SHA-256 of its `prev_hash`,
time stamp, action, user and details put together. -/
def ChainValid (P : Prims) (entries : List AuditEntry) : Prop :=
  (∀ e, entries.head? = some e → e.PrevHash = genesisHash) ∧
  (∀ (i : Nat) (e e1 : AuditEntry), entries[i]? = some e → entries[i + 1]? = some e1 →
    e1.PrevHash = e.Hash) ∧
  (∀ e ∈ entries, e.Hash = computeHash P e)

/-- The chain, read from the front: every entry continues `prev` and has the
hash computed for it. -/
def ChainFrom (P : Prims) : String → List AuditEntry → Prop
  | _, [] => True
  | prev, e :: rest => e.PrevHash = prev ∧ e.Hash = computeHash P e ∧ ChainFrom P e.Hash rest

/-- One call of `LogAction`: the clock, the user, the action and the details. -/
structure LogCall where
  now : Nat
  user : GoString
  action : GoString
  details : GoString

/-- The user, the action and the details of a call are valid UTF-8. -/
def LogCall.valid (c : LogCall) : Bool :=
  GoString.valid c.user && GoString.valid c.action && GoString.valid c.details

/-- The logs that successful calls of `LogAction` make, from an absent file on. -/
inductive Logged (P : Prims) : LogFile → Prop where
  | absent : Logged P none
  | call (repoDir : String) (c : LogCall) (log log1 : LogFile) :
      Logged P log →
      LogAction P repoDir c.now c.user log c.action c.details = (none, log1) →
      Logged P log1

/-- The logs that successful calls of `LogAction` make, from an absent file on,
when the user, the action and the details of every call are valid UTF-8. -/
inductive LoggedText (P : Prims) : LogFile → Prop where
  | absent : LoggedText P none
  | call (repoDir : String) (c : LogCall) (log log1 : LogFile) :
      LoggedText P log → c.valid = true →
      LogAction P repoDir c.now c.user log c.action c.details = (none, log1) →
      LoggedText P log1

/-- The log after one call of `LogAction`. -/
def toyLog1 : LogFile :=
  (LogAction toyPrims "/repo" 1 (GoString.ofText "ann") none (GoString.ofText "BACKUP_START")
    (GoString.ofText "Backing up /src")).2

/-- The log after two calls of `LogAction`. -/
def toyLog2 : LogFile :=
  (LogAction toyPrims "/repo" 2 (GoString.ofText "ann") toyLog1 (GoString.ofText "RESTORE")
    (GoString.ofText "snapshot 1")).2

/-- The log after three calls of `LogAction`. -/
def toyLog : LogFile :=
  (LogAction toyPrims "/repo" 3 (GoString.ofText "bob") toyLog2 (GoString.ofText "AUDIT")
    (GoString.ofText "all")).2

/-- The details of a backup of the directory `/src/` followed by the byte
`0xFF`, which is part of no valid UTF-8 encoding: `Backup` calls `LogAction`
with the text `Backing up ` and the source path. -/
def invalidDetails : GoString :=
  GoString.ofText "Backing up /src/" ++ [GoUnit.bad 0xFF]

/-- The log after one call of `LogAction` with `invalidDetails`. -/
def brokenLog : LogFile :=
  (LogAction toyPrims "/repo" 1 (GoString.ofText "ann") none (GoString.ofText "BACKUP_START")
    invalidDetails).2

/-- The items of `toyLog` with the details of the middle entry changed. -/
def tamperedLog : LogFile :=
  match toyLog with
  | some [a, .entry e, c] => some [a, .entry { e with Details := "snapshot 9" }, c]
  | other => other

/-! ## Further library calls -/

/-- Library calls beside the primitives of `Prims`. -/
structure Lib where
  /-- Go `argon2.IDKey(passphrase, salt, 1, 64*1024, 4, 32)`. -/
  argon2id : String → Bytes → Bytes
  /-- Go `sort.Slice` on a slice of file records, for a function `less`. -/
  sortSlice : (FileRecord → FileRecord → Bool) → List FileRecord → List FileRecord
  /-- Go `filepath.Match(pattern, name)`: the result `matched`; the callers drop
  the error. -/
  Match : String → String → Bool

/-- What `sort.Slice` promises when `less` is a strict weak ordering: the
result is a rearrangement of the slice in which no element is less than one
before it. Nothing is promised on the order of elements that `less` does not
tell apart. -/
structure Lib.SortLaw (L : Lib) : Prop where
  sorted : ∀ (less : FileRecord → FileRecord → Bool) (files : List FileRecord),
    (∀ a, less a a = false) →
    (∀ a b c, less a b = true → less b c = true → less a c = true) →
    (∀ a b c, less a b = false → less b c = false → less a c = false) →
    (L.sortSlice less files).Perm files ∧
    (L.sortSlice less files).Pairwise (fun a b => less b a = false)

/-! ## `pkg/crypto`: the key file -/

/-- Go `crypto.KeyFile`. -/
structure KeyFile where
  Salt : Bytes
  EncryptedKey : Bytes
  Algorithm : String
deriving DecidableEq

/-- What `os.ReadFile` and `json.Unmarshal` make of the key file. -/
inductive KeyFileRead where
  | unreadable
  | unparsable
  | parsed (kf : KeyFile)
deriving DecidableEq

/-- Errors of `LoadKey`: those of reading and parsing, and the error made
with `fmt.Errorf` from a text. -/
inductive KeyErr where
  | read
  | parse
  | message (text : String)
deriving DecidableEq

/-- Go `copy(k[:], b)` into a zeroed `MasterKey`. -/
def copyKey (b : Bytes) : MasterKey :=
  ⟨b.take KeySize ++ List.replicate (KeySize - b.length) 0, by
    simp only [List.length_append, List.length_take, List.length_replicate]
    omega⟩

/-- Go `MasterKey{}`. -/
def zeroKey : MasterKey :=
  ⟨List.replicate KeySize 0, List.length_replicate _ _⟩

/-- The function `DeriveKeyFromPassphrase`. -/
def DeriveKeyFromPassphrase (L : Lib) (passphrase : String) (salt : Bytes) : Bytes :=
  L.argon2id passphrase salt

/-- The function `LoadKey`: the key and the error it returns. -/
def LoadKey (P : Prims) (L : Lib) (file : KeyFileRead) (passphrase : String) :
    MasterKey × Option KeyErr :=
  match file with
  | .unreadable => (zeroKey, some .read)
  | .unparsable => (zeroKey, some .parse)
  | .parsed kf =>
    let kekFunc := DeriveKeyFromPassphrase L passphrase kf.Salt
    let kek := copyKey kekFunc
    match kek.Decrypt P kf.EncryptedKey with
    | .error _ => (zeroKey, some (.message "invalid passphrase or corrupted key file"))
    | .ok decryptedBytes => (copyKey decryptedBytes, none)

/-- A matcher for patterns of `*`, `?` and plain characters, where neither `*`
nor `?` takes a separator. -/
def toyGlob : Nat → List Char → List Char → Bool
  | 0, _, _ => false
  | _ + 1, [], name => name = []
  | fuel + 1, p :: ps, name =>
    if p = '*' then
      toyGlob fuel ps name ||
        (match name with
         | [] => false
         | c :: cs => c ≠ '/' && toyGlob fuel (p :: ps) cs)
    else
      match name with
      | [] => false
      | c :: cs => (if p = '?' then c ≠ '/' else p = c) && toyGlob fuel ps cs

/-- Stand-ins for the library calls: a key derivation that mixes the text and
the salt, a sort by insertion, and the matcher `toyGlob`. -/
def toyLib : Lib where
  argon2id := fun passphrase salt => (copy32 (toyChecksum passphrase ++ salt)).bytes
  sortSlice := fun less files => files.insertionSort (fun a b => less b a = false)
  Match := fun pattern name =>
    toyGlob (pattern.length + name.length + 1) pattern.data name.data

/-- A key file whose envelope is shorter than a nonce. -/
def shortKeyFile : KeyFile :=
  { Salt := List.replicate 16 1, EncryptedKey := [1, 2, 3], Algorithm := "argon2id_aes256gcm" }

/-- A key file whose envelope does not open: its first twelve bytes are taken
for the nonce and the stand-in for AES-GCM finds another nonce sealed. -/
def alteredKeyFile : KeyFile :=
  { Salt := List.replicate 16 1,
    EncryptedKey := List.replicate 12 3 ++ List.replicate 12 4 ++ List.replicate 32 9,
    Algorithm := "argon2id_aes256gcm" }

/-- A file given by a relative path, as `processFile` meets it when `Backup`
is called with that path. -/
def relativeFile : SourceFile :=
  srcFile "data/a.txt" [1, 2, 3]

/-! ## `path/filepath`, for Unix paths -/

/-- Go `filepath.Separator`. -/
def Separator : Char := '/'

/-- Go `filepath.IsAbs`. -/
def IsAbs (path : String) : Bool :=
  path.data.head? = some Separator

/-- The elements of a path between its separators. -/
def splitPath : List Char → List (List Char)
  | [] => [[]]
  | c :: rest =>
    if c = Separator then [] :: splitPath rest
    else
      match splitPath rest with
      | [] => [[c]]
      | x :: xs => (c :: x) :: xs

/-- The elements of a path put together with separators. -/
def joinPath : List (List Char) → List Char
  | [] => []
  | [x] => x
  | x :: y :: rest => x ++ Separator :: joinPath (y :: rest)

/-- The pass of `filepath.Clean` over the elements of a path: empty elements
and `.` are dropped, `..` removes the element before it, is dropped at the
root and is kept at the start of a path that is not rooted. `out` holds the
elements kept so far, the last one first. -/
def cleanParts (rooted : Bool) : List (List Char) → List (List Char) → List (List Char)
  | [], out => out.reverse
  | comp :: rest, out =>
    if comp = [] ∨ comp = ['.'] then cleanParts rooted rest out
    else if comp = ['.', '.'] then
      match out with
      | [] => if rooted then cleanParts rooted rest [] else cleanParts rooted rest [comp]
      | top :: below =>
        if top = ['.', '.'] then cleanParts rooted rest (comp :: out)
        else cleanParts rooted rest below
    else cleanParts rooted rest (comp :: out)

/-- Go `filepath.Clean`. -/
def Clean (path : String) : String :=
  if path = "" then "."
  else
    let rooted := IsAbs path
    let joined := joinPath (cleanParts rooted (splitPath path.data) [])
    if rooted then String.mk (Separator :: joined)
    else if joined = [] then "."
    else String.mk joined

/-- Go `filepath.Join` of two elements. -/
def Join (a b : String) : String :=
  if a ≠ "" then Clean (a ++ "/" ++ b)
  else if b ≠ "" then Clean b
  else ""

/-- Go `filepath.Base`. -/
def Base (path : String) : String :=
  if path = "" then "."
  else
    let stripped := (path.data.reverse.dropWhile (fun c => c = Separator)).reverse
    let last := (stripped.reverse.takeWhile (fun c => c ≠ Separator)).reverse
    if last = [] then "/" else String.mk last

/-- A path lies inside a directory: it is the directory or begins with the
directory and a separator. -/
def IsInside (dir dest : String) : Bool :=
  dest = Clean dir || ((Clean dir).data ++ [Separator]).isPrefixOf dest.data

/-! ## `pkg/restore`: a snapshot -/

/-- The loop of `getPriorityScore`; `i` is the index of the next pattern. -/
def priorityLoop (L : Lib) (base : String) : List String → Nat → Nat
  | [], i => i
  | p :: rest, i => if L.Match p base then i else priorityLoop L base rest (i + 1)

/-- The function `getPriorityScore`. -/
def getPriorityScore (L : Lib) (path : String) (patterns : List String) : Nat :=
  priorityLoop L (Base path) patterns 0

/-- The function `less` that `RestoreSnapshot` hands to `sort.Slice`. Paths are
compared as Go compares strings, which for texts is the order of their
characters one by one. -/
def restoreLess (L : Lib) (patterns : List String) (a b : FileRecord) : Bool :=
  let pI := getPriorityScore L a.Path patterns
  let pJ := getPriorityScore L b.Path patterns
  if pI ≠ pJ then decide (pI < pJ) else decide (a.Path.data < b.Path.data)

/-- The order in which `RestoreSnapshot` visits the files. -/
def restoreOrder (L : Lib) (files : List FileRecord) (patterns : List String) :
    List FileRecord :=
  L.sortSlice (restoreLess L patterns) files

/-- The files of the file system that a restore writes to, by path. -/
abbrev OutFS := List (String × Bytes)

/-- Go `os.Stat(path)` finds something. -/
def statOut : OutFS → String → Bool
  | [], _ => false
  | (q, _) :: rest, p => if q = p then true else statOut rest p

/-- The content of the file at a path. -/
def readOut : OutFS → String → Option Bytes
  | [], _ => none
  | (q, d) :: rest, p => if q = p then some d else readOut rest p

/-- What `restoreFile` leaves at the destination: nothing new in a dry run,
else the file made by `os.Create` with the bytes written to it. -/
def writeOut (fs : OutFS) (dest : String) (out : Option Bytes) : OutFS :=
  match out with
  | none => fs
  | some data => (dest, data) :: fs.filter (fun e => e.1 ≠ dest)

/-- The destination that `RestoreSnapshot` computes for a file. -/
def destPath (targetDir : String) (f : FileRecord) : String :=
  let relPath :=
    if IsAbs f.Path then
      match f.Path.data with
      | c :: rest => if c = Separator then String.mk rest else f.Path
      | [] => f.Path
    else f.Path
  Join targetDir relPath

/-- Errors of `RestoreSnapshot`. -/
inductive SnapErr where
  /-- "failed to fetch files for snapshot n: ..." -/
  | fetch (snapshotID : Nat) (e : IndexErr)
  /-- "file already exists: dest (use --force to overwrite)" -/
  | fileExists (dest : String)
  /-- "failed to restore path: ..." -/
  | restore (path : String) (e : RestoreErr)
deriving DecidableEq

/-- The loop of `RestoreSnapshot` over the sorted files. -/
def restoreLoop (P : Prims) (idx : Index) (store : ContentAddressableStore)
    (targetDir : String) (force dryRun : Bool) :
    List FileRecord → OutFS → Option SnapErr × OutFS
  | [], fs => (none, fs)
  | f :: rest, fs =>
    let dest := destPath targetDir f
    if statOut fs dest ∧ ¬ force then (some (.fileExists dest), fs)
    else
      match restoreFile P idx store f dryRun with
      | (.error e, out) => (some (.restore f.Path e), writeOut fs dest out)
      | (.ok _, out) => restoreLoop P idx store targetDir force dryRun rest (writeOut fs dest out)

/-- The function `RestoreSnapshot`: its error, if any, and the file system
afterwards. -/
def RestoreSnapshot (P : Prims) (L : Lib) (idx : Index) (store : ContentAddressableStore)
    (snapshotID : Nat) (targetDir : String) (force dryRun : Bool) (patterns : List String)
    (fs : OutFS) : Option SnapErr × OutFS :=
  match idx.GetFiles P snapshotID with
  | .error e => (some (.fetch snapshotID e), fs)
  | .ok files =>
    restoreLoop P idx store targetDir force dryRun (restoreOrder L files patterns) fs

/-- The repository after the backup, into an empty one, of the file that
`Backup` is given by the relative path `data/a.txt`. -/
def relativeRepo : Index × ContentAddressableStore :=
  match Backup toyPrims 2 0 "/home/ann/data/a.txt" (.file relativeFile) toyRnd
      (Index.empty toyKey) toyStore with
  | some (_, idx, s) => (idx, s)
  | none => (Index.empty toyKey, toyStore)

/-- The repository after the backup, into an empty one, of the file that
`Backup` is given by the relative path `../outside.txt`. -/
def escapeRepo : Index × ContentAddressableStore :=
  match Backup toyPrims 2 0 "/home/outside.txt" (.file (srcFile "../outside.txt" [7, 7, 7]))
      toyRnd (Index.empty toyKey) toyStore with
  | some (_, idx, s) => (idx, s)
  | none => (Index.empty toyKey, toyStore)

/-- The pair that the restore order sorts by: the priority score of the path,
then the path. -/
def sortKeyLe (L : Lib) (patterns : List String) (p q : String) : Prop :=
  getPriorityScore L p patterns < getPriorityScore L q patterns ∨
    (getPriorityScore L p patterns = getPriorityScore L q patterns ∧ p.data ≤ q.data)

/-- What `filepath.Match` answers for the two patterns and the four names of
the example of the specification. -/
structure ExampleGlob (L : Lib) : Prop where
  key_a : L.Match "*.key" "a.txt" = false
  conf_a : L.Match "*.conf" "a.txt" = false
  key_b : L.Match "*.key" "b.key" = true
  key_c : L.Match "*.key" "c.conf" = false
  conf_c : L.Match "*.conf" "c.conf" = true
  key_d : L.Match "*.key" "d.log" = false
  conf_d : L.Match "*.conf" "d.log" = false

/-- The four file records of the example of the specification. -/
def exampleFiles : List FileRecord :=
  [⟨1, "a.txt", 1, 420, 0⟩, ⟨2, "b.key", 1, 420, 0⟩, ⟨3, "c.conf", 1, 420, 0⟩,
   ⟨4, "d.log", 1, 420, 0⟩]

/-- The store of `toyRepo` after the object of the chunk `[4, 5]` was deleted. -/
def damagedStore : ContentAddressableStore :=
  { toyRepo.2 with
    backend :=
      { toyRepo.2.backend with
        files := toyRepo.2.backend.files.filter
          (fun e => e.1 ≠ objectPath (toyPrims.blake3 [4, 5]).hexString) } }

/-! ## The repository audit: what it counts -/

/-- The snapshots that the audit goes through: the listed ones, newest first,
up to the first one whose file rows `GetFiles` cannot read. -/
def Index.auditedSnapshots (P : Prims) (idx : Index) : List SnapshotRow :=
  idx.ListSnapshots.takeWhile (fun s =>
    match idx.GetFiles P s.id with
    | .ok _ => true
    | .error _ => false)

/-- The chunk records of the file rows of a snapshot, read off the tables
`files` and `chunks`, in the order of the audit. -/
def Index.chunksOfSnapshot (idx : Index) (snapshotID : Nat) : List ChunkRecord :=
  (idx.files.filter (fun r => r.snapshot_id = snapshotID)).flatMap
    (fun r => idx.GetChunks r.id)

/-- The distinct hash texts that the chunk rows of the files of the given
snapshots refer to. -/
def Index.hashesOf (idx : Index) (snaps : List SnapshotRow) : List String :=
  ((snaps.flatMap (fun s => idx.chunksOfSnapshot s.id)).map (fun c => c.Hash)).dedup

/-- The hash text parses, `Get` fails for the hash and the backend does not
have the object. -/
def hashMissing (P : Prims) (store : ContentAddressableStore) (text : String) : Bool :=
  match Hash.Parse text with
  | none => false
  | some h =>
    match store.Get P h with
    | .ok _ => false
    | .error _ => !store.Has h

/-- The hash text parses, `Get` fails for the hash and the backend has the
object. -/
def hashDamaged (P : Prims) (store : ContentAddressableStore) (text : String) : Bool :=
  match Hash.Parse text with
  | none => false
  | some h =>
    match store.Get P h with
    | .ok _ => false
    | .error _ => store.Has h

/-- The hash text does not parse. -/
def hashUnparsable (text : String) : Bool :=
  (Hash.Parse text).isNone

/-- The loop of `AuditRepository` over the chunks of a file, with a log of the
hashes that `store.Get` is called with, in order. -/
def auditChunksLog (P : Prims) (store : ContentAddressableStore) :
    List ChunkRecord → AuditReport → List String → List Hash →
      AuditReport × List String × List Hash
  | [], report, checked, calls => (report, checked, calls)
  | c :: rest, report, checked, calls =>
    if c.Hash ∈ checked then auditChunksLog P store rest report checked calls
    else
      let checked1 := c.Hash :: checked
      let report1 := { report with TotalChunks := report.TotalChunks + 1 }
      match Hash.Parse c.Hash with
      | none =>
        auditChunksLog P store rest { report1 with CorruptChunks := report1.CorruptChunks + 1 }
          checked1 calls
      | some h =>
        match store.Get P h with
        | .ok _ => auditChunksLog P store rest report1 checked1 (calls ++ [h])
        | .error _ =>
          if ¬ store.Has h then
            auditChunksLog P store rest
              { report1 with MissingChunks := report1.MissingChunks + 1 } checked1
              (calls ++ [h])
          else
            auditChunksLog P store rest
              { report1 with CorruptChunks := report1.CorruptChunks + 1 } checked1
              (calls ++ [h])

/-- The loop of `AuditRepository` over the files of a snapshot, with the log. -/
def auditFilesLog (P : Prims) (idx : Index) (store : ContentAddressableStore) :
    List FileRecord → AuditReport → List String → List Hash →
      AuditReport × List String × List Hash
  | [], report, checked, calls => (report, checked, calls)
  | f :: rest, report, checked, calls =>
    match auditChunksLog P store (idx.GetChunks f.ID) report checked calls with
    | (report1, checked1, calls1) => auditFilesLog P idx store rest report1 checked1 calls1

/-- The loop of `AuditRepository` over the snapshots, with the log. -/
def auditSnapshotsLog (P : Prims) (idx : Index) (store : ContentAddressableStore) :
    List SnapshotRow → AuditReport → List String → List Hash →
      (AuditReport × Option IndexErr) × List Hash
  | [], report, _, calls =>
    if report.MissingChunks > 0 ∨ report.CorruptChunks > 0 then
      (({ report with Healthy := false, Score := 0 }, none), calls)
    else ((report, none), calls)
  | s :: rest, report, checked, calls =>
    match idx.GetFiles P s.id with
    | .error e => ((report, some e), calls)
    | .ok files =>
      let report1 := { report with TotalFiles := report.TotalFiles + files.length }
      match auditFilesLog P idx store files report1 checked calls with
      | (report2, checked2, calls2) => auditSnapshotsLog P idx store rest report2 checked2 calls2

/-- The function `AuditRepository`, with the log of the calls of `store.Get`. -/
def AuditRepositoryLog (P : Prims) (idx : Index) (store : ContentAddressableStore) :
    (AuditReport × Option IndexErr) × List Hash :=
  auditSnapshotsLog P idx store idx.ListSnapshots
    { TotalFiles := 0, TotalChunks := 0, MissingChunks := 0, CorruptChunks := 0,
      Healthy := true, Score := 100 } [] []

/-- What the loops of the audit keep: the texts checked are distinct, the
counters count them, and `store.Get` was called once for each of them that
parses, with the hash it parses to. -/
structure AuditInv (P : Prims) (store : ContentAddressableStore) (report : AuditReport)
    (checked : List String) (calls : List Hash) : Prop where
  nodup : checked.Nodup
  total : report.TotalChunks = checked.length
  missing : report.MissingChunks = checked.countP (hashMissing P store)
  corrupt : report.CorruptChunks
    = checked.countP (hashUnparsable) + checked.countP (hashDamaged P store)
  calls : calls.Perm (checked.filterMap Hash.Parse)

/-- An index like that of `toyRepo` in which the hash text of the first chunk
row was overwritten with text that is no hexadecimal. -/
def garbledIndex : Index :=
  { toyRepo.1 with
    chunks := toyRepo.1.chunks.map (fun r => if r.id = 1 then { r with hash := "zz" } else r) }

/-- The index of `toyRepo` after a further snapshot with one file row whose
path is no hexadecimal text, so that `GetFiles` fails for it. -/
def unreadableIndex : Index :=
  { toyRepo.1 with
    snapshots := toyRepo.1.snapshots ++ [⟨2, 5, "Backup of /src"⟩],
    seqSnapshots := 2,
    files := toyRepo.1.files ++ [⟨3, 2, "zz", 0, 420, 0⟩],
    seqFiles := 3 }

/-- An index like that of `toyRepo` in which the hash texts of the first two
chunk rows were overwritten with `ab` and `AB`, two texts of one hash. -/
def caseIndex : Index :=
  { toyRepo.1 with
    chunks := toyRepo.1.chunks.map (fun r =>
      if r.id = 1 then { r with hash := "ab" }
      else if r.id = 2 then { r with hash := "AB" } else r) }

/-- Every listed snapshot has file rows that `GetFiles` can read. -/
def Index.filesReadable (P : Prims) (idx : Index) : Bool :=
  idx.ListSnapshots.all (fun s =>
    match idx.GetFiles P s.id with
    | .ok _ => true
    | .error _ => false)

/-! ## The dedupe scenario -/

/-- What the loop of `processFile` does with the pieces of a file that is read
without error: `Put` and `AddChunk` for each piece in turn, up to the first
error of `Put`. It is compared with `processLoop` in `processLoop_clean`. -/
def storePieces (P : Prims) (fileID : Nat) (rnd : Nat → Option Nonce) :
    Nat → Int → List Bytes → Index → ContentAddressableStore →
      Except BackupErr Unit × Index × ContentAddressableStore
  | _, _, [], idx, store => (.ok (), idx, store)
  | i, offset, p :: ps, idx, store =>
    match store.Put P (rnd i) p with
    | (.error e, store1) => (.error (.store e), idx, store1)
    | (.ok _, store1) =>
      storePieces P fileID rnd (i + 1) (wrapInt64 (offset + (p.length : Int))) ps
        (idx.AddChunk fileID (P.blake3 p) offset (p.length : Int)) store1

/-- The paths of the objects in the backend of a store. -/
def ContentAddressableStore.objects (s : ContentAddressableStore) : List RelPath :=
  s.backend.files.map Prod.fst

/-- The path of the object of a piece of data. -/
def objectOf (P : Prims) (data : Bytes) : RelPath :=
  objectPath (P.blake3 data).hexString

/-- Stand-ins like `toyPrims`, with a hash that begins with the length of the
data in three bytes, so that data of different lengths below `2^24` differ in
their hash. -/
def widePrims : Prims :=
  { toyPrims with
    blake3 := fun d =>
      copy32 (Fin.ofNat (d.length / 65536) :: Fin.ofNat (d.length / 256) ::
        Fin.ofNat d.length :: d) }

/-- A file of 10 MiB of the byte `0x41`. -/
def tenMiB : SourceFile :=
  srcFile "/data/a.bin" (List.replicate (10 * 1024 * 1024) 0x41)

/-! ## `pkg/scheduler`

The goroutines of `Scheduler.Start` are modelled by a step function: the state
holds where `Start` and each worker (`runJobLoop`) are, and a step is one of
the events that the Go runtime may choose next. -/

/-- Where the goroutine of a job is. -/
inductive WorkerAt where
  /-- In the `select` of the loop of `runJobLoop`. -/
  | selecting
  /-- The function `runJobLoop` has returned and the deferred `wg.Done` has run. -/
  | exited
deriving DecidableEq

/-- Where `Scheduler.Start` is once the workers are started. -/
inductive StartAt where
  /-- At the receive `<-quit`. -/
  | waiting
  /-- The function has returned and the deferred `backend.Close` has run. -/
  | returned
deriving DecidableEq

/-- The state of a running scheduler. `quit` is the number of signals in the
buffer of the channel `quit`, made with capacity 1; `wg` is the counter of the
`sync.WaitGroup`; `backupsOnClosed` counts the calls of `engine.Backup` made
after `backend.Close`. -/
structure SchedState where
  quit : Nat
  start : StartAt
  workers : List WorkerAt
  wg : Nat
  backendClosed : Bool
  backups : Nat
  backupsOnClosed : Nat
deriving DecidableEq

/-- What can happen next. -/
inductive SchedEvent where
  /-- An interrupt or termination signal arrives; `signal.Notify` passes it to
  `quit` without blocking. -/
  | signal
  /-- The receive `<-quit` of `Start` takes a value. -/
  | startReceives
  /-- The `select` of worker `i` takes the case `<-quit`. -/
  | workerReceives (i : Nat)
  /-- The `select` of worker `i` takes the case `<-ticker.C`. -/
  | tick (i : Nat)
deriving DecidableEq

/-- The method `Scheduler.Start` up to its receive `<-quit`, for a backend that
was made without error: one worker per job, `wg.Add(1)` for each. A job is
given by whether `job.GetDuration` succeeds; `runJobLoop` returns at once when
it does not. -/
def Start (jobs : List Bool) : SchedState :=
  { quit := 0, start := .waiting,
    workers := jobs.map (fun ok => if ok then .selecting else .exited),
    wg := (jobs.filter id).length,
    backendClosed := false, backups := 0, backupsOnClosed := 0 }

/-- One step of the scheduler; `none` when the event cannot happen in the
state. Nothing in `Start` or `runJobLoop` closes `quit`, so a receive needs a
buffered signal and takes it; `Start` returns after its receive, with no
`wg.Wait`. -/
def schedStep (s : SchedState) : SchedEvent → Option SchedState
  | .signal => some { s with quit := if s.quit < 1 then s.quit + 1 else s.quit }
  | .startReceives =>
    if s.start = .waiting ∧ 0 < s.quit then
      some { s with quit := s.quit - 1, start := .returned, backendClosed := true }
    else none
  | .workerReceives i =>
    if s.workers.get? i = some .selecting ∧ 0 < s.quit then
      some { s with quit := s.quit - 1, workers := s.workers.set i .exited, wg := s.wg - 1 }
    else none
  | .tick i =>
    if s.workers.get? i = some .selecting then
      some { s with backups := s.backups + 1,
                    backupsOnClosed := s.backupsOnClosed + if s.backendClosed then 1 else 0 }
    else none

/-- A run of events from a state; `none` when one of them cannot happen. -/
def schedRun : SchedState → List SchedEvent → Option SchedState
  | s, [] => some s
  | s, e :: rest =>
    match schedStep s e with
    | none => none
    | some s1 => schedRun s1 rest

/-! ## The audit log: changes of the fields of an entry -/

/-- The text that `LogAction` and `VerifyChain` hash for an entry: `prev_hash`,
the time stamp, the action, the user and the details, written one after the
other. -/
def hashedText (P : Prims) (e : AuditEntry) : String :=
  e.PrevHash ++ P.formatRFC3339Nano e.Timestamp ++ e.Action ++ e.User ++ e.Details

/-- The entries of `toyLog`. -/
def toyEntries : List AuditEntry :=
  (toyLog.getD []).filterMap (fun i =>
    match i with
    | .entry e => some e
    | .undecodable => none)

/-- The middle entry of `toyLog`: action `RESTORE`, user `ann`, details
`snapshot 1`. -/
def toyMiddle : AuditEntry :=
  (toyEntries.get? 1).getD ⟨0, "", "", "", "", ""⟩

/-- The middle entry with other details. -/
def alteredEntry : AuditEntry :=
  { toyMiddle with Details := "snapshot 9" }

/-- The middle entry with the last letter of the user moved to the front of
the details: user `an`, details `nsnapshot 1`. -/
def shiftedEntry : AuditEntry :=
  { toyMiddle with User := "an", Details := "nsnapshot 1" }

end Aegis

/-! # Theorems -/

namespace Aegis

set_option maxRecDepth 100000

/-! ## Hexadecimal text -/

theorem fromHexChar_hexDigit : ∀ n : Fin 16, fromHexChar (hexDigit n.val) = some n.val := by
  decide

theorem hexDecodeChars_encode (bs : Bytes) :
    hexDecodeChars (bs.flatMap encodeByte) = some bs := by
  induction bs with
  | nil => rfl
  | cons b rest ih =>
    have h1 := fromHexChar_hexDigit ⟨b.val / 16, by omega⟩
    have h2 := fromHexChar_hexDigit ⟨b.val % 16, by omega⟩
    simp only at h1 h2
    have h3 : (Fin.ofNat (b.val / 16 * 16 + b.val % 16) : Byte) = b := by
      apply Fin.ext
      have hb := b.isLt
      show (b.val / 16 * 16 + b.val % 16) % 256 = b.val
      omega
    show hexDecodeChars (hexDigit (b.val / 16) :: hexDigit (b.val % 16) ::
      rest.flatMap encodeByte) = some (b :: rest)
    simp only [hexDecodeChars, h1, h2, ih, h3]

theorem hexDecode_hexEncode (bs : Bytes) : hexDecode (hexEncode bs) = some bs :=
  hexDecodeChars_encode bs

theorem copy32_bytes (h : Hash) : copy32 h.bytes = h := by
  cases h with
  | mk bytes len =>
    simp only [copy32, Hash.mk.injEq, len, Nat.sub_self, List.replicate_zero, List.append_nil]
    exact List.take_of_length_le (by omega)

/-- Parsing the text of a hash gives the hash back. -/
theorem Parse_hexString (h : Hash) : Hash.Parse h.hexString = some h := by
  simp only [Hash.Parse, Hash.hexString, hexDecode_hexEncode, copy32_bytes]

theorem hexString_injective {a b : Hash} (h : a.hexString = b.hexString) : a = b := by
  have ha := Parse_hexString a
  rw [h, Parse_hexString b] at ha
  exact (Option.some.inj ha).symm

theorem length_flatMap_encodeByte (bs : Bytes) :
    (bs.flatMap encodeByte).length = 2 * bs.length := by
  induction bs with
  | nil => rfl
  | cons b rest ih =>
    simp only [List.flatMap_cons, List.length_append, ih, encodeByte, List.length_cons,
      List.length_nil]
    omega

theorem hexString_length (h : Hash) : h.hexString.length = 64 := by
  simp only [Hash.hexString, hexEncode, String.length, length_flatMap_encodeByte, h.len]

theorem objectPath_injective {a b : String} (ha : 2 ≤ a.length) (hb : 2 ≤ b.length)
    (h : objectPath a = objectPath b) : a = b := by
  have ha1 : ¬ a.length < 2 := by omega
  have hb1 : ¬ b.length < 2 := by omega
  simp only [objectPath, ha1, hb1, if_false, List.cons.injEq, and_true, true_and] at h
  have h1 : a.data.take 2 = b.data.take 2 := congrArg String.data h.1
  have h2 : a.data.drop 2 = b.data.drop 2 := congrArg String.data h.2
  have := List.take_append_drop 2 a.data
  rw [h1, h2, List.take_append_drop] at this
  exact String.ext this.symm

theorem objectPath_hexString_injective {a b : Hash}
    (h : objectPath a.hexString = objectPath b.hexString) : a = b :=
  hexString_injective (objectPath_injective (by rw [hexString_length]; omega)
    (by rw [hexString_length]; omega) h)

/-! ## The directory of the backend -/

theorem readFile_writeFile_same (files : List (RelPath × Bytes)) (p : RelPath) (d : Bytes) :
    readFile (writeFile files p d) p = some d := by
  simp only [writeFile, readFile, if_true]

theorem readFile_filter_ne (files : List (RelPath × Bytes)) (p q : RelPath) (hq : q ≠ p) :
    readFile (files.filter (fun e => e.1 ≠ p)) q = readFile files q := by
  induction files with
  | nil => rfl
  | cons e rest ih =>
    obtain ⟨k, d⟩ := e
    by_cases hk : k = p
    · subst hk
      have : ¬ k = q := fun h => hq h.symm
      simp only [List.filter, ne_eq, not_true_eq_false, decide_False, readFile, this, if_false, ih]
    · simp only [List.filter, ne_eq, hk, not_false_eq_true, decide_True, readFile, ih]

theorem readFile_writeFile_other (files : List (RelPath × Bytes)) (p q : RelPath) (d : Bytes)
    (hq : q ≠ p) : readFile (writeFile files p d) q = readFile files q := by
  have : ¬ p = q := fun h => hq h.symm
  simp only [writeFile, readFile, this, if_false, readFile_filter_ne files p q hq]

/-! ## The store -/

theorem Decrypt_Encrypt (P : Prims) (hP : P.Laws) (k : MasterKey) (nonce : Nonce)
    (pt env : Bytes) (h : k.Encrypt P (some nonce) pt = .ok env) :
    k.Decrypt P env = .ok pt := by
  simp only [MasterKey.Encrypt, Except.ok.injEq] at h
  subst h
  have hlen : ¬ (nonce.bytes ++ P.gcmSeal k nonce.bytes pt).length < NonceSize := by
    simp only [List.length_append, nonce.len]
    omega
  simp only [MasterKey.Decrypt, hlen, if_false, List.take_left' nonce.len,
    List.drop_left' nonce.len, hP.open_seal k nonce.bytes pt nonce.len]

/-- Under the invariant, `Get` of a hash whose object is there succeeds with a
plaintext of `W` that has this hash. -/
theorem Get_of_present (P : Prims) (hP : P.Laws) (s : ContentAddressableStore) (W : List Bytes)
    (hinv : StoreInv P s W) (h : Hash) (hhas : s.backend.Has h.hexString = true) :
    ∃ x ∈ W, P.blake3 x = h ∧ s.Get P h = .ok x := by
  simp only [LocalBackend.Has, Option.isSome_iff_exists] at hhas
  obtain ⟨env, henv⟩ := hhas
  obtain ⟨x, hxW, hx, hdec⟩ := hinv h env henv
  refine ⟨x, hxW, hx, ?_⟩
  simp only [ContentAddressableStore.Get, LocalBackend.Get, henv, hdec, hP.decode_encode, hx,
    ne_eq, not_true_eq_false, if_false]

/-- What `Put` does: through the gate nothing changes; otherwise one object is
written, and an error of the encryption changes nothing. -/
theorem Put_cases (P : Prims) (s : ContentAddressableStore) (rnd : Option Nonce) (data : Bytes) :
    (s.backend.Has (P.blake3 data).hexString = true ∧
      s.Put P rnd data = (.ok (P.blake3 data), s)) ∨
    (s.backend.Has (P.blake3 data).hexString = false ∧ rnd = none ∧
      s.Put P rnd data = (.error (.encryption .randFailed), s)) ∨
    (s.backend.Has (P.blake3 data).hexString = false ∧ ∃ nonce env, rnd = some nonce ∧
      s.key.Encrypt P (some nonce) (P.zstdEncode data) = .ok env ∧
      s.Put P rnd data = (.ok (P.blake3 data),
        { backend := { files := writeFile s.backend.files
                        (objectPath (P.blake3 data).hexString) env,
                       puts := s.backend.puts + 1 },
          key := s.key })) := by
  cases hhas : s.backend.Has (P.blake3 data).hexString with
  | true =>
    left
    simp only [ContentAddressableStore.Put, hhas, if_true, and_self]
  | false =>
    right
    cases rnd with
    | none =>
      left
      simp [ContentAddressableStore.Put, hhas, MasterKey.Encrypt]
    | some nonce =>
      right
      have hno : (readFile s.backend.files (objectPath (P.blake3 data).hexString)).isSome
          = false := hhas
      refine ⟨rfl, nonce, _, rfl, rfl, ?_⟩
      simp [ContentAddressableStore.Put, hhas, MasterKey.Encrypt, LocalBackend.Put, hno]

/-- `Put` keeps the invariant, with the plaintext added to `W`. -/
theorem Put_preserves_inv (P : Prims) (hP : P.Laws) (s s1 : ContentAddressableStore)
    (W : List Bytes) (rnd : Option Nonce) (data : Bytes) (res : Except StoreErr Hash)
    (hinv : StoreInv P s W) (hput : s.Put P rnd data = (res, s1)) :
    StoreInv P s1 (data :: W) ∧ s1.key = s.key := by
  have weaken : StoreInv P s (data :: W) := by
    intro h env henv
    obtain ⟨x, hx, r⟩ := hinv h env henv
    exact ⟨x, List.mem_cons_of_mem _ hx, r⟩
  rcases Put_cases P s rnd data with ⟨_, h⟩ | ⟨_, _, h⟩ | ⟨hhas, nonce, env, hr, henc, h⟩
  · rw [h] at hput
    simp only [Prod.mk.injEq] at hput
    rw [← hput.2]
    exact ⟨weaken, rfl⟩
  · rw [h] at hput
    simp only [Prod.mk.injEq] at hput
    rw [← hput.2]
    exact ⟨weaken, rfl⟩
  · rw [h] at hput
    simp only [Prod.mk.injEq] at hput
    rw [← hput.2]
    refine ⟨?_, rfl⟩
    intro h1 env1 henv1
    simp only [LocalBackend.Get] at henv1
    by_cases hp : objectPath h1.hexString = objectPath (P.blake3 data).hexString
    · have hh : h1 = P.blake3 data := objectPath_hexString_injective hp
      rw [hp, readFile_writeFile_same] at henv1
      have : env = env1 := Option.some.inj henv1
      subst this
      exact ⟨data, List.mem_cons_self _ _, hh.symm, Decrypt_Encrypt P hP s.key nonce _ _ henc⟩
    · rw [readFile_writeFile_other _ _ _ _ hp] at henv1
      exact weaken h1 env1 henv1

/-- After a successful `Put` the backend has the key. -/
theorem Put_ok_has (P : Prims) (s s1 : ContentAddressableStore) (rnd : Option Nonce)
    (data : Bytes) (h : Hash) (hput : s.Put P rnd data = (.ok h, s1)) :
    h = P.blake3 data ∧ s1.backend.Has (P.blake3 data).hexString = true := by
  rcases Put_cases P s rnd data with ⟨hhas, h1⟩ | ⟨_, _, h1⟩ | ⟨_, nonce, env, _, _, h1⟩
  · rw [h1] at hput
    simp only [Prod.mk.injEq, Except.ok.injEq] at hput
    rw [← hput.2]
    exact ⟨hput.1.symm, hhas⟩
  · rw [h1] at hput
    simp only [Prod.mk.injEq, reduceCtorEq, false_and] at hput
  · rw [h1] at hput
    simp only [Prod.mk.injEq, Except.ok.injEq] at hput
    rw [← hput.2]
    refine ⟨hput.1.symm, ?_⟩
    simp only [LocalBackend.Has, readFile_writeFile_same, Option.isSome_some]

/-- `Put` never removes an object or changes one that is there. -/
theorem Put_keeps_objects (P : Prims) (s s1 : ContentAddressableStore) (rnd : Option Nonce)
    (data : Bytes) (res : Except StoreErr Hash) (hput : s.Put P rnd data = (res, s1))
    (key : String) (hhas : s.backend.Has key = true) :
    s1.backend.Get key = s.backend.Get key := by
  rcases Put_cases P s rnd data with ⟨_, h1⟩ | ⟨_, _, h1⟩ | ⟨hno, nonce, env, _, _, h1⟩
  · rw [h1] at hput
    simp only [Prod.mk.injEq] at hput
    rw [← hput.2]
  · rw [h1] at hput
    simp only [Prod.mk.injEq] at hput
    rw [← hput.2]
  · rw [h1] at hput
    simp only [Prod.mk.injEq] at hput
    rw [← hput.2]
    simp only [LocalBackend.Get]
    apply readFile_writeFile_other
    intro hp
    simp only [LocalBackend.Has, hp] at hhas
    simp only [LocalBackend.Has] at hno
    rw [hno] at hhas
    exact Bool.noConfusion hhas

/-! ## The stand-ins keep the laws -/

theorem toyPrims_laws : toyPrims.Laws where
  open_seal := by
    intro k n pt _
    simp only [toyPrims, List.take_left' rfl, List.drop_left' rfl, if_true]
  decode_encode := by
    intro x
    simp only [toyPrims, if_true]

theorem StoreInv_toyStore : StoreInv toyPrims toyStore [] := by
  intro h env henv
  simp only [toyStore, LocalBackend.Get, readFile] at henv
  exact Option.noConfusion henv

/-! ## C1: the round trip of the store -/

/-- C1. Round trip of the content-addressable store: on a store whose backend
holds only objects written by `Put` under its key (for the plaintexts `W`), if
`Put` of a plaintext returns `h` then `Get` of `h` returns exactly that
plaintext, taking the laws of the primitives and that BLAKE3 does not collide
on the plaintext and those already stored. -/
theorem put_get_round_trip (P : Prims) (hP : P.Laws) (s s1 : ContentAddressableStore)
    (W : List Bytes) (rnd : Option Nonce) (data : Bytes) (h : Hash)
    (hinv : StoreInv P s W) (hcf : CollisionFree P (data :: W))
    (hput : s.Put P rnd data = (.ok h, s1)) :
    s1.Get P h = .ok data := by
  obtain ⟨hinv1, _⟩ := Put_preserves_inv P hP s s1 W rnd data _ hinv hput
  obtain ⟨hh, hhas⟩ := Put_ok_has P s s1 rnd data h hput
  subst hh
  obtain ⟨x, hxW, hx, hget⟩ := Get_of_present P hP s1 (data :: W) hinv1 _ hhas
  have : x = data := hcf x hxW data (List.mem_cons_self _ _) hx
  rw [hget, this]

/-- C1 at an example: the empty plaintext is put into an empty store and read back. -/
theorem put_get_round_trip_witness :
    (toyStore.Put toyPrims (some (toyNonce 1)) []).2.Get toyPrims (toyPrims.blake3 [])
      = .ok [] :=
  put_get_round_trip toyPrims toyPrims_laws toyStore _ [] (some (toyNonce 1)) [] _
    StoreInv_toyStore (by unfold CollisionFree; decide) rfl

/-! ## C2: the dedupe gate -/

/-- C2. Dedupe gate: whenever the backend already has the key of the BLAKE3
hash of a plaintext, `Put` returns that hash, makes no call of the backend
`Put` and leaves the store as it is; and after a successful `Put` the backend
has the key and a second `Put` of the plaintext returns the same hash with no
further call of the backend `Put`, whatever the random source gives. -/
theorem put_dedupe_gate (P : Prims) (s : ContentAddressableStore) (rnd : Option Nonce)
    (data : Bytes) :
    (s.backend.Has (P.blake3 data).hexString = true →
      (s.Put P rnd data).1 = .ok (P.blake3 data) ∧
      (s.Put P rnd data).2.backend.puts = s.backend.puts ∧
      (s.Put P rnd data).2 = s) ∧
    (∀ h s1, s.Put P rnd data = (.ok h, s1) →
      h = P.blake3 data ∧ s1.backend.Has (P.blake3 data).hexString = true ∧
      ∀ rnd1, (s1.Put P rnd1 data).1 = .ok h ∧
        (s1.Put P rnd1 data).2.backend.puts = s1.backend.puts ∧
        (s1.Put P rnd1 data).2 = s1) := by
  have gate : ∀ (t : ContentAddressableStore) (r : Option Nonce),
      t.backend.Has (P.blake3 data).hexString = true →
      t.Put P r data = (.ok (P.blake3 data), t) := by
    intro t r hhas
    simp only [ContentAddressableStore.Put, hhas, if_true]
  refine ⟨fun hhas => ?_, fun h s1 hput => ?_⟩
  · rw [gate s rnd hhas]
    exact ⟨rfl, rfl, rfl⟩
  · obtain ⟨hh, hhas⟩ := Put_ok_has P s s1 rnd data h hput
    refine ⟨hh, hhas, fun rnd1 => ?_⟩
    rw [gate s1 rnd1 hhas, hh]
    exact ⟨rfl, rfl, rfl⟩

/-- C2 at an example: the first `Put` into an empty store is the one call of
the backend `Put`; the second, with a failing random source, still succeeds
and calls it no more. -/
theorem put_dedupe_gate_witness :
    (toyStore.Put toyPrims (some (toyNonce 1)) [1, 2, 3]).2.backend.puts = 1 ∧
    ((toyStore.Put toyPrims (some (toyNonce 1)) [1, 2, 3]).2.Put toyPrims none [1, 2, 3]).1
      = .ok (toyPrims.blake3 [1, 2, 3]) ∧
    ((toyStore.Put toyPrims (some (toyNonce 1)) [1, 2, 3]).2.Put toyPrims none
      [1, 2, 3]).2.backend.puts = 1 :=
  ⟨by decide,
   ((put_dedupe_gate toyPrims toyStore (some (toyNonce 1)) [1, 2, 3]).2 _ _ rfl).2.2 none
     |>.1,
   ((put_dedupe_gate toyPrims toyStore (some (toyNonce 1)) [1, 2, 3]).2 _ _ rfl).2.2 none
     |>.2.1⟩

/-! ## C3: `Get` verifies on read -/

/-- C3. `Get` verifies on read: whatever the backend holds, if `Get` of `h`
returns data without an error then the BLAKE3 hash of the data is `h`; and
whenever the decrypted and decompressed bytes hash to something else, `Get`
returns the integrity error for `h`, and so no data. -/
theorem get_verifies_on_read (P : Prims) (s : ContentAddressableStore) (h : Hash) :
    (∀ data, s.Get P h = .ok data → P.blake3 data = h) ∧
    (∀ env comp data, s.backend.Get h.hexString = some env →
      s.key.Decrypt P env = .ok comp → P.zstdDecode comp = some data →
      P.blake3 data ≠ h → s.Get P h = .error (.integrity h)) := by
  constructor
  · intro data hget
    simp only [ContentAddressableStore.Get] at hget
    split at hget
    · exact Except.noConfusion hget
    · split at hget
      · exact Except.noConfusion hget
      · split at hget
        · exact Except.noConfusion hget
        · split at hget
          · exact Except.noConfusion hget
          · rename_i d _ hne
            simp only [Except.ok.injEq] at hget
            subst hget
            exact not_not.mp hne
  · intro env comp data henv hdec hz hne
    simp only [ContentAddressableStore.Get, henv, hdec, hz, hne, ne_eq, not_false_eq_true,
      if_true]

/-- C3 at an example: an object that opens to bytes of another hash gives the
integrity error. -/
theorem get_verifies_on_read_witness :
    swappedStore.Get toyPrims (toyPrims.blake3 [1])
      = .error (.integrity (toyPrims.blake3 [1])) :=
  (get_verifies_on_read toyPrims swappedStore (toyPrims.blake3 [1])).2 _ _ [2] rfl rfl rfl
    (by decide)

/-! ## The chunker -/

theorem Next_of_chunk (P : Prims) (c : FixedSizeChunker) (buf : Bytes)
    (err : Option ReadErr) (r : Reader) (hread : ReadFull c.reader c.size = (buf, err, r))
    (hbuf : buf ≠ []) :
    c.Next P = (.chunk ⟨buf, P.blake3 buf⟩ (if err = some .ErrUnexpectedEOF then none else err),
      { c with reader := r }) := by
  have hn : buf.length ≠ 0 := fun h => hbuf (List.length_eq_zero.mp h)
  unfold FixedSizeChunker.Next
  rw [hread]
  simp only [hn, false_and, if_false, List.take_length]
  split
  · rename_i h1 h2 h3
    exact absurd h3 hn
  · rfl

theorem Next_of_stop (P : Prims) (c : FixedSizeChunker) (err : Option ReadErr) (r : Reader)
    (e : ReadErr) (hread : ReadFull c.reader c.size = ([], err, r))
    (he : err = some e) (hne : e ≠ .ErrUnexpectedEOF) :
    c.Next P = (.stop e, { c with reader := r }) := by
  unfold FixedSizeChunker.Next
  rw [hread]
  subst he
  cases e with
  | EOF => simp
  | ErrUnexpectedEOF => exact absurd rfl hne
  | other code => simp

theorem Next_empty (P : Prims) (c : FixedSizeChunker) (hs : 0 < c.size)
    (hd : c.reader.data = []) :
    ∃ e c1, c.Next P = (.stop e, c1) ∧ (c.reader.failure = none → e = .EOF) := by
  have h1 : ¬ c.size ≤ 0 := by omega
  cases hf : c.reader.failure with
  | none =>
    refine ⟨.EOF, _, Next_of_stop P c (some .EOF) { c.reader with data := [] } .EOF ?_ rfl
      (by simp), fun _ => rfl⟩
    simp [ReadFull, hd, h1, hf]
  | some code =>
    refine ⟨.other code, _, Next_of_stop P c (some (.other code)) { c.reader with data := [] }
      (.other code) ?_ rfl (by simp), fun h => Option.noConfusion h⟩
    simp [ReadFull, hd, h1, hf]

theorem Next_full (P : Prims) (c : FixedSizeChunker) (hs : 0 < c.size)
    (hle : c.size ≤ c.reader.data.length) :
    c.Next P = (.chunk ⟨c.reader.data.take c.size, P.blake3 (c.reader.data.take c.size)⟩ none,
      { reader := { data := c.reader.data.drop c.size, failure := c.reader.failure },
        size := c.size }) := by
  have hne : c.reader.data.take c.size ≠ [] := by
    intro h
    have := congrArg List.length h
    rw [List.length_take] at this
    simp only [List.length_nil] at this
    omega
  have := Next_of_chunk P c (c.reader.data.take c.size) none
    { c.reader with data := c.reader.data.drop c.size } (by simp [ReadFull, hle]) hne
  rw [this]
  simp

theorem Next_clean (P : Prims) (c : FixedSizeChunker) (hs : 0 < c.size)
    (hd : c.reader.data ≠ []) (hf : c.reader.failure = none) :
    c.Next P = (.chunk ⟨c.reader.data.take c.size, P.blake3 (c.reader.data.take c.size)⟩ none,
      { reader := { data := c.reader.data.drop c.size, failure := none }, size := c.size }) := by
  by_cases hle : c.size ≤ c.reader.data.length
  · rw [Next_full P c hs hle, hf]
  · have ht : c.reader.data.take c.size = c.reader.data :=
      List.take_of_length_le (by omega)
    have hdr : c.reader.data.drop c.size = [] := List.drop_of_length_le (by omega)
    have hne : ¬ c.reader.data.length = 0 := fun h => hd (List.length_eq_zero.mp h)
    have := Next_of_chunk P c c.reader.data (some .ErrUnexpectedEOF)
      { c.reader with data := [] } (by simp [ReadFull, hle, hf, hne]) hd
    rw [this, ht, hdr]
    simp [hf]

/-- A short read that ends with a read error: `Next` returns the bytes read
together with that error. -/
theorem Next_fault (P : Prims) (c : FixedSizeChunker) (code : Nat)
    (hd : c.reader.data ≠ []) (hlt : c.reader.data.length < c.size)
    (hf : c.reader.failure = some code) :
    ∃ c1, c.Next P = (.chunk ⟨c.reader.data, P.blake3 c.reader.data⟩ (some (.other code)), c1) := by
  have hle : ¬ c.size ≤ c.reader.data.length := by omega
  have := Next_of_chunk P c c.reader.data (some (.other code))
    { c.reader with data := [] } (by simp [ReadFull, hle, hf]) hd
  rw [this]
  exact ⟨{ c with reader := { c.reader with data := [] } }, by simp⟩

/-! ## The pieces of a byte sequence -/

theorem splitFuel_enough (s : Nat) (hs : 0 < s) :
    ∀ (n m : Nat) (data : Bytes), data.length ≤ n → data.length ≤ m →
      splitFuel s n data = splitFuel s m data := by
  intro n
  induction n with
  | zero =>
    intro m data hn _
    have : data = [] := List.length_eq_zero.mp (by omega)
    subst this
    cases m <;> simp [splitFuel]
  | succ n ih =>
    intro m data hn hm
    cases m with
    | zero =>
      have : data = [] := List.length_eq_zero.mp (by omega)
      subst this
      simp [splitFuel]
    | succ m =>
      by_cases hd : data = []
      · simp [splitFuel, hd]
      · have hpos : 0 < data.length := List.length_pos.mpr hd
        have hlen : (data.drop s).length ≤ n := by rw [List.length_drop]; omega
        have hlen2 : (data.drop s).length ≤ m := by rw [List.length_drop]; omega
        simp only [splitFuel, hd, if_false, ih m (data.drop s) hlen hlen2]

theorem splitBytes_nil (s : Nat) : splitBytes s [] = [] := rfl

theorem splitBytes_cons (s : Nat) (hs : 0 < s) (data : Bytes) (hd : data ≠ []) :
    splitBytes s data = data.take s :: splitBytes s (data.drop s) := by
  have hpos : 0 < data.length := List.length_pos.mpr hd
  obtain ⟨n, hn⟩ : ∃ n, data.length = n + 1 := ⟨data.length - 1, by omega⟩
  unfold splitBytes
  rw [hn]
  simp only [splitFuel, hd, if_false, List.cons.injEq, true_and]
  apply splitFuel_enough s hs
  · rw [List.length_drop]; omega
  · exact le_refl _

/-- Strong induction along the pieces. -/
theorem splitBytes_induction (s : Nat) (hs : 0 < s) (motive : Bytes → Prop)
    (nil : motive [])
    (cons : ∀ data, data ≠ [] → motive (data.drop s) → motive data) :
    ∀ data, motive data := by
  have key : ∀ (n : Nat) (data : Bytes), data.length = n → motive data := by
    intro n
    induction n using Nat.strong_induction_on with
    | _ n ih =>
      intro data hlen
      by_cases hd : data = []
      · subst hd; exact nil
      · have hpos : 0 < data.length := List.length_pos.mpr hd
        exact cons data hd (ih (data.drop s).length (by rw [List.length_drop]; omega) _ rfl)
  exact fun data => key data.length data rfl

theorem splitBytes_join (s : Nat) (hs : 0 < s) (data : Bytes) :
    (splitBytes s data).flatten = data := by
  induction data using splitBytes_induction s hs with
  | nil => rfl
  | cons data hd ih =>
    rw [splitBytes_cons s hs data hd, List.flatten_cons, ih, List.take_append_drop]

theorem splitBytes_pos (s : Nat) (hs : 0 < s) (data : Bytes) :
    ∀ p ∈ splitBytes s data, p ≠ [] ∧ p.length ≤ s := by
  induction data using splitBytes_induction s hs with
  | nil => intro p hp; simp [splitBytes_nil] at hp
  | cons data hd ih =>
    intro p hp
    rw [splitBytes_cons s hs data hd, List.mem_cons] at hp
    rcases hp with rfl | hp
    · have hpos : 0 < data.length := List.length_pos.mpr hd
      constructor
      · intro h
        have := congrArg List.length h
        rw [List.length_take] at this
        simp only [List.length_nil] at this
        omega
      · rw [List.length_take]; omega
    · exact ih p hp

theorem splitBytes_lengths (s : Nat) (hs : 0 < s) (data : Bytes) :
    (splitBytes s data).map List.length =
      List.replicate (data.length / s) s ++
        (if data.length % s = 0 then [] else [data.length % s]) := by
  induction data using splitBytes_induction s hs with
  | nil => simp [splitBytes_nil]
  | cons data hd ih =>
    have hpos : 0 < data.length := List.length_pos.mpr hd
    rw [splitBytes_cons s hs data hd, List.map_cons, ih, List.length_take, List.length_drop]
    by_cases hle : s ≤ data.length
    · have h1 : data.length / s = (data.length - s) / s + 1 := by
        rw [← Nat.sub_add_cancel hle, Nat.add_div_right _ hs]
        simp
      have h2 : (data.length - s) % s = data.length % s := by
        conv_rhs => rw [← Nat.sub_add_cancel hle]
        simp
      rw [h1, h2, List.replicate_succ, min_eq_left hle]
      simp
    · have hlt : data.length < s := by omega
      have h1 : data.length / s = 0 := Nat.div_eq_of_lt hlt
      have h2 : data.length % s = data.length := Nat.mod_eq_of_lt hlt
      have h3 : data.length - s = 0 := by omega
      have h4 : min s data.length = data.length := by omega
      have h5 : ¬ data.length = 0 := by omega
      simp [h1, h2, h3, h4, h5]

theorem splitBytes_count (s : Nat) (hs : 0 < s) (data : Bytes) :
    (splitBytes s data).length = (data.length + s - 1) / s := by
  have h := congrArg List.length (splitBytes_lengths s hs data)
  rw [List.length_map] at h
  rw [h, List.length_append, List.length_replicate]
  have hdm := Nat.div_add_mod data.length s
  by_cases hm : data.length % s = 0
  · simp only [hm, if_true, List.length_nil, Nat.add_zero]
    rw [hm, Nat.add_zero] at hdm
    have : data.length + s - 1 = s - 1 + s * (data.length / s) := by omega
    rw [this, Nat.add_mul_div_left _ _ hs, Nat.div_eq_of_lt (show s - 1 < s by omega)]
    omega
  · simp only [hm, if_false, List.length_singleton]
    have hlt := Nat.mod_lt data.length hs
    have : data.length + s - 1 = (data.length % s - 1) + s * (data.length / s + 1) := by
      rw [Nat.mul_add]; omega
    rw [this, Nat.add_mul_div_left _ _ hs,
      Nat.div_eq_of_lt (show data.length % s - 1 < s by omega)]
    omega

theorem Next_take (P : Prims) (c : FixedSizeChunker) (hs : 0 < c.size)
    (hd : c.reader.data ≠ []) (h : c.size ≤ c.reader.data.length ∨ c.reader.failure = none) :
    c.Next P = (.chunk ⟨c.reader.data.take c.size, P.blake3 (c.reader.data.take c.size)⟩ none,
      { reader := { data := c.reader.data.drop c.size, failure := c.reader.failure },
        size := c.size }) := by
  rcases h with h | h
  · exact Next_full P c hs h
  · rw [Next_clean P c hs hd h, h]

theorem nextAll_clean (P : Prims) (s : Nat) (hs : 0 < s) (data : Bytes) :
    ∀ fuel, (splitBytes s data).length + 1 ≤ fuel →
      nextAll P fuel ⟨⟨data, none⟩, s⟩ =
        some ((splitBytes s data).map (fun d => NextResult.chunk ⟨d, P.blake3 d⟩ none)
          ++ [.stop .EOF]) := by
  induction data using splitBytes_induction s hs with
  | nil =>
    intro fuel hfuel
    obtain ⟨f, rfl⟩ : ∃ f, fuel = f + 1 := ⟨fuel - 1, by omega⟩
    obtain ⟨e, c1, hnext, he⟩ := Next_empty P ⟨⟨[], none⟩, s⟩ hs rfl
    rw [he rfl] at hnext
    simp only [nextAll, hnext, splitBytes_nil, List.map_nil, List.nil_append]
  | cons data hd ih =>
    intro fuel hfuel
    rw [splitBytes_cons s hs data hd] at hfuel ⊢
    simp only [List.length_cons] at hfuel
    obtain ⟨f, rfl⟩ : ∃ f, fuel = f + 1 := ⟨fuel - 1, by omega⟩
    have hnext := Next_clean P ⟨⟨data, none⟩, s⟩ hs hd rfl
    simp only at hnext
    simp only [nextAll, hnext, ih f (by omega), Option.map_some', List.map_cons,
      List.cons_append]

/-! ## C5: the number and the lengths of the chunks -/

/-- C5. Chunk count and lengths: for a byte source of `L` bytes that reads
without error and a chunk size `s > 0`, repeated calls of `Next` (with fuel
for them) yield exactly `ceil(L/s)` chunks and then `io.EOF`; the lengths of
the chunks are `L / s` times `s`, followed by `L mod s` when `s` does not
divide `L`; the chunks are the consecutive bytes of the source, each with its
BLAKE3 hash. -/
theorem chunker_count_and_lengths (P : Prims) (data : Bytes) (size : Int) (fuel : Nat)
    (hs : 0 < size)
    (hfuel : (data.length + size.toNat - 1) / size.toNat + 1 ≤ fuel) :
    ∃ chunks : List Chunk,
      nextAll P fuel (NewFixedSizeChunker ⟨data, none⟩ size) =
        some (chunks.map (fun c => NextResult.chunk c none) ++ [.stop .EOF]) ∧
      chunks.length = (data.length + size.toNat - 1) / size.toNat ∧
      chunks.map (fun c => c.Data.length) =
        List.replicate (data.length / size.toNat) size.toNat ++
          (if data.length % size.toNat = 0 then [] else [data.length % size.toNat]) ∧
      (chunks.map (fun c => c.Data)).flatten = data ∧
      ∀ c ∈ chunks, c.Hash = P.blake3 c.Data := by
  have hs1 : ¬ size ≤ 0 := by omega
  have hpos : 0 < size.toNat := by omega
  have hcount := splitBytes_count size.toNat hpos data
  refine ⟨(splitBytes size.toNat data).map (fun d => ⟨d, P.blake3 d⟩), ?_, ?_, ?_, ?_, ?_⟩
  · have := nextAll_clean P size.toNat hpos data fuel (by rw [hcount]; exact hfuel)
    simp only [NewFixedSizeChunker, hs1, if_false, this, List.map_map]
    rfl
  · rw [List.length_map, hcount]
  · rw [List.map_map, ← splitBytes_lengths size.toNat hpos data]
    rfl
  · rw [List.map_map]
    have : ((fun c : Chunk => c.Data) ∘ fun d => (⟨d, P.blake3 d⟩ : Chunk)) = id := rfl
    rw [this, List.map_id, splitBytes_join size.toNat hpos data]
  · intro c hc
    simp only [List.mem_map] at hc
    obtain ⟨d, _, rfl⟩ := hc
    rfl

/-- C5 at an example: five bytes in chunks of two give three chunks, the last
of one byte, and then `io.EOF`. -/
theorem chunker_count_and_lengths_witness :
    ∃ chunks : List Chunk,
      nextAll toyPrims 4 (NewFixedSizeChunker ⟨[1, 2, 3, 4, 5], none⟩ 2) =
        some (chunks.map (fun c => NextResult.chunk c none) ++ [.stop .EOF]) ∧
      chunks.length = 3 ∧
      chunks.map (fun c => c.Data.length) = [2, 2, 1] ∧
      (chunks.map (fun c => c.Data)).flatten = [1, 2, 3, 4, 5] ∧
      ∀ c ∈ chunks, c.Hash = toyPrims.blake3 c.Data :=
  chunker_count_and_lengths toyPrims [1, 2, 3, 4, 5] 2 4 (by decide) (by decide)

/-! ## The loop of `processFile` -/

theorem StoreInv_mono (P : Prims) (s : ContentAddressableStore) (W W1 : List Bytes)
    (hsub : ∀ x ∈ W, x ∈ W1) (hinv : StoreInv P s W) : StoreInv P s W1 := by
  intro h env henv
  obtain ⟨x, hx, r⟩ := hinv h env henv
  exact ⟨x, hsub x hx, r⟩

theorem Has_of_Get_eq (l l1 : LocalBackend) (key : String) (h : l1.Get key = l.Get key)
    (hhas : l.Has key = true) : l1.Has key = true := by
  simp only [LocalBackend.Has, LocalBackend.Get] at *
  rw [h]
  exact hhas

/-- What the loop of `processFile` does, for any source and any outcome of
the random draws: it returns, the index gains the rows of the pieces it has
stored and is otherwise as before, these pieces are the leading pieces of the
bytes the source delivers, and all of them when the source reads without error
and the loop ends well; the store keeps its invariant and its objects, and has
an object for every piece. -/
theorem processLoop_spec (P : Prims) (hP : P.Laws) (fileID : Nat) :
    ∀ (fuel : Nat) (rnd : Nat → Option Nonce) (i : Nat) (c : FixedSizeChunker) (off : Int)
      (idx : Index) (store : ContentAddressableStore) (W : List Bytes),
      0 < c.size → c.reader.data.length < fuel → StoreInv P store W →
      ∃ res idx1 store1 pieces,
        processLoop P fileID rnd fuel i c off idx store = some (res, idx1, store1) ∧
        idx1 = { idx with chunks := idx.chunks ++ chunkRows P fileID idx.seqChunks off pieces,
                          seqChunks := idx.seqChunks + pieces.length } ∧
        pieces <+: splitBytes c.size c.reader.data ∧
        (c.reader.failure = none → res = .ok () →
          pieces = splitBytes c.size c.reader.data) ∧
        StoreInv P store1 (pieces ++ W) ∧ store1.key = store.key ∧
        (∀ key, store.backend.Has key = true →
          store1.backend.Get key = store.backend.Get key) ∧
        (∀ p ∈ pieces, store1.backend.Has (P.blake3 p).hexString = true) := by
  intro fuel
  induction fuel with
  | zero => intro _ _ c _ _ _ _ _ hlt _; omega
  | succ fuel ih =>
    intro rnd i c off idx store W hs hlt hinv
    have stay : ∀ res, processLoop P fileID rnd (fuel + 1) i c off idx store
        = some (res, idx, store) →
        (c.reader.failure = none → res = .ok () → [] = splitBytes c.size c.reader.data) →
        ∃ res idx1 store1 pieces,
        processLoop P fileID rnd (fuel + 1) i c off idx store = some (res, idx1, store1) ∧
        idx1 = { idx with chunks := idx.chunks ++ chunkRows P fileID idx.seqChunks off pieces,
                          seqChunks := idx.seqChunks + pieces.length } ∧
        pieces <+: splitBytes c.size c.reader.data ∧
        (c.reader.failure = none → res = .ok () →
          pieces = splitBytes c.size c.reader.data) ∧
        StoreInv P store1 (pieces ++ W) ∧ store1.key = store.key ∧
        (∀ key, store.backend.Has key = true →
          store1.backend.Get key = store.backend.Get key) ∧
        (∀ p ∈ pieces, store1.backend.Has (P.blake3 p).hexString = true) := by
      intro res hres hall
      refine ⟨res, idx, store, [], hres, ?_, List.nil_prefix, hall, hinv, rfl,
        fun _ _ => rfl, fun p hp => absurd hp (List.not_mem_nil p)⟩
      simp [chunkRows]
    by_cases hd : c.reader.data = []
    · obtain ⟨e, c1, hnext, _⟩ := Next_empty P c hs hd
      refine stay (.ok ()) ?_ ?_
      · simp only [processLoop, hnext]
      · intro _ _
        rw [hd, splitBytes_nil]
    · by_cases htake : c.size ≤ c.reader.data.length ∨ c.reader.failure = none
      · have hnext := Next_take P c hs hd htake
        have hsplit := splitBytes_cons c.size hs c.reader.data hd
        have hpos : 0 < c.reader.data.length := List.length_pos.mpr hd
        have good : ∀ store0, store.Put P (rnd i) (c.reader.data.take c.size)
            = (.ok (P.blake3 (c.reader.data.take c.size)), store0) →
            ∃ res idx1 store1 pieces,
            processLoop P fileID rnd (fuel + 1) i c off idx store = some (res, idx1, store1) ∧
            idx1 = { idx with
                      chunks := idx.chunks ++ chunkRows P fileID idx.seqChunks off pieces,
                      seqChunks := idx.seqChunks + pieces.length } ∧
            pieces <+: splitBytes c.size c.reader.data ∧
            (c.reader.failure = none → res = .ok () →
              pieces = splitBytes c.size c.reader.data) ∧
            StoreInv P store1 (pieces ++ W) ∧ store1.key = store.key ∧
            (∀ key, store.backend.Has key = true →
              store1.backend.Get key = store.backend.Get key) ∧
            (∀ p ∈ pieces, store1.backend.Has (P.blake3 p).hexString = true) := by
          intro store0 hput
          obtain ⟨hinv1, hkey1⟩ := Put_preserves_inv P hP store _ W (rnd i) _ _ hinv hput
          have hkeep := Put_keeps_objects P store _ (rnd i) _ _ hput
          obtain ⟨_, hhas1⟩ := Put_ok_has P store _ (rnd i) _ _ hput
          obtain ⟨res, idx1, store1, ps, hrun, hidx, hpre, hall, hinv2, hkey2, hkeep2, hhas2⟩ :=
            ih rnd (i + 1)
              { reader := { data := c.reader.data.drop c.size, failure := c.reader.failure },
                size := c.size }
              (wrapInt64 (off + ((c.reader.data.take c.size).length : Int)))
              (idx.AddChunk fileID (P.blake3 (c.reader.data.take c.size)) off
                ((c.reader.data.take c.size).length : Int))
              store0 (c.reader.data.take c.size :: W) hs
              (by simp only [List.length_drop]; omega) hinv1
          refine ⟨res, idx1, store1, c.reader.data.take c.size :: ps, ?_, ?_, ?_, ?_, ?_, ?_,
            ?_, ?_⟩
          · simp only [processLoop, hnext, hput]
            exact hrun
          · rw [hidx]
            simp only [Index.AddChunk, chunkRows, List.append_assoc, List.singleton_append,
              List.length_cons, Index.mk.injEq, true_and, and_true]
            omega
          · rw [hsplit]
            exact (List.prefix_cons_inj _).mpr hpre
          · intro hf hres
            rw [hsplit, hall hf hres]
          · exact StoreInv_mono P store1 _ _ (by
              intro x hx
              simp only [List.mem_append, List.mem_cons] at hx ⊢
              tauto) hinv2
          · rw [hkey2, hkey1]
          · intro key hk
            rw [hkeep2 key (Has_of_Get_eq _ _ key (hkeep key hk) hk), hkeep key hk]
          · intro p hp
            rw [List.mem_cons] at hp
            rcases hp with rfl | hp
            · exact Has_of_Get_eq _ _ _ (hkeep2 _ hhas1) hhas1
            · exact hhas2 p hp
        rcases Put_cases P store (rnd i) (c.reader.data.take c.size) with
          ⟨_, hput⟩ | ⟨_, _, hput⟩ | ⟨_, nonce, env, _, _, hput⟩
        · exact good _ hput
        · refine stay (.error (.store (.encryption .randFailed))) ?_ ?_
          · simp only [processLoop, hnext, hput]
          · intro _ h; exact absurd h (by simp)
        · exact good _ hput
      · have hlt2 : c.reader.data.length < c.size := by
          by_contra h
          exact htake (Or.inl (by omega))
        have hfail : c.reader.failure ≠ none := fun h => htake (Or.inr h)
        obtain ⟨code, hcode⟩ := Option.ne_none_iff_exists'.mp hfail
        obtain ⟨c1, hnext⟩ := Next_fault P c code hd hlt2 hcode
        refine stay (.ok ()) ?_ ?_
        · simp only [processLoop, hnext]
        · intro hf _
          exact absurd hf hfail

/-! ## `processFile` -/

theorem chunkSizeOf_pos (size : Int) : 0 < chunkSizeOf size := by
  simp only [chunkSizeOf, NewFixedSizeChunker]
  split
  · decide
  · omega

theorem chunkSizeOf_of_pos (size : Int) (hs : 0 < size) : chunkSizeOf size = size.toNat := by
  have : ¬ size ≤ 0 := by omega
  simp only [chunkSizeOf, NewFixedSizeChunker, this, if_false]

theorem reader_length_le (f : SourceFile) : f.reader.data.length ≤ f.content.length := by
  unfold SourceFile.reader
  split
  · exact le_refl _
  · simp only [List.length_take]; omega

theorem chunkRows_mem (P : Prims) (fileID : Nat) :
    ∀ (pieces : List Bytes) (seq : Nat) (off : Int), ∀ r ∈ chunkRows P fileID seq off pieces,
      r.file_id = fileID ∧ ∃ p ∈ pieces, r.hash = (P.blake3 p).hexString := by
  intro pieces
  induction pieces with
  | nil => intro _ _ r hr; simp [chunkRows] at hr
  | cons p ps ih =>
    intro seq off r hr
    simp only [chunkRows, List.mem_cons] at hr
    rcases hr with rfl | hr
    · exact ⟨rfl, p, List.mem_cons_self _ _, rfl⟩
    · obtain ⟨h1, q, hq, h2⟩ := ih _ _ r hr
      exact ⟨h1, q, List.mem_cons_of_mem _ hq, h2⟩

/-- What `processFile` does, for any file and any outcome of the random
draws: it returns; the index gains at most the row of the file and the rows of
the pieces stored; these are the leading pieces of what the file delivers, and
all pieces of the file when it opens, reads without error and the result is
good; the store keeps its invariant and its objects and has every piece. -/
theorem processFile_spec (P : Prims) (hP : P.Laws) (size : Int) (f : SourceFile) (snap : Nat)
    (rnd : Nat → Option Nonce) (idx : Index) (store : ContentAddressableStore)
    (W : List Bytes) (hinv : StoreInv P store W) :
    ∃ res idx1 store1 pieces frows,
      processFile P size f snap rnd idx store = some (res, idx1, store1) ∧
      idx1 = { idx with
                files := idx.files ++ frows, seqFiles := idx.seqFiles + frows.length,
                chunks := idx.chunks ++ chunkRows P (idx.seqFiles + 1) idx.seqChunks 0 pieces,
                seqChunks := idx.seqChunks + pieces.length } ∧
      (∀ r ∈ frows, r.id = idx.seqFiles + 1 ∧ r.snapshot_id = snap ∧
        r.size = f.content.length ∧
        ∃ env, r.path = hexEncode env ∧ idx.key.Decrypt P env = .ok (P.strBytes f.path)) ∧
      frows.length ≤ 1 ∧ (frows = [] → pieces = []) ∧
      pieces <+: splitBytes (chunkSizeOf size) f.reader.data ∧
      (f.openFails = false → res = .ok () →
        frows ≠ [] ∧ (f.readFault = none → pieces = splitBytes (chunkSizeOf size) f.content)) ∧
      StoreInv P store1 (pieces ++ W) ∧ store1.key = store.key ∧
      (∀ key, store.backend.Has key = true →
        store1.backend.Get key = store.backend.Get key) ∧
      (∀ p ∈ pieces, store1.backend.Has (P.blake3 p).hexString = true) := by
  have idle : ∀ res, processFile P size f snap rnd idx store = some (res, idx, store) →
      (f.openFails = false → res ≠ .ok ()) →
      ∃ res idx1 store1 pieces frows,
      processFile P size f snap rnd idx store = some (res, idx1, store1) ∧
      idx1 = { idx with
                files := idx.files ++ frows, seqFiles := idx.seqFiles + frows.length,
                chunks := idx.chunks ++ chunkRows P (idx.seqFiles + 1) idx.seqChunks 0 pieces,
                seqChunks := idx.seqChunks + pieces.length } ∧
      (∀ r ∈ frows, r.id = idx.seqFiles + 1 ∧ r.snapshot_id = snap ∧
        r.size = f.content.length ∧
        ∃ env, r.path = hexEncode env ∧ idx.key.Decrypt P env = .ok (P.strBytes f.path)) ∧
      frows.length ≤ 1 ∧ (frows = [] → pieces = []) ∧
      pieces <+: splitBytes (chunkSizeOf size) f.reader.data ∧
      (f.openFails = false → res = .ok () →
        frows ≠ [] ∧ (f.readFault = none → pieces = splitBytes (chunkSizeOf size) f.content)) ∧
      StoreInv P store1 (pieces ++ W) ∧ store1.key = store.key ∧
      (∀ key, store.backend.Has key = true →
        store1.backend.Get key = store.backend.Get key) ∧
      (∀ p ∈ pieces, store1.backend.Has (P.blake3 p).hexString = true) := by
    intro res hres hne
    refine ⟨res, idx, store, [], [], hres, ?_, fun r hr => absurd hr (List.not_mem_nil r),
      Nat.zero_le _, fun _ => rfl, List.nil_prefix, fun ho hr => absurd hr (hne ho), hinv, rfl,
      fun _ _ => rfl, fun p hp => absurd hp (List.not_mem_nil p)⟩
    simp [chunkRows]
  by_cases hopen : f.openFails = true
  · refine idle (.ok ()) ?_ ?_
    · simp only [processFile, hopen, if_true]
    · intro h; rw [hopen] at h; exact Bool.noConfusion h
  · cases hrnd : rnd 0 with
    | none =>
      refine idle (.error (.index (.encrypt .randFailed))) ?_ ?_
      · simp [processFile, hopen, Index.AddFile, MasterKey.Encrypt, hrnd]
      · intro _ h; exact Except.noConfusion h
    | some nonce =>
      have hlt : (NewFixedSizeChunker f.reader size).reader.data.length
          < f.content.length + 1 := by
        have := reader_length_le f
        simp only [NewFixedSizeChunker]
        omega
      obtain ⟨res, idx1, store1, pieces, hrun, hidx, hpre, hall, hinv1, hkey, hkeep, hhas⟩ :=
        processLoop_spec P hP (idx.seqFiles + 1) (f.content.length + 1) (fun i => rnd (i + 1)) 0
          (NewFixedSizeChunker f.reader size) 0
          { idx with
              files := idx.files ++ [⟨idx.seqFiles + 1, snap,
                hexEncode (nonce.bytes ++ P.gcmSeal idx.key nonce.bytes (P.strBytes f.path)),
                f.content.length, f.mode, f.modTime⟩],
              seqFiles := idx.seqFiles + 1 }
          store W (chunkSizeOf_pos size) hlt hinv
      refine ⟨res, idx1, store1, pieces,
        [⟨idx.seqFiles + 1, snap,
          hexEncode (nonce.bytes ++ P.gcmSeal idx.key nonce.bytes (P.strBytes f.path)),
          f.content.length, f.mode, f.modTime⟩], ?_, ?_, ?_, le_refl _, ?_, hpre, ?_, hinv1,
        hkey, hkeep, hhas⟩
      · simp only [processFile, hopen, Index.AddFile, MasterKey.Encrypt, hrnd]
        exact hrun
      · rw [hidx]
        simp
      · intro r hr
        rw [List.mem_singleton] at hr
        subst hr
        exact ⟨rfl, rfl, rfl, _, rfl, Decrypt_Encrypt P hP idx.key nonce _ _ rfl⟩
      · intro h; exact absurd h (by simp)
      · intro _ hres
        refine ⟨by simp, fun hread => ?_⟩
        have hreader : f.reader = { data := f.content, failure := none } := by
          simp only [SourceFile.reader, hread]
        have := hall (by simp only [NewFixedSizeChunker, hreader]) hres
        rw [this]
        simp only [NewFixedSizeChunker, hreader, chunkSizeOf]

/-! ## How backups change a repository -/

theorem RowStored_keep (s s1 : ContentAddressableStore) (r : ChunkRow)
    (hkeep : ∀ k, s.backend.Has k = true → s1.backend.Get k = s.backend.Get k)
    (h : RowStored s r) : RowStored s1 r := by
  obtain ⟨hh, h1, h2⟩ := h
  exact ⟨hh, h1, Has_of_Get_eq _ _ _ (hkeep _ h2) h2⟩

theorem Grows.refl (P : Prims) (idx : Index) (s : ContentAddressableStore) :
    Grows P idx s idx s where
  key := rfl
  skey := rfl
  seq := le_refl _
  chunks := ⟨[], by simp, fun r hr => absurd hr (List.not_mem_nil r)⟩
  files := ⟨[], by simp, fun r hr => absurd hr (List.not_mem_nil r)⟩
  keep := fun _ _ => rfl

theorem Grows.trans (P : Prims) {idx idx1 idx2 : Index} {s s1 s2 : ContentAddressableStore}
    (h1 : Grows P idx s idx1 s1) (h2 : Grows P idx1 s1 idx2 s2) : Grows P idx s idx2 s2 where
  key := h2.key.trans h1.key
  skey := h2.skey.trans h1.skey
  seq := le_trans h1.seq h2.seq
  chunks := by
    obtain ⟨r1, e1, p1⟩ := h1.chunks
    obtain ⟨r2, e2, p2⟩ := h2.chunks
    refine ⟨r1 ++ r2, by rw [e2, e1, List.append_assoc], fun r hr => ?_⟩
    rcases List.mem_append.mp hr with hr | hr
    · obtain ⟨a, b, c⟩ := p1 r hr
      exact ⟨a, le_trans b h2.seq, RowStored_keep _ _ r h2.keep c⟩
    · obtain ⟨a, b, c⟩ := p2 r hr
      exact ⟨lt_of_le_of_lt h1.seq a, b, c⟩
  files := by
    obtain ⟨r1, e1, p1⟩ := h1.files
    obtain ⟨r2, e2, p2⟩ := h2.files
    refine ⟨r1 ++ r2, by rw [e2, e1, List.append_assoc], fun r hr => ?_⟩
    rcases List.mem_append.mp hr with hr | hr
    · exact p1 r hr
    · have := p2 r hr
      rw [h1.key] at this
      exact this
  keep := fun k hk => by
    rw [h2.keep k (Has_of_Get_eq _ _ k (h1.keep k hk) hk), h1.keep k hk]

theorem RepoInv_of_grows (P : Prims) {idx idx1 : Index} {s s1 : ContentAddressableStore}
    (hinv : RepoInv P idx s) (hg : Grows P idx s idx1 s1) (hstore : ∃ W, StoreInv P s1 W) :
    RepoInv P idx1 s1 where
  wf := by
    obtain ⟨rows, e, p⟩ := hg.chunks
    intro r hr
    rw [e] at hr
    rcases List.mem_append.mp hr with hr | hr
    · exact le_trans (hinv.wf r hr) hg.seq
    · exact (p r hr).2.1
  rows := by
    obtain ⟨rows, e, p⟩ := hg.chunks
    intro r hr
    rw [e] at hr
    rcases List.mem_append.mp hr with hr | hr
    · exact RowStored_keep _ _ r hg.keep (hinv.rows r hr)
    · exact (p r hr).2.2
  paths := by
    obtain ⟨rows, e, p⟩ := hg.files
    intro r hr
    rw [e] at hr
    rw [hg.key]
    rcases List.mem_append.mp hr with hr | hr
    · exact hinv.paths r hr
    · exact p r hr
  store := hstore

/-- One file: `processFile` returns, and the repository grows. -/
theorem processFile_grows (P : Prims) (hP : P.Laws) (size : Int) (f : SourceFile) (snap : Nat)
    (rnd : Nat → Option Nonce) (idx : Index) (store : ContentAddressableStore)
    (W : List Bytes) (hinv : StoreInv P store W) :
    ∃ res idx1 store1 pieces,
      processFile P size f snap rnd idx store = some (res, idx1, store1) ∧
      Grows P idx store idx1 store1 ∧ store1.key = store.key ∧
      pieces <+: splitBytes (chunkSizeOf size) f.reader.data ∧
      StoreInv P store1 (pieces ++ W) := by
  obtain ⟨res, idx1, store1, pieces, frows, hrun, hidx, hrows, hlen, hnil, hpre, _, hinv1, hkey,
    hkeep, hhas⟩ := processFile_spec P hP size f snap rnd idx store W hinv
  refine ⟨res, idx1, store1, pieces, hrun, ?_, hkey, hpre, hinv1⟩
  subst hidx
  refine ⟨rfl, hkey, Nat.le_add_right _ _, ⟨_, rfl, fun r hr => ?_⟩,
    ⟨frows, rfl, fun r hr => ?_⟩, hkeep⟩
  · obtain ⟨hfid, p, hp, hhash⟩ := chunkRows_mem P _ pieces _ _ r hr
    have hne : frows ≠ [] := fun h => by
      rw [hnil h] at hr
      simp [chunkRows] at hr
    have hl : frows.length = 1 := by
      have := List.length_pos.mpr hne
      omega
    refine ⟨by simp only [hfid]; omega, by simp only [hfid, hl]; omega, P.blake3 p, hhash, ?_⟩
    rw [hhash]
    exact hhas p hp
  · obtain ⟨_, _, _, env, he, hd⟩ := hrows r hr
    exact ⟨env, _, he, hd⟩

/-- A walk: `walkFiles` returns, and the repository grows. -/
theorem walkFiles_grows (P : Prims) (hP : P.Laws) (size : Int) (snap : Nat)
    (rnd : Nat → Nat → Option Nonce) :
    ∀ (entries : List WalkEntry) (j : Nat) (idx : Index) (store : ContentAddressableStore)
      (W : List Bytes), StoreInv P store W →
      ∃ res idx1 store1 W1,
        walkFiles P size snap rnd entries j idx store = some (res, idx1, store1) ∧
        Grows P idx store idx1 store1 ∧ store1.key = store.key ∧ StoreInv P store1 W1 := by
  intro entries
  induction entries with
  | nil =>
    intro j idx store W hinv
    exact ⟨.ok (), idx, store, W, rfl, Grows.refl P idx store, rfl, hinv⟩
  | cons e rest ih =>
    intro j idx store W hinv
    cases e with
    | failed c => exact ⟨.error (.walk c), idx, store, W, rfl, Grows.refl P idx store, rfl, hinv⟩
    | dir =>
      obtain ⟨res, idx1, store1, W1, hrun, hg, hk, hinv1⟩ := ih (j + 1) idx store W hinv
      exact ⟨res, idx1, store1, W1, by simp only [walkFiles, hrun], hg, hk, hinv1⟩
    | file f =>
      obtain ⟨res, idx1, store1, pieces, hrun, hg, hk, _, hinv1⟩ :=
        processFile_grows P hP size f snap (rnd j) idx store W hinv
      cases res with
      | error e =>
        exact ⟨.error e, idx1, store1, _, by simp only [walkFiles, hrun], hg, hk, hinv1⟩
      | ok u =>
        obtain ⟨res2, idx2, store2, W2, hrun2, hg2, hk2, hinv2⟩ :=
          ih (j + 1) idx1 store1 _ hinv1
        exact ⟨res2, idx2, store2, W2, by simp only [walkFiles, hrun, hrun2],
          Grows.trans P hg hg2, hk2.trans hk, hinv2⟩

theorem Grows_CreateSnapshot (P : Prims) (idx : Index) (s : ContentAddressableStore)
    (now : Nat) (desc : String) : Grows P idx s (idx.CreateSnapshot now desc).2 s where
  key := rfl
  skey := rfl
  seq := le_refl _
  chunks := ⟨[], by simp [Index.CreateSnapshot], fun r hr => absurd hr (List.not_mem_nil r)⟩
  files := ⟨[], by simp [Index.CreateSnapshot], fun r hr => absurd hr (List.not_mem_nil r)⟩
  keep := fun _ _ => rfl

/-- A backup returns, whatever its source and its random draws, and the
repository grows. -/
theorem Backup_grows (P : Prims) (hP : P.Laws) (size : Int) (now : Nat) (absPath : String)
    (src : Source) (rnd : Nat → Nat → Option Nonce) (idx : Index)
    (store : ContentAddressableStore) (W : List Bytes) (hinv : StoreInv P store W) :
    ∃ res idx1 store1 W1,
      Backup P size now absPath src rnd idx store = some (res, idx1, store1) ∧
      Grows P idx store idx1 store1 ∧ store1.key = store.key ∧ StoreInv P store1 W1 := by
  have hsnap := Grows_CreateSnapshot P idx store now ("Backup of " ++ absPath)
  cases src with
  | missing => exact ⟨.error .stat, _, store, W, rfl, hsnap, rfl, hinv⟩
  | file f =>
    obtain ⟨res, idx1, store1, pieces, hrun, hg, hk, _, hinv1⟩ :=
      processFile_grows P hP size f (idx.CreateSnapshot now ("Backup of " ++ absPath)).1
        (rnd 0) (idx.CreateSnapshot now ("Backup of " ++ absPath)).2 store W hinv
    cases res with
    | error e =>
      exact ⟨.error e, idx1, store1, _, by simp only [Backup, hrun], Grows.trans P hsnap hg,
        hk, hinv1⟩
    | ok u =>
      exact ⟨.ok (idx.CreateSnapshot now ("Backup of " ++ absPath)).1, idx1, store1, _,
        by simp only [Backup, hrun], Grows.trans P hsnap hg, hk, hinv1⟩
  | dir entries =>
    obtain ⟨res, idx1, store1, W1, hrun, hg, hk, hinv1⟩ :=
      walkFiles_grows P hP size (idx.CreateSnapshot now ("Backup of " ++ absPath)).1 rnd
        entries 0 (idx.CreateSnapshot now ("Backup of " ++ absPath)).2 store W hinv
    cases res with
    | error e =>
      exact ⟨.error e, idx1, store1, _, by simp only [Backup, hrun], Grows.trans P hsnap hg,
        hk, hinv1⟩
    | ok u =>
      exact ⟨.ok (idx.CreateSnapshot now ("Backup of " ++ absPath)).1, idx1, store1, _,
        by simp only [Backup, hrun], Grows.trans P hsnap hg, hk, hinv1⟩

theorem RepoInv_init (P : Prims) (key : MasterKey) :
    RepoInv P (Index.empty key) { backend := { files := [], puts := 0 }, key := key } where
  wf := fun r hr => absurd hr (List.not_mem_nil r)
  rows := fun r hr => absurd hr (List.not_mem_nil r)
  paths := fun r hr => absurd hr (List.not_mem_nil r)
  store := ⟨[], fun h env henv => by
    simp only [LocalBackend.Get, readFile] at henv
    exact Option.noConfusion henv⟩

/-- A repository that backups have made satisfies the invariant. -/
theorem RepoInv_of_reachable (P : Prims) (hP : P.Laws) (key : MasterKey) (idx : Index)
    (s : ContentAddressableStore) (h : Reachable P key idx s) : RepoInv P idx s := by
  induction h with
  | init => exact RepoInv_init P key
  | backup size now absPath src rnd idx idx1 s s1 res _ hrun ih =>
    obtain ⟨W, hW⟩ := ih.store
    obtain ⟨res2, idx2, s2, W2, hrun2, hg, _, hinv2⟩ :=
      Backup_grows P hP size now absPath src rnd idx s W hW
    rw [hrun] at hrun2
    simp only [Option.some.injEq, Prod.mk.injEq] at hrun2
    obtain ⟨_, h1, h2⟩ := hrun2
    subst h1 h2
    exact RepoInv_of_grows P ih hg ⟨W2, hinv2⟩

/-! ## The repository audit -/

theorem decodeFiles_ok (P : Prims) (key : MasterKey) :
    ∀ rows : List FileRow, (∀ r ∈ rows, PathReadable P key r) →
      ∃ fs, decodeFiles P key rows = .ok fs ∧ fs.map (fun f => f.ID) = rows.map (fun r => r.id)
  := by
  intro rows
  induction rows with
  | nil => intro _; exact ⟨[], rfl, rfl⟩
  | cons r rest ih =>
    intro h
    obtain ⟨env, pt, he, hd⟩ := h r (List.mem_cons_self _ _)
    obtain ⟨fs, hfs, hids⟩ := ih (fun x hx => h x (List.mem_cons_of_mem _ hx))
    refine ⟨⟨r.id, P.bytesStr pt, r.size, r.mode, r.mod_time⟩ :: fs, ?_, ?_⟩
    · simp only [decodeFiles, he, hexDecode_hexEncode, hd, hfs]
    · simp only [List.map_cons, hids]

theorem GetFiles_ok (P : Prims) (idx : Index) (h : ∀ r ∈ idx.files, PathReadable P idx.key r)
    (snap : Nat) : ∃ fs, idx.GetFiles P snap = .ok fs := by
  obtain ⟨fs, hfs, _⟩ := decodeFiles_ok P idx.key
    (idx.files.filter (fun r => r.snapshot_id = snap))
    (fun r hr => h r (List.mem_of_mem_filter hr))
  exact ⟨fs, hfs⟩

theorem mem_GetChunks (idx : Index) (fileID : Nat) (c : ChunkRecord)
    (h : c ∈ idx.GetChunks fileID) : ∃ r ∈ idx.chunks, c.Hash = r.hash := by
  simp only [Index.GetChunks, List.mem_map] at h
  obtain ⟨r, hr, rfl⟩ := h
  have := (List.perm_insertionSort _ _).mem_iff.mp hr
  exact ⟨r, List.mem_of_mem_filter this, rfl⟩

theorem auditChunks_clean (P : Prims) (hP : P.Laws) (s : ContentAddressableStore)
    (W : List Bytes) (hinv : StoreInv P s W) :
    ∀ (cs : List ChunkRecord) (report : AuditReport) (checked : List String),
      (∀ c ∈ cs, ∃ h : Hash, c.Hash = h.hexString ∧ s.backend.Has c.Hash = true) →
      report.Clean → (auditChunks P s cs report checked).1.Clean := by
  intro cs
  induction cs with
  | nil => intro report checked _ hc; exact hc
  | cons c rest ih =>
    intro report checked hrows hc
    have hrest : ∀ c ∈ rest, ∃ h : Hash, c.Hash = h.hexString ∧ s.backend.Has c.Hash = true :=
      fun x hx => hrows x (List.mem_cons_of_mem _ hx)
    obtain ⟨h, hh, hhas⟩ := hrows c (List.mem_cons_self _ _)
    rw [hh] at hhas
    obtain ⟨x, _, _, hget⟩ := Get_of_present P hP s W hinv h hhas
    by_cases hmem : c.Hash ∈ checked
    · simp only [auditChunks, hmem, if_true]
      exact ih report checked hrest hc
    · rw [hh] at hmem
      simp only [auditChunks, hh, hmem, if_false, Parse_hexString, hget]
      exact ih _ _ hrest hc

theorem auditFiles_clean (P : Prims) (hP : P.Laws) (idx : Index) (s : ContentAddressableStore)
    (hinv : RepoInv P idx s) :
    ∀ (fs : List FileRecord) (report : AuditReport) (checked : List String),
      report.Clean → (auditFiles P idx s fs report checked).1.Clean := by
  obtain ⟨W, hW⟩ := hinv.store
  intro fs
  induction fs with
  | nil => intro report checked hc; exact hc
  | cons f rest ih =>
    intro report checked hc
    simp only [auditFiles]
    apply ih
    apply auditChunks_clean P hP s W hW _ _ _ _ hc
    intro c hcmem
    obtain ⟨r, hr, hcr⟩ := mem_GetChunks idx f.ID c hcmem
    obtain ⟨h, h1, h2⟩ := hinv.rows r hr
    exact ⟨h, hcr.trans h1, by rw [hcr]; exact h2⟩

theorem auditSnapshots_clean (P : Prims) (hP : P.Laws) (idx : Index)
    (s : ContentAddressableStore) (hinv : RepoInv P idx s) :
    ∀ (snaps : List SnapshotRow) (report : AuditReport) (checked : List String),
      report.Clean →
      (auditSnapshots P idx s snaps report checked).2 = none ∧
      (auditSnapshots P idx s snaps report checked).1.Clean := by
  intro snaps
  induction snaps with
  | nil =>
    intro report checked hc
    have h1 : ¬ (report.MissingChunks > 0 ∨ report.CorruptChunks > 0) := by
      rw [hc.1, hc.2.1]
      simp
    simp only [auditSnapshots, h1, if_false, true_and]
    exact hc
  | cons sn rest ih =>
    intro report checked hc
    obtain ⟨fs, hfs⟩ := GetFiles_ok P idx hinv.paths sn.id
    simp only [auditSnapshots, hfs]
    apply ih
    apply auditFiles_clean P hP idx s hinv
    exact hc

/-! ## C10: the audit of an undamaged repository -/

/-- C10. Audit of an undamaged repository: for a repository whose index and
store were written by runs of `Backup` alone, from an empty one on (so that no
blob was altered or removed), `AuditRepository` ends without error and reports
no missing and no corrupt chunk, healthy, with score 100. -/
theorem audit_of_undamaged_repository (P : Prims) (hP : P.Laws) (key : MasterKey) (idx : Index)
    (s : ContentAddressableStore) (h : Reachable P key idx s) :
    (AuditRepository P idx s).2 = none ∧
    (AuditRepository P idx s).1.MissingChunks = 0 ∧
    (AuditRepository P idx s).1.CorruptChunks = 0 ∧
    (AuditRepository P idx s).1.Healthy = true ∧
    (AuditRepository P idx s).1.Score = 100 :=
  auditSnapshots_clean P hP idx s (RepoInv_of_reachable P hP key idx s h) _ _ _
    (by simp [AuditReport.Clean])

/-- C10 at an example: after the backup of two files that share a chunk, the
audit counts two files and three chunks and finds nothing. -/
theorem audit_of_undamaged_repository_witness :
    AuditRepository toyPrims toyRepo.1 toyRepo.2 = (⟨2, 3, 0, 0, true, 100⟩, none) ∧
    (AuditRepository toyPrims toyRepo.1 toyRepo.2).1.MissingChunks = 0 ∧
    (AuditRepository toyPrims toyRepo.1 toyRepo.2).1.CorruptChunks = 0 :=
  have h := audit_of_undamaged_repository toyPrims toyPrims_laws toyKey toyRepo.1 toyRepo.2
    (Reachable.backup 2 0 "/src" _ toyRnd _ _ _ _ (.ok 1) Reachable.init
      (by decide : toyBackup = some (.ok 1, toyRepo.1, toyRepo.2)))
  ⟨by decide, h.2.1, h.2.2.1⟩

/-! ## The rows of a file -/

theorem wrapInt64_id (x : Int) (h0 : 0 ≤ x) (h1 : x < 2 ^ 63) : wrapInt64 x = x := by
  unfold wrapInt64
  omega

theorem chunkRows_covers (P : Prims) (fileID : Nat) :
    ∀ (pieces : List Bytes) (seq : Nat) (off : Int), (∀ p ∈ pieces, p ≠ []) → 0 ≤ off →
      off + (pieces.flatten.length : Int) < 2 ^ 63 →
      Covers off (chunkRows P fileID seq off pieces) (off + (pieces.flatten.length : Int)) := by
  intro pieces
  induction pieces with
  | nil => intro seq off _ _ _; simp [chunkRows, Covers]
  | cons p ps ih =>
    intro seq off hne h0 hlt
    have hp : 0 < p.length := List.length_pos.mpr (hne p (List.mem_cons_self _ _))
    simp only [List.flatten_cons, List.length_append, Nat.cast_add] at hlt ⊢
    have hw : wrapInt64 (off + (p.length : Int)) = off + (p.length : Int) :=
      wrapInt64_id _ (by omega) (by omega)
    simp only [chunkRows, Covers, hw, true_and]
    refine ⟨by omega, ?_⟩
    have := ih (seq + 1) (off + (p.length : Int))
      (fun q hq => hne q (List.mem_cons_of_mem _ hq)) (by omega) (by omega)
    rw [← add_assoc]
    exact this

theorem Covers_sorted :
    ∀ (rows : List ChunkRow) (start stop : Int), Covers start rows stop →
      (∀ r ∈ rows, start ≤ r.offset) ∧ rows.Sorted (fun a b => a.offset < b.offset) := by
  intro rows
  induction rows with
  | nil => intro _ _ _; exact ⟨fun r hr => absurd hr (List.not_mem_nil r), List.sorted_nil⟩
  | cons r rs ih =>
    intro start stop h
    obtain ⟨h1, h2, h3⟩ := h
    obtain ⟨hge, hs⟩ := ih _ _ h3
    refine ⟨fun x hx => ?_, List.sorted_cons.mpr ⟨fun x hx => ?_, hs⟩⟩
    · rcases List.mem_cons.mp hx with rfl | hx
      · omega
      · have := hge x hx
        omega
    · have := hge x hx
      omega

theorem Sorted_le_of_lt (rows : List ChunkRow)
    (h : rows.Sorted (fun a b => a.offset < b.offset)) :
    rows.Sorted (fun a b => a.offset ≤ b.offset) :=
  List.Pairwise.imp (fun hab => le_of_lt hab) h

theorem rowsOf_append_new (P : Prims) (idx : Index) (hwf : idx.WF) (fileID : Nat)
    (hfid : idx.seqFiles < fileID) (seq : Nat) (off : Int) (pieces : List Bytes) :
    (idx.chunks ++ chunkRows P fileID seq off pieces).filter (fun r => r.file_id = fileID)
      = chunkRows P fileID seq off pieces := by
  rw [List.filter_append]
  have h1 : idx.chunks.filter (fun r => r.file_id = fileID) = [] := by
    apply List.filter_eq_nil_iff.mpr
    intro r hr
    have := hwf r hr
    simp only [decide_eq_true_eq]
    omega
  have h2 : (chunkRows P fileID seq off pieces).filter (fun r => r.file_id = fileID)
      = chunkRows P fileID seq off pieces := by
    apply List.filter_eq_self.mpr
    intro r hr
    simp only [decide_eq_true_eq]
    exact (chunkRows_mem P fileID pieces seq off r hr).1
  rw [h1, h2, List.nil_append]

/-- The rows written for a file that opens and reads without error chain from
0 to the size of the file, and the row of the file records that size. -/
theorem rows_cover_file (P : Prims) (hP : P.Laws) (size : Int) (f : SourceFile) (snap : Nat)
    (rnd : Nat → Option Nonce) (idx idx1 : Index) (store store1 : ContentAddressableStore)
    (W : List Bytes) (hwf : idx.WF) (hinv : StoreInv P store W)
    (hopen : f.openFails = false) (hread : f.readFault = none)
    (hlen : (f.content.length : Int) < 2 ^ 63)
    (hrun : processFile P size f snap rnd idx store = some (.ok (), idx1, store1)) :
    Covers 0 (idx1.rowsOf (idx.seqFiles + 1)) (f.content.length : Int) ∧
    (idx1.rowsOf (idx.seqFiles + 1)).Sorted (fun a b => a.offset < b.offset) ∧
    idx1.rowsOf (idx.seqFiles + 1) = chunkRows P (idx.seqFiles + 1) idx.seqChunks 0
      (splitBytes (chunkSizeOf size) f.content) ∧
    ∃ row ∈ idx1.files, row.id = idx.seqFiles + 1 ∧ row.snapshot_id = snap ∧
      row.size = f.content.length := by
  obtain ⟨res, idx2, store2, pieces, frows, hrun2, hidx, hrows, _, _, _, hall, _⟩ :=
    processFile_spec P hP size f snap rnd idx store W hinv
  rw [hrun] at hrun2
  simp only [Option.some.injEq, Prod.mk.injEq] at hrun2
  obtain ⟨h1, h2, h3⟩ := hrun2
  subst h1 h2 h3
  obtain ⟨hne, hpieces⟩ := hall hopen rfl
  have hpieces := hpieces hread
  subst hpieces
  have hrowsOf : idx1.rowsOf (idx.seqFiles + 1) = chunkRows P (idx.seqFiles + 1) idx.seqChunks 0
      (splitBytes (chunkSizeOf size) f.content) := by
    rw [hidx]
    exact rowsOf_append_new P idx hwf _ (by omega) _ _ _
  have hcov : Covers 0 (idx1.rowsOf (idx.seqFiles + 1)) (f.content.length : Int) := by
    rw [hrowsOf]
    have := chunkRows_covers P (idx.seqFiles + 1) (splitBytes (chunkSizeOf size) f.content)
      idx.seqChunks 0 (fun p hp => (splitBytes_pos _ (chunkSizeOf_pos size) _ p hp).1)
      (le_refl _)
      (by rw [splitBytes_join _ (chunkSizeOf_pos size)]; omega)
    rw [splitBytes_join _ (chunkSizeOf_pos size)] at this
    simpa using this
  refine ⟨hcov, (Covers_sorted _ _ _ hcov).2, hrowsOf, ?_⟩
  obtain ⟨row, hrow⟩ := List.exists_mem_of_ne_nil frows hne
  obtain ⟨a, b, c, _⟩ := hrows row hrow
  refine ⟨row, ?_, a, b, c⟩
  rw [hidx]
  exact List.mem_append_right _ hrow

/-! ## C6: the chunk rows of a file -/

/-- C6, at the input where the code leaves the claim: a file of four bytes
whose reading fails after two bytes. `Backup` ends well with a snapshot id, the
row of the file records the size 4, and the one chunk row written for it
covers the bytes from 0 to 2 only; the rows do not cover the file. -/
theorem rows_after_read_error :
    ∃ idx1 s1,
      Backup toyPrims 2 0 "/src/a" (.file faultyFile) toyRnd (Index.empty toyKey) toyStore
        = some (.ok 1, idx1, s1) ∧
      idx1.files.map (fun r => (r.id, r.size)) = [(1, 4)] ∧
      (idx1.rowsOf 1).map (fun r => (r.offset, r.size)) = [(0, 2)] ∧
      Covers 0 (idx1.rowsOf 1) 2 ∧ ¬ Covers 0 (idx1.rowsOf 1) 4 :=
  ⟨_, _, rfl, by decide, by decide, by decide, by decide⟩

/-! ## Restoring a file -/

theorem restoreChunks_pieces (P : Prims) (s : ContentAddressableStore) (fileID : Nat) :
    ∀ (pieces : List Bytes) (seq : Nat) (off : Int) (out : Bytes),
      (∀ p ∈ pieces, s.Get P (P.blake3 p) = .ok p) →
      restoreChunks P s
        ((chunkRows P fileID seq off pieces).map (fun r => ⟨r.hash, r.offset, r.size⟩)) out
        = (.ok (), out ++ pieces.flatten) := by
  intro pieces
  induction pieces with
  | nil => intro _ _ out _; simp [chunkRows, restoreChunks]
  | cons p ps ih =>
    intro seq off out hget
    simp only [chunkRows, List.map_cons, restoreChunks, Parse_hexString,
      hget p (List.mem_cons_self _ _)]
    rw [ih _ _ _ (fun q hq => hget q (List.mem_cons_of_mem _ hq))]
    simp

theorem Get_stable (P : Prims) (s s1 : ContentAddressableStore) (h : Hash)
    (hkey : s1.key = s.key) (hget : s1.backend.Get h.hexString = s.backend.Get h.hexString) :
    s1.Get P h = s.Get P h := by
  simp only [ContentAddressableStore.Get, hkey, hget]

theorem rowsOf_grows (P : Prims) {idx idx1 : Index} {s s1 : ContentAddressableStore}
    (hg : Grows P idx s idx1 s1) (fileID : Nat) (hfid : fileID ≤ idx.seqFiles) :
    idx1.rowsOf fileID = idx.rowsOf fileID := by
  obtain ⟨rows, e, p⟩ := hg.chunks
  simp only [Index.rowsOf, e, List.filter_append]
  have : rows.filter (fun r => r.file_id = fileID) = [] := by
    apply List.filter_eq_nil_iff.mpr
    intro r hr
    have := (p r hr).1
    simp only [decide_eq_true_eq]
    omega
  rw [this, List.append_nil]

/-- What can be restored stays so while the repository grows. -/
theorem Restorable_grows (P : Prims) {idx idx1 : Index} {s s1 : ContentAddressableStore}
    (hg : Grows P idx s idx1 s1) (fileID : Nat) (hfid : fileID ≤ idx.seqFiles)
    (content : Bytes) (h : Restorable P idx s fileID content) :
    Restorable P idx1 s1 fileID content := by
  obtain ⟨pieces, seq, off, hrows, hsorted, hjoin, hget⟩ := h
  refine ⟨pieces, seq, off, ?_, ?_, hjoin, fun p hp => ?_⟩
  · rw [rowsOf_grows P hg fileID hfid, hrows]
  · rw [rowsOf_grows P hg fileID hfid]
    exact hsorted
  · obtain ⟨h1, h2⟩ := hget p hp
    have hk := hg.keep _ h1
    exact ⟨Has_of_Get_eq _ _ _ hk h1, by rw [Get_stable P s s1 _ hg.skey hk, h2]⟩

/-- What can be restored is restored by `restoreFile`. -/
theorem restoreFile_of_restorable (P : Prims) (idx : Index) (s : ContentAddressableStore)
    (fileID : Nat) (content : Bytes) (h : Restorable P idx s fileID content)
    (r : FileRecord) (hr : r.ID = fileID) :
    restoreFile P idx s r false = (.ok (), some content) := by
  obtain ⟨pieces, seq, off, hrows, hsorted, hjoin, hget⟩ := h
  have hchunks : idx.GetChunks r.ID
      = (chunkRows P fileID seq off pieces).map (fun r => ⟨r.hash, r.offset, r.size⟩) := by
    have : idx.GetChunks r.ID = ((idx.rowsOf fileID).insertionSort
        (fun a b => a.offset ≤ b.offset)).map (fun r => ⟨r.hash, r.offset, r.size⟩) := by
      rw [← hr]
      rfl
    rw [this, List.Sorted.insertionSort_eq hsorted, hrows]
  simp only [restoreFile, hchunks,
    restoreChunks_pieces P s fileID pieces seq off [] (fun p hp => (hget p hp).2), hjoin]
  simp

theorem CollisionFree_mono (P : Prims) (W W1 : List Bytes) (hsub : ∀ x ∈ W, x ∈ W1)
    (h : CollisionFree P W1) : CollisionFree P W :=
  fun a ha b hb hab => h a (hsub a ha) b (hsub b hb) hab

theorem WF_of_grows (P : Prims) {idx idx1 : Index} {s s1 : ContentAddressableStore}
    (hwf : idx.WF) (hg : Grows P idx s idx1 s1) : idx1.WF := by
  obtain ⟨rows, e, p⟩ := hg.chunks
  intro r hr
  rw [e] at hr
  rcases List.mem_append.mp hr with hr | hr
  · exact le_trans (hwf r hr) hg.seq
  · exact (p r hr).2.1

/-- After `processFile` of a file that opens and reads without error, the
record of the file can be restored to the bytes of the file. -/
theorem processFile_restorable (P : Prims) (hP : P.Laws) (size : Int) (f : SourceFile)
    (snap : Nat) (rnd : Nat → Option Nonce) (idx idx1 : Index)
    (store store1 : ContentAddressableStore) (W : List Bytes) (hwf : idx.WF)
    (hinv : StoreInv P store W)
    (hcf : CollisionFree P (splitBytes (chunkSizeOf size) f.content ++ W))
    (hopen : f.openFails = false) (hread : f.readFault = none)
    (hlen : (f.content.length : Int) < 2 ^ 63)
    (hrun : processFile P size f snap rnd idx store = some (.ok (), idx1, store1)) :
    idx.seqFiles + 1 ≤ idx1.seqFiles ∧
    Restorable P idx1 store1 (idx.seqFiles + 1) f.content ∧
    ∃ row ∈ idx1.files, row.id = idx.seqFiles + 1 ∧ row.snapshot_id = snap ∧
      row.size = f.content.length := by
  obtain ⟨hcov, hsorted, hrowsOf, hrow⟩ :=
    rows_cover_file P hP size f snap rnd idx idx1 store store1 W hwf hinv hopen hread hlen hrun
  obtain ⟨res, idx2, store2, pieces, frows, hrun2, hidx, _, hfl, _, _, hall, hinv1, _, _, hhas⟩ :=
    processFile_spec P hP size f snap rnd idx store W hinv
  rw [hrun] at hrun2
  simp only [Option.some.injEq, Prod.mk.injEq] at hrun2
  obtain ⟨h1, h2, h3⟩ := hrun2
  subst h1 h2 h3
  obtain ⟨hne, hpieces⟩ := hall hopen rfl
  have hpieces := hpieces hread
  subst hpieces
  have hseq : idx.seqFiles + 1 ≤ idx1.seqFiles := by
    have := List.length_pos.mpr hne
    rw [hidx]
    simp only
    omega
  refine ⟨hseq, ⟨_, _, _, hrowsOf, Sorted_le_of_lt _ hsorted,
    splitBytes_join _ (chunkSizeOf_pos size) _, fun p hp => ⟨hhas p hp, ?_⟩⟩, hrow⟩
  obtain ⟨x, hx, hxh, hget⟩ := Get_of_present P hP store1 _ hinv1 _ (hhas p hp)
  have : x = p := hcf x hx p (List.mem_append_left _ hp) hxh
  rw [hget, this]

theorem reader_of_clean (f : SourceFile) (hread : f.readFault = none) :
    f.reader.data = f.content := by
  simp only [SourceFile.reader, hread]

theorem walkFiles_restorable (P : Prims) (hP : P.Laws) (size : Int) (snap : Nat)
    (rnd : Nat → Nat → Option Nonce) :
    ∀ (entries : List WalkEntry) (j : Nat) (idx idx2 : Index)
      (store store2 : ContentAddressableStore) (W : List Bytes),
      idx.WF → StoreInv P store W →
      CollisionFree P (piecesOf size (Source.dir entries).files ++ W) →
      walkFiles P size snap rnd entries j idx store = some (.ok (), idx2, store2) →
      ∀ f, WalkEntry.file f ∈ entries → f.openFails = false → f.readFault = none →
        (f.content.length : Int) < 2 ^ 63 →
        ∃ row ∈ idx2.files, row.snapshot_id = snap ∧ row.size = f.content.length ∧
          row.id ≤ idx2.seqFiles ∧ Restorable P idx2 store2 row.id f.content := by
  intro entries
  induction entries with
  | nil => intro _ _ _ _ _ _ _ _ _ _ f hf; exact absurd hf (List.not_mem_nil _)
  | cons e rest ih =>
    intro j idx idx2 store store2 W hwf hinv hcf hrun f hf hopen hread hlen
    cases e with
    | failed c =>
      simp only [walkFiles, Option.some.injEq, Prod.mk.injEq, reduceCtorEq, false_and] at hrun
    | dir =>
      simp only [walkFiles] at hrun
      have hf1 : WalkEntry.file f ∈ rest := by
        rcases List.mem_cons.mp hf with h | h
        · exact WalkEntry.noConfusion h
        · exact h
      exact ih (j + 1) idx idx2 store store2 W hwf hinv hcf hrun f hf1 hopen hread hlen
    | file g =>
      obtain ⟨res, idx1, store1, pieces, hrun1, hg, _, hpre, hinv1⟩ :=
        processFile_grows P hP size g snap (rnd j) idx store W hinv
      have hfiles : piecesOf size (Source.dir (WalkEntry.file g :: rest)).files
          = splitBytes (chunkSizeOf size) g.reader.data
            ++ piecesOf size (Source.dir rest).files := by
        simp only [piecesOf, Source.files, List.filterMap_cons, List.flatMap_cons]
      rw [hfiles] at hcf
      cases res with
      | error err =>
        simp only [walkFiles, hrun1, Option.some.injEq, Prod.mk.injEq, reduceCtorEq,
          false_and] at hrun
      | ok u =>
        cases u
        simp only [walkFiles, hrun1] at hrun
        have hwf1 : idx1.WF := WF_of_grows P hwf hg
        have hcf1 : CollisionFree P (piecesOf size (Source.dir rest).files ++ (pieces ++ W)) := by
          apply CollisionFree_mono P _ _ _ hcf
          intro x hx
          simp only [List.mem_append] at hx ⊢
          rcases hx with hx | hx | hx
          · exact Or.inl (Or.inr hx)
          · exact Or.inl (Or.inl (hpre.subset hx))
          · exact Or.inr hx
        rcases List.mem_cons.mp hf with h | h
        · have hfg : f = g := by injection h
          subst hfg
          have hcf2 : CollisionFree P (splitBytes (chunkSizeOf size) f.content ++ W) := by
            apply CollisionFree_mono P _ _ _ hcf
            intro x hx
            simp only [List.mem_append] at hx ⊢
            rcases hx with hx | hx
            · rw [reader_of_clean f hread]
              exact Or.inl (Or.inl hx)
            · exact Or.inr hx
          obtain ⟨hseq, hres, row, hrow, hid, hsn, hsz⟩ :=
            processFile_restorable P hP size f snap (rnd j) idx idx1 store store1 W hwf hinv
              hcf2 hopen hread hlen hrun1
          obtain ⟨res2, idx3, store3, W3, hrun3, hg3, _, _⟩ :=
            walkFiles_grows P hP size snap rnd rest (j + 1) idx1 store1 _ hinv1
          rw [hrun] at hrun3
          simp only [Option.some.injEq, Prod.mk.injEq] at hrun3
          obtain ⟨_, h2, h3⟩ := hrun3
          subst h2 h3
          obtain ⟨rows, e, _⟩ := hg3.files
          refine ⟨row, by rw [e]; exact List.mem_append_left _ hrow, hsn, hsz,
            by rw [hid]; exact le_trans hseq hg3.seq, ?_⟩
          rw [hid]
          exact Restorable_grows P hg3 _ hseq _ hres
        · exact ih (j + 1) idx1 idx2 store1 store2 _ hwf1 hinv1 hcf1 hrun f h hopen hread hlen

/-! ## C4: restore gives the bytes of the file back -/

theorem Later_grows (P : Prims) (hP : P.Laws) (idx idx1 : Index)
    (s s1 : ContentAddressableStore) (hstore : ∃ W, StoreInv P s W)
    (h : Later P idx s idx1 s1) :
    Grows P idx s idx1 s1 ∧ ∃ W1, StoreInv P s1 W1 := by
  induction h with
  | now => exact ⟨Grows.refl P idx s, hstore⟩
  | backup size now absPath src rnd idx1 idx2 s1 s2 res _ hrun ih =>
    obtain ⟨hg, W1, hW1⟩ := ih
    obtain ⟨res3, idx3, s3, W3, hrun3, hg3, _, hinv3⟩ :=
      Backup_grows P hP size now absPath src rnd idx1 s1 W1 hW1
    rw [hrun] at hrun3
    simp only [Option.some.injEq, Prod.mk.injEq] at hrun3
    obtain ⟨_, h1, h2⟩ := hrun3
    subst h1 h2
    exact ⟨Grows.trans P hg hg3, W3, hinv3⟩

/-- C4. Restore identity: after a run of `Backup` that ends well, for every
file of the source that opened and was read without error, of any length below
`2^63`, the index has a row of the file in the new snapshot, with the size of
the file; and then, and after any further runs of `Backup`, `restoreFile` for
that row ends well and writes exactly the bytes of the file: the concatenation
of `Get` over the chunk rows of the file in ascending order of offset. The
repository before the backup is any whose chunk rows belong to files of the
index and whose store holds only objects written by `Put` under the key;
BLAKE3 is taken not to collide on the pieces of the source and the plaintexts
already stored. -/
theorem restore_identity (P : Prims) (hP : P.Laws) (size : Int) (now : Nat) (absPath : String)
    (src : Source) (rnd : Nat → Nat → Option Nonce) (idx idx1 : Index)
    (s s1 : ContentAddressableStore) (W : List Bytes) (snap : Nat) (f : SourceFile)
    (hwf : idx.WF) (hinv : StoreInv P s W)
    (hcf : CollisionFree P (piecesOf size src.files ++ W))
    (hrun : Backup P size now absPath src rnd idx s = some (.ok snap, idx1, s1))
    (hf : f ∈ src.files) (hopen : f.openFails = false) (hread : f.readFault = none)
    (hlen : (f.content.length : Int) < 2 ^ 63) :
    ∃ row ∈ idx1.files, row.snapshot_id = snap ∧ row.size = f.content.length ∧
      ∀ idx2 s2, Later P idx1 s1 idx2 s2 →
        row ∈ idx2.files ∧
        ∀ r : FileRecord, r.ID = row.id →
          restoreFile P idx2 s2 r false = (.ok (), some f.content) := by
  have hsnap := Grows_CreateSnapshot P idx s now ("Backup of " ++ absPath)
  have hwf0 : (idx.CreateSnapshot now ("Backup of " ++ absPath)).2.WF := WF_of_grows P hwf hsnap
  have hstore1 : ∃ W1, StoreInv P s1 W1 := by
    obtain ⟨res3, idx3, s3, W3, hrun3, _, _, hinv3⟩ :=
      Backup_grows P hP size now absPath src rnd idx s W hinv
    rw [hrun] at hrun3
    simp only [Option.some.injEq, Prod.mk.injEq] at hrun3
    obtain ⟨_, _, h2⟩ := hrun3
    subst h2
    exact ⟨W3, hinv3⟩
  have fin : (∃ row ∈ idx1.files, row.snapshot_id = snap ∧ row.size = f.content.length ∧
      row.id ≤ idx1.seqFiles ∧ Restorable P idx1 s1 row.id f.content) →
      ∃ row ∈ idx1.files, row.snapshot_id = snap ∧ row.size = f.content.length ∧
      ∀ idx2 s2, Later P idx1 s1 idx2 s2 →
        row ∈ idx2.files ∧
        ∀ r : FileRecord, r.ID = row.id →
          restoreFile P idx2 s2 r false = (.ok (), some f.content) := by
    rintro ⟨row, h1, h2, h3, h4, h5⟩
    refine ⟨row, h1, h2, h3, fun idx2 s2 hlater => ?_⟩
    obtain ⟨hg, _⟩ := Later_grows P hP idx1 idx2 s1 s2 hstore1 hlater
    obtain ⟨rows, e, _⟩ := hg.files
    exact ⟨by rw [e]; exact List.mem_append_left _ h1, fun r hr =>
      restoreFile_of_restorable P idx2 s2 row.id _ (Restorable_grows P hg _ h4 _ h5) r hr⟩
  apply fin
  cases src with
  | missing => exact absurd hf (List.not_mem_nil _)
  | file g =>
    have hfg : f = g := List.mem_singleton.mp hf
    subst hfg
    have hcf2 : CollisionFree P (splitBytes (chunkSizeOf size) f.content ++ W) := by
      apply CollisionFree_mono P _ _ _ hcf
      intro x hx
      simp only [piecesOf, Source.files, List.flatMap_cons, List.flatMap_nil, List.append_nil,
        reader_of_clean f hread]
      exact hx
    simp only [Backup] at hrun
    split at hrun
    · exact Option.noConfusion hrun
    · simp only [Option.some.injEq, Prod.mk.injEq, reduceCtorEq, false_and] at hrun
    · rename_i u idx2 s2 hp
      cases u
      simp only [Option.some.injEq, Prod.mk.injEq, Except.ok.injEq] at hrun
      obtain ⟨h1, h2, h3⟩ := hrun
      subst h1 h2 h3
      obtain ⟨hseq, hres, row, hrow, hid, hsn, hsz⟩ :=
        processFile_restorable P hP size f _ (rnd 0) _ idx2 s s2 W hwf0 hinv hcf2 hopen hread
          hlen hp
      refine ⟨row, hrow, hsn, hsz, by rw [hid]; exact hseq, ?_⟩
      rw [hid]
      exact hres
  | dir entries =>
    have hmem : WalkEntry.file f ∈ entries := by
      simp only [Source.files, List.mem_filterMap] at hf
      obtain ⟨e, he, hef⟩ := hf
      cases e with
      | failed c => exact Option.noConfusion hef
      | dir => exact Option.noConfusion hef
      | file g =>
        simp only [Option.some.injEq] at hef
        subst hef
        exact he
    simp only [Backup] at hrun
    split at hrun
    · exact Option.noConfusion hrun
    · simp only [Option.some.injEq, Prod.mk.injEq, reduceCtorEq, false_and] at hrun
    · rename_i u idx2 s2 hp
      cases u
      simp only [Option.some.injEq, Prod.mk.injEq, Except.ok.injEq] at hrun
      obtain ⟨h1, h2, h3⟩ := hrun
      subst h1 h2 h3
      exact walkFiles_restorable P hP size _ rnd entries 0 _ idx2 s s2 W hwf0 hinv hcf hp f hmem
        hopen hread hlen

/-- C4 at an example: after the backup of two files that share a chunk, the
second file, of four bytes in chunks of two, is restored byte for byte. -/
theorem restore_identity_witness :
    (∃ row ∈ toyRepo.1.files, row.snapshot_id = 1 ∧ row.size = 4 ∧
      ∀ idx2 s2, Later toyPrims toyRepo.1 toyRepo.2 idx2 s2 →
        row ∈ idx2.files ∧
        ∀ r : FileRecord, r.ID = row.id →
          restoreFile toyPrims idx2 s2 r false = (.ok (), some [1, 2, 4, 5])) ∧
    restoreFile toyPrims toyRepo.1 toyRepo.2 ⟨2, "/src/b", 4, 420, 0⟩ false
      = (.ok (), some [1, 2, 4, 5]) :=
  ⟨restore_identity toyPrims toyPrims_laws 2 0 "/src"
      (.dir [.dir, .file (srcFile "/src/a" [1, 2, 3]), .file (srcFile "/src/b" [1, 2, 4, 5])])
      toyRnd (Index.empty toyKey) toyRepo.1 toyStore toyRepo.2 [] 1
      (srcFile "/src/b" [1, 2, 4, 5])
      (fun r hr => absurd hr (List.not_mem_nil r)) StoreInv_toyStore
      (by unfold CollisionFree; decide)
      (by decide : toyBackup = some (.ok 1, toyRepo.1, toyRepo.2))
      (by decide) rfl rfl (by decide),
   by decide⟩

/-! ## The audit log -/

theorem verifyLoop_iff (P : Prims) :
    ∀ (es : List AuditEntry) (prev : String) (line : Nat),
      ((verifyLoop P (es.map LogItem.entry) prev line).1 = true ↔ ChainFrom P prev es) ∧
      (ChainFrom P prev es → verifyLoop P (es.map LogItem.entry) prev line = (true, none)) := by
  intro es
  induction es with
  | nil => intro prev line; simp [verifyLoop, ChainFrom]
  | cons e rest ih =>
    intro prev line
    by_cases h1 : e.PrevHash = prev
    · by_cases h2 : e.Hash = computeHash P e
      · have := ih e.Hash (line + 1)
        simp only [List.map_cons, verifyLoop, ChainFrom, h1, h2, ne_eq, not_true_eq_false,
          if_false, true_and]
        rw [h2] at this
        exact this
      · simp [verifyLoop, ChainFrom, h1, h2]
    · simp [verifyLoop, ChainFrom, h1]

theorem chainFrom_iff (P : Prims) :
    ∀ (es : List AuditEntry) (prev : String),
      ChainFrom P prev es ↔
        ((∀ e, es.head? = some e → e.PrevHash = prev) ∧
         (∀ (i : Nat) (e e1 : AuditEntry), es[i]? = some e → es[i + 1]? = some e1 →
            e1.PrevHash = e.Hash) ∧
         (∀ e ∈ es, e.Hash = computeHash P e)) := by
  intro es
  induction es with
  | nil => intro prev; simp [ChainFrom]
  | cons e rest ih =>
    intro prev
    simp only [ChainFrom, ih e.Hash, List.head?_cons, Option.some.injEq, forall_eq',
      List.mem_cons, forall_eq_or_imp]
    constructor
    · rintro ⟨h1, h2, h3, h4, h5⟩
      refine ⟨h1, fun i a b ha hb => ?_, h2, h5⟩
      cases i with
      | zero =>
        simp only [List.getElem?_cons_zero, Option.some.injEq] at ha
        simp only [zero_add, List.getElem?_cons_succ] at hb
        subst ha
        exact h3 b (by rw [List.head?_eq_getElem?]; exact hb)
      | succ i =>
        simp only [List.getElem?_cons_succ] at ha hb
        exact h4 i a b ha hb
    · rintro ⟨h1, h2, h3, h4⟩
      refine ⟨h1, h3, fun b hb => ?_, fun i a b ha hb => ?_, h4⟩
      · refine h2 0 e b (by simp) ?_
        simp only [zero_add, List.getElem?_cons_succ]
        rw [← List.head?_eq_getElem?]
        exact hb
      · exact h2 (i + 1) a b (by simpa using ha) (by simpa using hb)

/-! ## C7: what `VerifyChain` accepts -/

/-- C7. Characterisation of `VerifyChain`: for a log of `n ≥ 0` decodable
entries, `VerifyChain` returns true exactly when the first entry has the
genesis hash (64 zeros) as `prev_hash`, every later entry has the hash of the
entry before it as `prev_hash`, and the hash of every entry is the hex SHA-256
of its `prev_hash`, RFC3339Nano time stamp, action, user and details put
together without separators; and then it returns no error. -/
theorem verify_chain_characterisation (P : Prims) (entries : List AuditEntry) :
    ((VerifyChain P (logOf entries)).1 = true ↔ ChainValid P entries) ∧
    (ChainValid P entries → VerifyChain P (logOf entries) = (true, none)) := by
  have h := verifyLoop_iff P entries genesisHash 0
  have hc := chainFrom_iff P entries genesisHash
  constructor
  · exact h.1.trans hc
  · intro hv
    exact h.2 (hc.mpr hv)

/-- C7 at an example: the log that three calls of `LogAction` made is a valid
chain. -/
theorem verify_chain_characterisation_witness :
    ∃ entries, toyLog = logOf entries ∧ entries.length = 3 ∧ ChainValid toyPrims entries :=
  ⟨(toyLog.getD []).filterMap (fun i => match i with | .entry e => some e | _ => none),
    by decide, by decide,
    (verify_chain_characterisation toyPrims _).1.mp (by decide)⟩

/-! ## `LogAction` -/

theorem computeHash_ne_empty (P : Prims) (e : AuditEntry) : computeHash P e ≠ "" := by
  intro h
  have := hexString_length (P.sha256 (e.PrevHash ++ P.formatRFC3339Nano e.Timestamp ++ e.Action
    ++ e.User ++ e.Details))
  unfold computeHash at h
  rw [h] at this
  exact absurd this (by decide)

theorem lastHashLoop_entries :
    ∀ (es : List AuditEntry) (init : String),
      lastHashLoop (es.map LogItem.entry) init = some (es.foldl (fun _ x => x.Hash) init) := by
  intro es
  induction es with
  | nil => intro init; rfl
  | cons e rest ih => intro init; simp only [List.map_cons, lastHashLoop, ih, List.foldl_cons]

theorem chainFrom_last_ne_empty (P : Prims) :
    ∀ (es : List AuditEntry) (prev : String), prev ≠ "" → ChainFrom P prev es →
      es.foldl (fun _ x => x.Hash) prev ≠ "" := by
  intro es
  induction es with
  | nil => intro prev hp _; exact hp
  | cons e rest ih =>
    intro prev _ h
    obtain ⟨_, h2, h3⟩ := h
    simp only [List.foldl_cons]
    exact ih e.Hash (by rw [h2]; exact computeHash_ne_empty P e) h3

theorem getLastHash_logOf (P : Prims) (es : List AuditEntry)
    (h : ChainFrom P genesisHash es) :
    getLastHash (logOf es) = some (es.foldl (fun _ x => x.Hash) genesisHash) := by
  cases es with
  | nil => simp [getLastHash, logOf, lastHashLoop]
  | cons e rest =>
    obtain ⟨_, h2, h3⟩ := h
    have hne : rest.foldl (fun _ x => x.Hash) e.Hash ≠ "" :=
      chainFrom_last_ne_empty P rest e.Hash (by rw [h2]; exact computeHash_ne_empty P e) h3
    simp only [getLastHash, logOf, lastHashLoop_entries, List.foldl_cons, hne, if_false]

theorem chainFrom_append (P : Prims) (e : AuditEntry) :
    ∀ (es : List AuditEntry) (prev : String), ChainFrom P prev es →
      e.PrevHash = es.foldl (fun _ x => x.Hash) prev → e.Hash = computeHash P e →
      ChainFrom P prev (es ++ [e]) := by
  intro es
  induction es with
  | nil => intro prev _ h1 h2; exact ⟨h1, h2, trivial⟩
  | cons a rest ih =>
    intro prev h h1 h2
    obtain ⟨ha, hb, hc⟩ := h
    exact ⟨ha, hb, ih a.Hash hc h1 h2⟩

theorem ofText_append (a b : String) :
    GoString.ofText (a ++ b) = GoString.ofText a ++ GoString.ofText b := by
  simp only [GoString.ofText, String.data_append, List.map_append]

theorem ofText_jsonText (g : GoString) (h : GoString.valid g = true) :
    GoString.ofText (GoString.jsonText g) = g := by
  induction g with
  | nil => rfl
  | cons u rest ih =>
    cases u with
    | char c =>
      have hrest : GoString.valid rest = true := by
        simpa [GoString.valid] using h
      have := ih hrest
      simp only [GoString.ofText, GoString.jsonText, List.map_cons, List.map_map] at this ⊢
      rw [this]
    | bad b => simp [GoString.valid] at h

/-- For valid UTF-8 the bytes that `LogAction` hashes are those of the text
that `VerifyChain` hashes for the entry read back. -/
theorem raw_text_of_valid (prevHash stamp : String) (action user details : GoString)
    (ha : GoString.valid action = true) (hu : GoString.valid user = true)
    (hd : GoString.valid details = true) :
    GoString.ofText prevHash ++ GoString.ofText stamp ++ action ++ user ++ details
      = GoString.ofText (prevHash ++ stamp ++ GoString.jsonText action
          ++ GoString.jsonText user ++ GoString.jsonText details) := by
  simp only [ofText_append, ofText_jsonText _ ha, ofText_jsonText _ hu, ofText_jsonText _ hd]

/-- A successful `LogAction` with valid UTF-8 on a valid chain appends one
entry and the chain stays valid. -/
theorem LogAction_chain (P : Prims) (repoDir : String) (now : Nat)
    (user action details : GoString) (ha : GoString.valid action = true)
    (hu : GoString.valid user = true) (hd : GoString.valid details = true)
    (es : List AuditEntry) (log log1 : LogFile) (hlog : log = none ∧ es = [] ∨ log = logOf es)
    (h : ChainFrom P genesisHash es)
    (hrun : LogAction P repoDir now user log action details = (none, log1)) :
    ∃ e, log1 = logOf (es ++ [e]) ∧ ChainFrom P genesisHash (es ++ [e]) ∧
      e.Timestamp = now ∧ e.Action = GoString.jsonText action ∧
      e.User = GoString.jsonText user ∧ e.Details = GoString.jsonText details := by
  have hlast : getLastHash log = some (es.foldl (fun _ x => x.Hash) genesisHash) := by
    rcases hlog with ⟨h1, h2⟩ | h1
    · subst h1 h2; rfl
    · subst h1; exact getLastHash_logOf P es h
  have hitems : log.getD [] = es.map LogItem.entry := by
    rcases hlog with ⟨h1, h2⟩ | h1
    · subst h1 h2; rfl
    · subst h1; rfl
  by_cases hr : repoDir = ""
  · simp [LogAction, hr] at hrun
  · simp only [LogAction, hr, if_false, hlast, Prod.mk.injEq, true_and] at hrun
    refine ⟨{ Timestamp := now, Action := GoString.jsonText action,
              User := GoString.jsonText user, Details := GoString.jsonText details,
              PrevHash := es.foldl (fun _ x => x.Hash) genesisHash,
              Hash := (P.sha256Raw (GoString.ofText (es.foldl (fun _ x => x.Hash) genesisHash)
                ++ GoString.ofText (P.formatRFC3339Nano now) ++ action ++ user
                ++ details)).hexString },
      ?_, chainFrom_append P _ es genesisHash h rfl ?_, rfl, rfl, rfl, rfl⟩
    · rw [← hrun, hitems]
      simp only [logOf, List.map_append, List.map_cons, List.map_nil]
    · simp only [computeHash, Prims.sha256, raw_text_of_valid _ _ _ _ _ ha hu hd]

theorem Logged_chain (P : Prims) (log : LogFile) (h : LoggedText P log) :
    ∃ es, (log = none ∧ es = [] ∨ log = logOf es) ∧ ChainFrom P genesisHash es := by
  induction h with
  | absent => exact ⟨[], Or.inl ⟨rfl, rfl⟩, trivial⟩
  | call repoDir c log log1 _ hv hrun ih =>
    obtain ⟨es, hlog, hchain⟩ := ih
    simp only [LogCall.valid, Bool.and_eq_true] at hv
    obtain ⟨e, h1, h2, _⟩ := LogAction_chain P repoDir c.now c.user c.action c.details
      hv.1.2 hv.1.1 hv.2 es log log1 hlog hchain hrun
    exact ⟨es ++ [e], Or.inr h1, h2⟩

/-! ## `LogAction` keeps the chain valid when its texts are valid UTF-8 -/

/-- From an absent log file on, after any sequence of successful calls of
`LogAction` whose user, action and details are valid UTF-8 the log passes
`VerifyChain`; it consists of decodable entries of which the first has 64
zeros as `prev_hash`, each later one has the hash of the entry written just
before it, and each has the SHA-256 of `prev_hash`, time stamp, action, user
and details as its hash. -/
theorem log_action_keeps_chain (P : Prims) (log : LogFile) (h : LoggedText P log) :
    VerifyChain P log = (true, none) ∧
    ∃ entries, log.getD [] = entries.map LogItem.entry ∧ ChainValid P entries := by
  obtain ⟨es, hlog, hchain⟩ := Logged_chain P log h
  have hvalid : ChainValid P es := (chainFrom_iff P es genesisHash).mp hchain
  rcases hlog with ⟨h1, h2⟩ | h1
  · subst h1 h2
    exact ⟨rfl, [], rfl, hvalid⟩
  · subst h1
    exact ⟨(verifyLoop_iff P es genesisHash 0).2 hchain, es, rfl, hvalid⟩

/-- The log after three calls with valid UTF-8 passes `VerifyChain`. -/
theorem log_action_keeps_chain_witness :
    VerifyChain toyPrims toyLog = (true, none) ∧
    ∃ entries, toyLog.getD [] = entries.map LogItem.entry ∧ ChainValid toyPrims entries :=
  log_action_keeps_chain toyPrims toyLog
    (LoggedText.call "/repo"
      ⟨3, GoString.ofText "bob", GoString.ofText "AUDIT", GoString.ofText "all"⟩ toyLog2 toyLog
      (LoggedText.call "/repo"
        ⟨2, GoString.ofText "ann", GoString.ofText "RESTORE", GoString.ofText "snapshot 1"⟩
        toyLog1 toyLog2
        (LoggedText.call "/repo"
          ⟨1, GoString.ofText "ann", GoString.ofText "BACKUP_START",
            GoString.ofText "Backing up /src"⟩ none toyLog1
          LoggedText.absent (by decide) (by decide))
        (by decide) (by decide))
      (by decide) (by decide))

/-! ## C8: a call of `LogAction` with bytes that are no valid UTF-8 -/

/-- What the first call of `LogAction` leaves: one entry, with the texts as
`encoding/json` writes them and the hash of the bytes as they were given;
`VerifyChain` passes it exactly when that hash is the one of the entry read
back, and otherwise reports an integrity failure at line 0. -/
theorem LogAction_first_entry (P : Prims) (repoDir : String) (hr : repoDir ≠ "") (now : Nat)
    (user action details : GoString) :
    ∃ e, LogAction P repoDir now user none action details = (none, logOf [e]) ∧
      e.Timestamp = now ∧ e.Action = GoString.jsonText action ∧
      e.User = GoString.jsonText user ∧ e.Details = GoString.jsonText details ∧
      e.PrevHash = genesisHash ∧
      e.Hash = (P.sha256Raw (GoString.ofText genesisHash
        ++ GoString.ofText (P.formatRFC3339Nano now) ++ action ++ user ++ details)).hexString ∧
      (e.Hash = computeHash P e → VerifyChain P (logOf [e]) = (true, none)) ∧
      (e.Hash ≠ computeHash P e →
        VerifyChain P (logOf [e]) = (false, some (.integrityFailure 0))) := by
  refine ⟨{ Timestamp := now, Action := GoString.jsonText action,
            User := GoString.jsonText user, Details := GoString.jsonText details,
            PrevHash := genesisHash,
            Hash := (P.sha256Raw (GoString.ofText genesisHash
              ++ GoString.ofText (P.formatRFC3339Nano now) ++ action ++ user
              ++ details)).hexString }, ?_, rfl, rfl, rfl, rfl, rfl, rfl, ?_, ?_⟩
  · simp [LogAction, hr, getLastHash, logOf]
  · intro h
    simp only [VerifyChain, logOf, List.map_cons, List.map_nil, verifyLoop, ne_eq,
      not_true_eq_false, if_false]
    rw [if_neg (by rw [not_not]; exact h)]
  · intro h
    simp only [VerifyChain, logOf, List.map_cons, List.map_nil, verifyLoop, ne_eq,
      not_true_eq_false, if_false]
    rw [if_pos h]

/-- C8, at the input where the code leaves the claim: the first call of
`LogAction`, with details that end in the byte `0xFF`. The call succeeds and
the log of its one entry fails `VerifyChain` with an integrity failure: the
hash was taken of the bytes as given, the entry was written with U+FFFD in
the place of the byte, and `VerifyChain` hashes what it reads back. -/
theorem log_action_breaks_chain :
    LogAction toyPrims "/repo" 1 (GoString.ofText "ann") none (GoString.ofText "BACKUP_START")
      invalidDetails = (none, brokenLog) ∧
    (brokenLog.getD []).length = 1 ∧
    (∀ e, brokenLog = logOf [e] → e.Hash ≠ computeHash toyPrims e) ∧
    VerifyChain toyPrims brokenLog = (false, some (.integrityFailure 0)) :=
  ⟨by decide, by decide,
    fun e he => by
      have h : VerifyChain toyPrims brokenLog = (false, some (.integrityFailure 0)) := by
        decide
      intro hc
      rw [he] at h
      simp only [VerifyChain, logOf, List.map_cons, List.map_nil, verifyLoop] at h
      have hprev : e.PrevHash = genesisHash := by
        by_contra hp
        simp [hp] at h
      simp [hprev, hc] at h,
    by decide⟩

/-! ## C9: the line that `VerifyChain` names -/

/-- The number in the error of `VerifyChain` is the number of entries before
the offending one: when the first entry that fails a check is the `k`-th of
the file, counted from 1, the error names `k - 1`. -/
theorem verify_error_index (P : Prims) (e : AuditEntry) (rest : List AuditEntry) :
    ∀ (good : List AuditEntry) (prev : String) (line : Nat), ChainFrom P prev good →
      (e.PrevHash ≠ good.foldl (fun _ x => x.Hash) prev ∨ e.Hash ≠ computeHash P e) →
      verifyLoop P ((good ++ e :: rest).map LogItem.entry) prev line
          = (false, some (.brokenChain (line + good.length))) ∨
      verifyLoop P ((good ++ e :: rest).map LogItem.entry) prev line
          = (false, some (.integrityFailure (line + good.length))) := by
  intro good
  induction good with
  | nil =>
    intro prev line _ hbad
    by_cases h1 : e.PrevHash = prev
    · have h2 : e.Hash ≠ computeHash P e := by
        rcases hbad with h | h
        · exact absurd h1 h
        · exact h
      right
      simp [verifyLoop, h1, h2]
    · left
      simp [verifyLoop, h1]
  | cons a good ih =>
    intro prev line h hbad
    obtain ⟨ha, hb, hc⟩ := h
    have := ih a.Hash (line + 1) hc hbad
    have hb1 : a.Hash = computeHash P a := hb
    simp only [List.cons_append, List.map_cons, verifyLoop, ha, ne_eq, not_true_eq_false,
      if_false, List.length_cons]
    rw [if_neg (by rw [not_not]; exact hb1)]
    rw [show line + (good.length + 1) = line + 1 + good.length by omega]
    exact this

/-- C9, at the input where the code leaves the claim: three entries written by
`LogAction`, the details of the middle one changed afterwards. `VerifyChain`
returns false and its error names line 1, where the claim says line 2: the
counter starts at 0 and is advanced after an entry has passed. -/
theorem verify_names_line_before :
    toyLog ≠ tamperedLog ∧
    (toyLog.getD []).length = 3 ∧ (tamperedLog.getD []).length = 3 ∧
    (toyLog.getD []).head? = (tamperedLog.getD []).head? ∧
    (toyLog.getD []).getLast? = (tamperedLog.getD []).getLast? ∧
    VerifyChain toyPrims tamperedLog = (false, some (.integrityFailure 1)) := by
  decide

/-! ## C16: failures of `LoadKey` look the same -/

/-- C16. `LoadKey` failure is opaque: for every key file that parses and every
passphrase, whenever decrypting the stored key fails, for whatever reason (the
envelope does not open, or it is shorter than the nonce), `LoadKey` returns
the zero key and the error with the text "invalid passphrase or corrupted key
file", the same in every such case. -/
theorem load_key_failure_tells_nothing (P : Prims) (L : Lib) (kf : KeyFile) (passphrase : String)
    (e : CryptoErr)
    (hfail : (copyKey (DeriveKeyFromPassphrase L passphrase kf.Salt)).Decrypt P kf.EncryptedKey
      = .error e) :
    LoadKey P L (.parsed kf) passphrase
      = (zeroKey, some (.message "invalid passphrase or corrupted key file")) := by
  simp only [LoadKey, hfail]

/-- C16 at two examples: an envelope that is too short and one that does not
open give the same result. -/
theorem load_key_failure_tells_nothing_witness :
    LoadKey toyPrims toyLib (.parsed shortKeyFile) "secret"
      = (zeroKey, some (.message "invalid passphrase or corrupted key file")) ∧
    LoadKey toyPrims toyLib (.parsed alteredKeyFile) "secret"
      = (zeroKey, some (.message "invalid passphrase or corrupted key file")) :=
  ⟨load_key_failure_tells_nothing toyPrims toyLib shortKeyFile "secret" .tooShort (by decide),
   load_key_failure_tells_nothing toyPrims toyLib alteredKeyFile "secret" .openFailed (by decide)⟩

/-! ## C18: which errors end a backup -/

/-- A file that does not open is skipped: `processFile` ends well and leaves
the repository as it is. -/
theorem processFile_open_failure (P : Prims) (size : Int) (f : SourceFile) (snap : Nat)
    (rnd : Nat → Option Nonce) (idx : Index) (store : ContentAddressableStore)
    (h : f.openFails = true) :
    processFile P size f snap rnd idx store = some (.ok (), idx, store) := by
  simp only [processFile, h, if_true]

/-- An error of `processFile`, which comes from the store or the index, is the
error of `Backup`. -/
theorem Backup_file_error (P : Prims) (size : Int) (now : Nat) (absPath : String)
    (f : SourceFile) (rnd : Nat → Nat → Option Nonce) (idx idx2 : Index)
    (store store2 : ContentAddressableStore) (e : BackupErr)
    (h : processFile P size f (idx.CreateSnapshot now ("Backup of " ++ absPath)).1 (rnd 0)
      (idx.CreateSnapshot now ("Backup of " ++ absPath)).2 store = some (.error e, idx2, store2)) :
    Backup P size now absPath (.file f) rnd idx store = some (.error e, idx2, store2) := by
  simp only [Backup, h]

/-- C18, at the input where the code leaves the claim: a file of four bytes
whose reading fails once two bytes are delivered, in chunks of two. The second
call of `Next` returns the read error, and `Backup` returns the snapshot id 1
and no error. -/
theorem backup_ends_well_on_read_error :
    nextAll toyPrims 2 (NewFixedSizeChunker faultyFile.reader 2)
      = some [.chunk ⟨[1, 2], toyPrims.blake3 [1, 2]⟩ none, .stop (.other 5)] ∧
    (Backup toyPrims 2 0 "/src/a" (.file faultyFile) toyRnd (Index.empty toyKey) toyStore).map
      (fun r => r.1) = some (.ok 1) := by
  decide

/-! ## C14: the path that is recorded -/

/-- C14, at the input where the code leaves the claim: `Backup` of a file
given by the relative path `data/a.txt`. The snapshot is described by the
absolute path, and the record of the file that `GetFiles` returns has the
path as it was given, which is not absolute. -/
theorem recorded_path_is_as_given :
    relativeRepo.1.snapshots.map (fun r => r.description)
      = ["Backup of /home/ann/data/a.txt"] ∧
    relativeRepo.1.GetFiles toyPrims 1 = .ok [⟨1, "data/a.txt", 3, 420, 0⟩] ∧
    IsAbs "data/a.txt" = false := by
  decide

/-! ## C20: where a restore writes -/

/-- C20, at the input where the code leaves the claim: a snapshot whose file
was recorded with the relative path `../outside.txt`, restored into the
directory `restored`. The destination is `outside.txt`, beside the target
directory and not inside it, and the file is written there. -/
theorem restore_leaves_target_directory :
    escapeRepo.1.GetFiles toyPrims 1 = .ok [⟨1, "../outside.txt", 3, 420, 0⟩] ∧
    destPath "restored" ⟨1, "../outside.txt", 3, 420, 0⟩ = "outside.txt" ∧
    IsInside "restored" "outside.txt" = false ∧
    RestoreSnapshot toyPrims toyLib escapeRepo.1 escapeRepo.2 1 "restored" false false [] []
      = (none, [("outside.txt", [7, 7, 7])]) := by
  decide

/-! ## The order of a restore -/

theorem priorityLoop_eq (L : Lib) (base : String) :
    ∀ (patterns : List String) (i : Nat),
      priorityLoop L base patterns i = i + patterns.findIdx (fun p => L.Match p base) := by
  intro patterns
  induction patterns with
  | nil => intro i; simp [priorityLoop]
  | cons p rest ih =>
    intro i
    cases h : L.Match p base with
    | true => simp [priorityLoop, List.findIdx_cons, h]
    | false =>
      simp only [priorityLoop, List.findIdx_cons, h, ih, cond_false]
      simp only [Bool.false_eq_true, if_false]
      omega

theorem restoreLess_iff (L : Lib) (patterns : List String) (a b : FileRecord) :
    restoreLess L patterns a b = true ↔
      (getPriorityScore L a.Path patterns < getPriorityScore L b.Path patterns ∨
        (getPriorityScore L a.Path patterns = getPriorityScore L b.Path patterns ∧
          a.Path.data < b.Path.data)) := by
  unfold restoreLess
  by_cases h : getPriorityScore L a.Path patterns = getPriorityScore L b.Path patterns
  · simp [h]
  · simp only [ne_eq, h, not_false_eq_true, if_true, decide_eq_true_eq, false_and, or_false]

theorem restoreLess_false_iff (L : Lib) (patterns : List String) (a b : FileRecord) :
    restoreLess L patterns b a = false ↔ sortKeyLe L patterns a.Path b.Path := by
  rw [← Bool.not_eq_true, restoreLess_iff, sortKeyLe]
  constructor
  · intro h
    rcases Nat.lt_trichotomy (getPriorityScore L a.Path patterns)
      (getPriorityScore L b.Path patterns) with h1 | h1 | h1
    · exact Or.inl h1
    · exact Or.inr ⟨h1, not_lt.mp (fun h2 => h (Or.inr ⟨h1.symm, h2⟩))⟩
    · exact absurd (Or.inl h1) h
  · rintro (h1 | ⟨h1, h2⟩) (h3 | ⟨h3, h4⟩)
    · omega
    · omega
    · omega
    · exact absurd h4 (not_lt.mpr h2)

/-- The function `less` of the restore is a strict weak ordering. -/
theorem restoreLess_strict_weak (L : Lib) (patterns : List String) :
    (∀ a, restoreLess L patterns a a = false) ∧
    (∀ a b c, restoreLess L patterns a b = true → restoreLess L patterns b c = true →
      restoreLess L patterns a c = true) ∧
    (∀ a b c, restoreLess L patterns a b = false → restoreLess L patterns b c = false →
      restoreLess L patterns a c = false) := by
  refine ⟨fun a => ?_, fun a b c h1 h2 => ?_, fun a b c h1 h2 => ?_⟩
  · rw [← Bool.not_eq_true, restoreLess_iff]
    rintro (h | ⟨_, h⟩)
    · omega
    · exact lt_irrefl _ h
  · rw [restoreLess_iff] at h1 h2 ⊢
    rcases h1 with h1 | ⟨h1, h1p⟩ <;> rcases h2 with h2 | ⟨h2, h2p⟩
    · exact Or.inl (by omega)
    · exact Or.inl (by omega)
    · exact Or.inl (by omega)
    · exact Or.inr ⟨h1.trans h2, lt_trans h1p h2p⟩
  · rw [restoreLess_false_iff] at h1 h2 ⊢
    unfold sortKeyLe at h1 h2 ⊢
    rcases h1 with h1 | ⟨h1, h1p⟩ <;> rcases h2 with h2 | ⟨h2, h2p⟩
    · exact Or.inl (by omega)
    · exact Or.inl (by omega)
    · exact Or.inl (by omega)
    · exact Or.inr ⟨h2.trans h1, le_trans h2p h1p⟩

theorem toyLib_sortLaw : toyLib.SortLaw where
  sorted := by
    intro less files hirr htrans hneg
    refine ⟨List.perm_insertionSort _ _, ?_⟩
    have htotal : IsTotal FileRecord (fun a b => less b a = false) := ⟨fun a b => by
      cases h1 : less b a with
      | false => exact Or.inl rfl
      | true =>
        right
        cases h2 : less a b with
        | false => rfl
        | true =>
          have := htrans a b a h2 h1
          rw [hirr a] at this
          exact Bool.noConfusion this⟩
    have htr : IsTrans FileRecord (fun a b => less b a = false) :=
      ⟨fun a b c h1 h2 => hneg c b a h2 h1⟩
    exact List.sorted_insertionSort (fun a b => less b a = false) files

theorem toyLib_exampleGlob : ExampleGlob toyLib := by
  constructor <;> decide

theorem getPriorityScore_eq (L : Lib) (path : String) (patterns : List String) :
    getPriorityScore L path patterns = patterns.findIdx (fun p => L.Match p (Base path)) := by
  rw [getPriorityScore, priorityLoop_eq, Nat.zero_add]

theorem restoreOrder_sorted (L : Lib) (hL : L.SortLaw) (files : List FileRecord)
    (patterns : List String) :
    (restoreOrder L files patterns).Perm files ∧
    (restoreOrder L files patterns).Pairwise
      (fun a b => sortKeyLe L patterns a.Path b.Path) := by
  obtain ⟨h1, h2, h3⟩ := restoreLess_strict_weak L patterns
  obtain ⟨hp, hs⟩ := hL.sorted (restoreLess L patterns) files h1 h2 h3
  exact ⟨hp, hs.imp (fun {a b} h => (restoreLess_false_iff L patterns a b).mp h)⟩

theorem sortKeyLe_antisymm (L : Lib) (patterns : List String) (p q : String)
    (h1 : sortKeyLe L patterns p q) (h2 : sortKeyLe L patterns q p) : p = q := by
  unfold sortKeyLe at h1 h2
  rcases h1 with h1 | ⟨_, h1⟩ <;> rcases h2 with h2 | ⟨_, h2⟩
  · omega
  · omega
  · omega
  · exact String.ext (le_antisymm h1 h2)

theorem example_scores (L : Lib) (hG : ExampleGlob L) :
    getPriorityScore L "a.txt" ["*.key", "*.conf"] = 2 ∧
    getPriorityScore L "b.key" ["*.key", "*.conf"] = 0 ∧
    getPriorityScore L "c.conf" ["*.key", "*.conf"] = 1 ∧
    getPriorityScore L "d.log" ["*.key", "*.conf"] = 2 := by
  have ba : Base "a.txt" = "a.txt" := by decide
  have bb : Base "b.key" = "b.key" := by decide
  have bc : Base "c.conf" = "c.conf" := by decide
  have bd : Base "d.log" = "d.log" := by decide
  refine ⟨?_, ?_, ?_, ?_⟩
  · simp [getPriorityScore, priorityLoop, ba, hG.key_a, hG.conf_a]
  · simp [getPriorityScore, priorityLoop, bb, hG.key_b]
  · simp [getPriorityScore, priorityLoop, bc, hG.key_c, hG.conf_c]
  · simp [getPriorityScore, priorityLoop, bd, hG.key_d, hG.conf_d]

/-! ## C12: the order of a restore -/

/-- C12. Restore order: for every list of file records and every list of
priority patterns, `RestoreSnapshot` visits the files in a rearrangement of the
list that is in ascending order of the pair (priority score, path), where the
priority score of a path is the index of the first pattern that matches the
base name of the path, or the number of patterns when none matches. With the
patterns `*.key`, `*.conf` and files of the paths `a.txt`, `b.key`, `c.conf`,
`d.log` the order is `b.key`, `c.conf`, `a.txt`, `d.log`. What `sort.Slice`
promises and what `filepath.Match` answers in the example are taken from the
library. -/
theorem restore_order (L : Lib) (hL : L.SortLaw) (files : List FileRecord)
    (patterns : List String) :
    (restoreOrder L files patterns).Perm files ∧
    (restoreOrder L files patterns).Pairwise
      (fun a b => sortKeyLe L patterns a.Path b.Path) ∧
    (∀ path, getPriorityScore L path patterns
      = patterns.findIdx (fun p => L.Match p (Base path))) ∧
    (ExampleGlob L → patterns = ["*.key", "*.conf"] →
      files.map (fun f => f.Path) = ["a.txt", "b.key", "c.conf", "d.log"] →
      (restoreOrder L files patterns).map (fun f => f.Path)
        = ["b.key", "c.conf", "a.txt", "d.log"]) := by
  obtain ⟨hperm, hsorted⟩ := restoreOrder_sorted L hL files patterns
  refine ⟨hperm, hsorted, fun path => getPriorityScore_eq L path patterns, ?_⟩
  intro hG hpat hfiles
  subst hpat
  obtain ⟨sa, sb, sc, sd⟩ := example_scores L hG
  haveI : IsAntisymm String (sortKeyLe L ["*.key", "*.conf"]) :=
    ⟨sortKeyLe_antisymm L ["*.key", "*.conf"]⟩
  apply List.eq_of_perm_of_sorted (r := sortKeyLe L ["*.key", "*.conf"])
  · have h1 := hperm.map (fun f => f.Path)
    rw [hfiles] at h1
    exact h1.trans (by decide)
  · exact List.pairwise_map.mpr hsorted
  · have hle : ("a.txt" : String).data ≤ ("d.log" : String).data := by decide
    simp only [List.Sorted, List.pairwise_cons, List.mem_cons, List.mem_singleton,
      List.not_mem_nil, forall_eq_or_imp, forall_eq, sortKeyLe, sa, sb, sc, sd,
      List.Pairwise.nil, and_true, implies_true]
    simp [hle]

/-- C12 at the example of the specification, with the stand-ins for the
library. -/
theorem restore_order_witness :
    (restoreOrder toyLib exampleFiles ["*.key", "*.conf"]).map (fun f => f.Path)
      = ["b.key", "c.conf", "a.txt", "d.log"] :=
  (restore_order toyLib toyLib_sortLaw exampleFiles ["*.key", "*.conf"]).2.2.2
    toyLib_exampleGlob rfl (by decide)

/-! ## A restore that meets a chunk error -/

theorem restoreChunks_append (P : Prims) (store : ContentAddressableStore) :
    ∀ (cs1 cs2 : List ChunkRecord) (out0 out : Bytes),
      restoreChunks P store cs1 out0 = (.ok (), out) →
      restoreChunks P store (cs1 ++ cs2) out0 = restoreChunks P store cs2 out := by
  intro cs1
  induction cs1 with
  | nil =>
    intro cs2 out0 out h
    simp only [restoreChunks, Prod.mk.injEq, true_and] at h
    rw [List.nil_append, h]
  | cons c rest ih =>
    intro cs2 out0 out h
    cases hp : Hash.Parse c.Hash with
    | none => simp [restoreChunks, hp] at h
    | some hh =>
      cases hg : store.Get P hh with
      | error e => simp [restoreChunks, hp, hg] at h
      | ok data =>
        simp only [List.cons_append, restoreChunks, hp, hg] at h ⊢
        exact ih cs2 _ out h

theorem restoreLoop_append (P : Prims) (idx : Index) (store : ContentAddressableStore)
    (targetDir : String) (force dryRun : Bool) :
    ∀ (pre rest : List FileRecord) (fs fs1 : OutFS),
      restoreLoop P idx store targetDir force dryRun pre fs = (none, fs1) →
      restoreLoop P idx store targetDir force dryRun (pre ++ rest) fs
        = restoreLoop P idx store targetDir force dryRun rest fs1 := by
  intro pre
  induction pre with
  | nil =>
    intro rest fs fs1 h
    simp only [restoreLoop, Prod.mk.injEq, true_and] at h
    rw [List.nil_append, h]
  | cons f pre ih =>
    intro rest fs fs1 h
    by_cases hd : statOut fs (destPath targetDir f) = true ∧ ¬ force = true
    · simp only [restoreLoop] at h
      rw [if_pos hd] at h
      simp only [Prod.mk.injEq, reduceCtorEq, false_and] at h
    · cases hfile : restoreFile P idx store f dryRun with
      | mk res out =>
        cases res with
        | error e =>
          simp only [restoreLoop, hd, if_false, hfile, Prod.mk.injEq, reduceCtorEq,
            false_and] at h
        | ok u =>
          simp only [List.cons_append, restoreLoop, hd, if_false, hfile] at h ⊢
          exact ih rest _ fs1 h

theorem restoreLoop_dry (P : Prims) (idx : Index) (store : ContentAddressableStore)
    (targetDir : String) (force : Bool) :
    ∀ (files : List FileRecord) (fs : OutFS),
      (restoreLoop P idx store targetDir force true files fs).2 = fs := by
  intro files
  induction files with
  | nil => intro fs; rfl
  | cons f rest ih =>
    intro fs
    have hout : (restoreFile P idx store f true).2 = none := by
      simp only [restoreFile, if_true]
    by_cases hd : statOut fs (destPath targetDir f) = true ∧ ¬ force = true
    · simp only [restoreLoop]
      rw [if_pos hd]
    · cases hfile : restoreFile P idx store f true with
      | mk res out =>
        rw [hfile] at hout
        simp only at hout
        subst hout
        cases res with
        | error e => simp only [restoreLoop, hd, if_false, hfile, writeOut]
        | ok u =>
          simp only [restoreLoop, hd, if_false, hfile, writeOut]
          exact ih fs

theorem readOut_writeOut_other (fs : OutFS) (dest p : String) (out : Option Bytes)
    (hp : p ≠ dest) :
    readOut (writeOut fs dest out) p = readOut fs p ∧
    statOut (writeOut fs dest out) p = statOut fs p := by
  cases out with
  | none => exact ⟨rfl, rfl⟩
  | some data =>
    have hne : ¬ dest = p := fun h => hp h.symm
    simp only [writeOut, readOut, statOut, hne, if_false]
    induction fs with
    | nil => exact ⟨rfl, rfl⟩
    | cons e rest ih =>
      obtain ⟨q, d⟩ := e
      by_cases hq : q = dest
      · subst hq
        simp only [List.filter, ne_eq, not_true_eq_false, decide_False, readOut, statOut, hne,
          if_false]
        exact ih
      · simp only [List.filter, ne_eq, hq, not_false_eq_true, decide_True, readOut, statOut]
        by_cases hqp : q = p
        · simp only [hqp, if_true, and_self]
        · simp only [hqp, if_false]
          exact ih

/-! ## C15: a restore stops at a chunk error -/

/-- C15. Restore aborts on a chunk error: when, in the order of the restore,
the files before `f` are restored and `Get` fails for a chunk `c` of `f` (the
chunks of `f` before `c` having been read), `RestoreSnapshot` returns the
error that names the path of `f` and the hash of `c`; the file system is then
as it was before `f`, but for the destination of `f` itself: no file that
comes after `f` is created or written. With `dryRun` set the same error is
returned and the file system is as at the start. -/
theorem restore_aborts_on_chunk_error (P : Prims) (L : Lib) (idx : Index)
    (store : ContentAddressableStore) (snapshotID : Nat) (targetDir : String)
    (force dryRun : Bool) (patterns : List String) (fs fs1 : OutFS)
    (files pre post : List FileRecord) (f : FileRecord) (cs1 cs2 : List ChunkRecord)
    (c : ChunkRecord) (h : Hash) (e : StoreErr) (out : Bytes)
    (hfiles : idx.GetFiles P snapshotID = .ok files)
    (horder : restoreOrder L files patterns = pre ++ f :: post)
    (hpre : restoreLoop P idx store targetDir force dryRun pre fs = (none, fs1))
    (hdest : statOut fs1 (destPath targetDir f) = false ∨ force = true)
    (hchunks : idx.GetChunks f.ID = cs1 ++ c :: cs2)
    (hread : restoreChunks P store cs1 [] = (.ok (), out))
    (hparse : Hash.Parse c.Hash = some h)
    (hget : store.Get P h = .error e) :
    (RestoreSnapshot P L idx store snapshotID targetDir force dryRun patterns fs).1
      = some (.restore f.Path (.chunk c.Hash e)) ∧
    (RestoreSnapshot P L idx store snapshotID targetDir force dryRun patterns fs).2
      = writeOut fs1 (destPath targetDir f) (if dryRun then none else some out) ∧
    (∀ p, p ≠ destPath targetDir f →
      readOut (RestoreSnapshot P L idx store snapshotID targetDir force dryRun patterns fs).2 p
        = readOut fs1 p ∧
      statOut (RestoreSnapshot P L idx store snapshotID targetDir force dryRun patterns fs).2 p
        = statOut fs1 p) ∧
    (dryRun = true →
      (RestoreSnapshot P L idx store snapshotID targetDir force dryRun patterns fs).2 = fs) := by
  have hfile : restoreFile P idx store f dryRun
      = (.error (.chunk c.Hash e), if dryRun then none else some out) := by
    simp only [restoreFile, hchunks, restoreChunks_append P store cs1 (c :: cs2) [] out hread,
      restoreChunks, hparse, hget]
  have hcheck : ¬ (statOut fs1 (destPath targetDir f) = true ∧ ¬ force = true) := by
    rintro ⟨h1, h2⟩
    rcases hdest with h3 | h3
    · rw [h3] at h1; exact Bool.noConfusion h1
    · exact h2 h3
  have hrun : RestoreSnapshot P L idx store snapshotID targetDir force dryRun patterns fs
      = (some (.restore f.Path (.chunk c.Hash e)),
         writeOut fs1 (destPath targetDir f) (if dryRun then none else some out)) := by
    simp only [RestoreSnapshot, hfiles, horder,
      restoreLoop_append P idx store targetDir force dryRun pre (f :: post) fs fs1 hpre,
      restoreLoop, hcheck, if_false, hfile]
  refine ⟨by rw [hrun], by rw [hrun], fun p hp => ?_, fun hdry => ?_⟩
  · rw [hrun]
    exact readOut_writeOut_other fs1 _ p _ hp
  · subst hdry
    have := restoreLoop_dry P idx store targetDir force (restoreOrder L files patterns) fs
    simp only [RestoreSnapshot, hfiles]
    exact this

/-- C15 at an example: the object of the second chunk of `/src/b` is gone and
the pattern `b` puts that file first. The restore returns the error that names
the hash of the chunk; `/src/b` has the bytes of its first chunk, and
`/src/a`, which comes after it, is not made. -/
theorem restore_aborts_on_chunk_error_witness :
    (RestoreSnapshot toyPrims toyLib toyRepo.1 damagedStore 1 "out" false false ["b"] []).1
      = some (.restore "/src/b"
          (.chunk "0204050000000000000000000000000000000000000000000000000000000000"
            .notFound)) ∧
    (RestoreSnapshot toyPrims toyLib toyRepo.1 damagedStore 1 "out" false false ["b"] []).2
      = [("out/src/b", [1, 2])] ∧
    statOut (RestoreSnapshot toyPrims toyLib toyRepo.1 damagedStore 1 "out" false false
      ["b"] []).2 "out/src/a" = false :=
  have h := restore_aborts_on_chunk_error toyPrims toyLib toyRepo.1 damagedStore 1 "out" false
    false ["b"] [] []
    [⟨1, "/src/a", 3, 420, 0⟩, ⟨2, "/src/b", 4, 420, 0⟩] [] [⟨1, "/src/a", 3, 420, 0⟩]
    ⟨2, "/src/b", 4, 420, 0⟩
    [⟨"0201020000000000000000000000000000000000000000000000000000000000", 0, 2⟩] []
    ⟨"0204050000000000000000000000000000000000000000000000000000000000", 2, 2⟩
    (toyPrims.blake3 [4, 5]) .notFound [1, 2]
    (by decide) (by decide) (by decide) (by decide) (by decide) (by decide) (by decide)
    (by decide)
  ⟨h.1, h.2.1, (h.2.2.1 "out/src/a" (by decide)).2⟩

/-! ## What the audit counts -/

theorem auditChunksLog_fst (P : Prims) (store : ContentAddressableStore) :
    ∀ (cs : List ChunkRecord) (report : AuditReport) (checked : List String)
      (calls : List Hash),
      ((auditChunksLog P store cs report checked calls).1,
        (auditChunksLog P store cs report checked calls).2.1)
        = auditChunks P store cs report checked := by
  intro cs
  induction cs with
  | nil => intro report checked calls; rfl
  | cons c rest ih =>
    intro report checked calls
    by_cases hmem : c.Hash ∈ checked
    · simp only [auditChunksLog, auditChunks, hmem, if_true]
      exact ih _ _ _
    · cases hp : Hash.Parse c.Hash with
      | none =>
        simp only [auditChunksLog, auditChunks, hmem, if_false, hp]
        exact ih _ _ _
      | some h =>
        cases hg : store.Get P h with
        | ok d =>
          simp only [auditChunksLog, auditChunks, hmem, if_false, hp, hg]
          exact ih _ _ _
        | error e =>
          by_cases hhas : store.Has h = true
          · simp only [auditChunksLog, auditChunks, hmem, if_false, hp, hg, hhas,
              not_true_eq_false]
            exact ih _ _ _
          · simp only [auditChunksLog, auditChunks, hmem, if_false, hp, hg, hhas,
              not_false_eq_true, if_true]
            exact ih _ _ _

theorem auditFilesLog_fst (P : Prims) (idx : Index) (store : ContentAddressableStore) :
    ∀ (fs : List FileRecord) (report : AuditReport) (checked : List String)
      (calls : List Hash),
      ((auditFilesLog P idx store fs report checked calls).1,
        (auditFilesLog P idx store fs report checked calls).2.1)
        = auditFiles P idx store fs report checked := by
  intro fs
  induction fs with
  | nil => intro report checked calls; rfl
  | cons f rest ih =>
    intro report checked calls
    have h := auditChunksLog_fst P store (idx.GetChunks f.ID) report checked calls
    simp only [auditFilesLog, auditFiles, ← h]
    exact ih _ _ _

theorem auditSnapshotsLog_fst (P : Prims) (idx : Index) (store : ContentAddressableStore) :
    ∀ (snaps : List SnapshotRow) (report : AuditReport) (checked : List String)
      (calls : List Hash),
      (auditSnapshotsLog P idx store snaps report checked calls).1
        = auditSnapshots P idx store snaps report checked := by
  intro snaps
  induction snaps with
  | nil =>
    intro report checked calls
    simp only [auditSnapshotsLog, auditSnapshots]
    split <;> rfl
  | cons sn rest ih =>
    intro report checked calls
    cases hf : idx.GetFiles P sn.id with
    | error e => simp only [auditSnapshotsLog, auditSnapshots, hf]
    | ok files =>
      have h := auditFilesLog_fst P idx store files
        { report with TotalFiles := report.TotalFiles + files.length } checked calls
      simp only [auditSnapshotsLog, auditSnapshots, hf, ← h]
      exact ih _ _ _

/-- The log changes nothing of what the audit returns. -/
theorem AuditRepositoryLog_fst (P : Prims) (idx : Index) (store : ContentAddressableStore) :
    (AuditRepositoryLog P idx store).1 = AuditRepository P idx store :=
  auditSnapshotsLog_fst P idx store _ _ _ _

theorem AuditInv_step (P : Prims) (store : ContentAddressableStore) (report : AuditReport)
    (checked : List String) (calls : List Hash) (text : String)
    (hinv : AuditInv P store report checked calls)
    (hnew : text ∉ checked) (m k : Nat) (calls1 : List Hash)
    (hm : m = if hashMissing P store text then 1 else 0)
    (hk : k = (if hashUnparsable text then 1 else 0) + if hashDamaged P store text then 1 else 0)
    (hcalls : calls1 = match Hash.Parse text with
      | some h => calls ++ [h]
      | none => calls) :
    AuditInv P store
      { report with TotalChunks := report.TotalChunks + 1,
                    MissingChunks := report.MissingChunks + m,
                    CorruptChunks := report.CorruptChunks + k }
      (text :: checked) calls1 where
  nodup := List.nodup_cons.mpr ⟨hnew, hinv.nodup⟩
  total := by
    simp only [List.length_cons]
    rw [hinv.total]
  missing := by
    simp only [List.countP_cons]
    rw [hinv.missing, hm]
  corrupt := by
    simp only [List.countP_cons]
    rw [hinv.corrupt, hk]
    omega
  calls := by
    rw [hcalls]
    cases hp : Hash.Parse text with
    | none =>
      simp only [List.filterMap_cons, hp]
      exact hinv.calls
    | some h =>
      simp only [List.filterMap_cons, hp]
      exact (List.perm_append_singleton h calls).trans (hinv.calls.cons h)

theorem AuditInv_of_counts (P : Prims) (store : ContentAddressableStore)
    (report report1 : AuditReport) (checked : List String) (calls : List Hash)
    (hinv : AuditInv P store report checked calls)
    (h1 : report1.TotalChunks = report.TotalChunks)
    (h2 : report1.MissingChunks = report.MissingChunks)
    (h3 : report1.CorruptChunks = report.CorruptChunks) :
    AuditInv P store report1 checked calls where
  nodup := hinv.nodup
  total := h1.trans hinv.total
  missing := h2.trans hinv.missing
  corrupt := h3.trans hinv.corrupt
  calls := hinv.calls

theorem auditChunksLog_inv (P : Prims) (store : ContentAddressableStore) :
    ∀ (cs : List ChunkRecord) (report : AuditReport) (checked : List String)
      (calls : List Hash),
      AuditInv P store report checked calls →
      AuditInv P store (auditChunksLog P store cs report checked calls).1
        (auditChunksLog P store cs report checked calls).2.1
        (auditChunksLog P store cs report checked calls).2.2 ∧
      ∀ x, x ∈ (auditChunksLog P store cs report checked calls).2.1 ↔
        x ∈ checked ∨ x ∈ cs.map (fun c => c.Hash) := by
  intro cs
  induction cs with
  | nil =>
    intro report checked calls hinv
    exact ⟨hinv, fun x => by simp [auditChunksLog]⟩
  | cons c rest ih =>
    intro report checked calls hinv
    have mem_new : ∀ (l : List String),
        (∀ x, x ∈ l ↔ x ∈ c.Hash :: checked ∨ x ∈ rest.map (fun c => c.Hash)) →
        ∀ x, x ∈ l ↔ x ∈ checked ∨ x ∈ (c :: rest).map (fun c => c.Hash) := by
      intro l hl x
      rw [hl x]
      simp only [List.mem_cons, List.map_cons]
      tauto
    by_cases hmem : c.Hash ∈ checked
    · simp only [auditChunksLog, hmem, if_true]
      obtain ⟨h1, h2⟩ := ih report checked calls hinv
      refine ⟨h1, fun x => ?_⟩
      rw [h2 x]
      simp only [List.map_cons, List.mem_cons]
      constructor
      · rintro (h | h)
        · exact Or.inl h
        · exact Or.inr (Or.inr h)
      · rintro (h | h | h)
        · exact Or.inl h
        · subst h; exact Or.inl hmem
        · exact Or.inr h
    · cases hp : Hash.Parse c.Hash with
      | none =>
        have hu : hashUnparsable c.Hash = true := by simp [hashUnparsable, hp]
        have hm : hashMissing P store c.Hash = false := by simp [hashMissing, hp]
        have hd : hashDamaged P store c.Hash = false := by simp [hashDamaged, hp]
        have step := AuditInv_step P store report checked calls c.Hash hinv hmem 0 1 calls
          (by simp [hm]) (by simp [hu, hd]) (by rw [hp])
        simp only [auditChunksLog, hmem, if_false, hp]
        obtain ⟨h1, h2⟩ := ih _ _ _ step
        exact ⟨h1, mem_new _ h2⟩
      | some h =>
        have hu : hashUnparsable c.Hash = false := by simp [hashUnparsable, hp]
        cases hg : store.Get P h with
        | ok d =>
          have hm : hashMissing P store c.Hash = false := by simp [hashMissing, hp, hg]
          have hd : hashDamaged P store c.Hash = false := by simp [hashDamaged, hp, hg]
          have step := AuditInv_step P store report checked calls c.Hash hinv hmem 0 0
            (calls ++ [h]) (by simp [hm]) (by simp [hu, hd]) (by rw [hp])
          simp only [auditChunksLog, hmem, if_false, hp, hg]
          obtain ⟨h1, h2⟩ := ih _ _ _ step
          exact ⟨h1, mem_new _ h2⟩
        | error e =>
          by_cases hhas : store.Has h = true
          · have hm : hashMissing P store c.Hash = false := by
              simp [hashMissing, hp, hg, hhas]
            have hd : hashDamaged P store c.Hash = true := by simp [hashDamaged, hp, hg, hhas]
            have step := AuditInv_step P store report checked calls c.Hash hinv hmem 0 1
              (calls ++ [h]) (by simp [hm]) (by simp [hu, hd]) (by rw [hp])
            simp only [auditChunksLog, hmem, if_false, hp, hg, hhas, not_true_eq_false]
            obtain ⟨h1, h2⟩ := ih _ _ _ step
            exact ⟨h1, mem_new _ h2⟩
          · have hm : hashMissing P store c.Hash = true := by
              simp [hashMissing, hp, hg, hhas]
            have hd : hashDamaged P store c.Hash = false := by
              simp [hashDamaged, hp, hg, hhas]
            have step := AuditInv_step P store report checked calls c.Hash hinv hmem 1 0
              (calls ++ [h]) (by simp [hm]) (by simp [hu, hd]) (by rw [hp])
            simp only [auditChunksLog, hmem, if_false, hp, hg, hhas, not_false_eq_true,
              if_true]
            obtain ⟨h1, h2⟩ := ih _ _ _ step
            exact ⟨h1, mem_new _ h2⟩

theorem auditFilesLog_inv (P : Prims) (idx : Index) (store : ContentAddressableStore) :
    ∀ (fs : List FileRecord) (report : AuditReport) (checked : List String)
      (calls : List Hash),
      AuditInv P store report checked calls →
      AuditInv P store (auditFilesLog P idx store fs report checked calls).1
        (auditFilesLog P idx store fs report checked calls).2.1
        (auditFilesLog P idx store fs report checked calls).2.2 ∧
      ∀ x, x ∈ (auditFilesLog P idx store fs report checked calls).2.1 ↔
        x ∈ checked ∨ x ∈ (fs.flatMap (fun f => idx.GetChunks f.ID)).map (fun c => c.Hash) := by
  intro fs
  induction fs with
  | nil =>
    intro report checked calls hinv
    exact ⟨hinv, fun x => by simp [auditFilesLog]⟩
  | cons f rest ih =>
    intro report checked calls hinv
    obtain ⟨h1, h2⟩ := auditChunksLog_inv P store (idx.GetChunks f.ID) report checked calls hinv
    obtain ⟨h3, h4⟩ := ih _ _ _ h1
    simp only [auditFilesLog]
    refine ⟨h3, fun x => ?_⟩
    rw [h4 x, h2 x]
    simp only [List.flatMap_cons, List.map_append, List.mem_append]
    tauto

/-- The records that `GetFiles` returns have the ids of the rows, in order. -/
theorem decodeFiles_ids (P : Prims) (key : MasterKey) :
    ∀ (rows : List FileRow) (fs : List FileRecord), decodeFiles P key rows = .ok fs →
      fs.map (fun f => f.ID) = rows.map (fun r => r.id) := by
  intro rows
  induction rows with
  | nil =>
    intro fs h
    simp only [decodeFiles, Except.ok.injEq] at h
    rw [← h]; rfl
  | cons r rest ih =>
    intro fs h
    cases hh : hexDecode r.path with
    | none => simp [decodeFiles, hh] at h
    | some env =>
      cases hd : key.Decrypt P env with
      | error e => simp [decodeFiles, hh, hd] at h
      | ok pt =>
        cases hr : decodeFiles P key rest with
        | error e => simp [decodeFiles, hh, hd, hr] at h
        | ok fs1 =>
          simp only [decodeFiles, hh, hd, hr, Except.ok.injEq] at h
          rw [← h]
          simp only [List.map_cons, ih fs1 hr]

/-- The chunk records that the audit meets in a snapshot whose file rows
`GetFiles` reads are those of the rows of the tables. -/
theorem chunks_of_files (P : Prims) (idx : Index) (snapshotID : Nat) (files : List FileRecord)
    (h : idx.GetFiles P snapshotID = .ok files) :
    files.flatMap (fun f => idx.GetChunks f.ID) = idx.chunksOfSnapshot snapshotID := by
  have hids := decodeFiles_ids P idx.key _ files h
  have h1 : files.flatMap (fun f => idx.GetChunks f.ID)
      = (files.map (fun f => f.ID)).flatMap (fun i => idx.GetChunks i) := by
    rw [List.flatMap_map]
  have h2 : idx.chunksOfSnapshot snapshotID
      = ((idx.files.filter (fun r => r.snapshot_id = snapshotID)).map
          (fun r => r.id)).flatMap (fun i => idx.GetChunks i) := by
    rw [List.flatMap_map]; rfl
  rw [h1, h2, hids]

theorem auditSnapshotsLog_inv (P : Prims) (idx : Index) (store : ContentAddressableStore) :
    ∀ (snaps : List SnapshotRow) (report : AuditReport) (checked : List String)
      (calls : List Hash),
      AuditInv P store report checked calls →
      ((auditSnapshotsLog P idx store snaps report checked calls).1.2 = none ↔
        ∀ sn ∈ snaps, ∃ fs, idx.GetFiles P sn.id = .ok fs) ∧
      ∃ checked1,
        AuditInv P store (auditSnapshotsLog P idx store snaps report checked calls).1.1
          checked1 (auditSnapshotsLog P idx store snaps report checked calls).2 ∧
        ∀ x, x ∈ checked1 ↔ x ∈ checked ∨
          x ∈ (((snaps.takeWhile (fun s =>
              match idx.GetFiles P s.id with
              | .ok _ => true
              | .error _ => false)).flatMap
                (fun s => idx.chunksOfSnapshot s.id)).map (fun c => c.Hash)) := by
  intro snaps
  induction snaps with
  | nil =>
    intro report checked calls hinv
    refine ⟨⟨fun _ sn hsn => absurd hsn (List.not_mem_nil sn), fun _ => ?_⟩,
      checked, ?_, fun x => by simp⟩
    · simp only [auditSnapshotsLog]
      split <;> rfl
    · simp only [auditSnapshotsLog]
      split
      · exact AuditInv_of_counts P store report _ checked calls hinv rfl rfl rfl
      · exact hinv
  | cons sn rest ih =>
    intro report checked calls hinv
    cases hf : idx.GetFiles P sn.id with
    | error e =>
      have hres : auditSnapshotsLog P idx store (sn :: rest) report checked calls
          = ((report, some e), calls) := by
        simp only [auditSnapshotsLog, hf]
      rw [hres]
      refine ⟨⟨fun h => Option.noConfusion h, fun h => ?_⟩, checked, hinv, fun x => ?_⟩
      · obtain ⟨fs, hfs⟩ := h sn (List.mem_cons_self _ _)
        rw [hf] at hfs
        exact Except.noConfusion hfs
      · simp only [List.takeWhile_cons, hf, Bool.false_eq_true, if_false, List.flatMap_nil,
          List.map_nil, List.not_mem_nil, or_false]
    | ok files =>
      have hinv1 : AuditInv P store
          { report with TotalFiles := report.TotalFiles + files.length } checked calls :=
        AuditInv_of_counts P store report _ checked calls hinv rfl rfl rfl
      obtain ⟨h1, h2⟩ := auditFilesLog_inv P idx store files _ checked calls hinv1
      obtain ⟨h3, checked1, h5, h6⟩ := ih _ _ _ h1
      have hrun : auditSnapshotsLog P idx store (sn :: rest) report checked calls
          = auditSnapshotsLog P idx store rest
              (auditFilesLog P idx store files
                { report with TotalFiles := report.TotalFiles + files.length } checked calls).1
              (auditFilesLog P idx store files
                { report with TotalFiles := report.TotalFiles + files.length } checked
                calls).2.1
              (auditFilesLog P idx store files
                { report with TotalFiles := report.TotalFiles + files.length } checked
                calls).2.2 := by
        simp only [auditSnapshotsLog, hf]
      rw [hrun]
      refine ⟨?_, checked1, h5, fun x => ?_⟩
      · rw [h3]
        constructor
        · intro h x hx
          rcases List.mem_cons.mp hx with rfl | hx
          · exact ⟨files, hf⟩
          · exact h x hx
        · intro h x hx
          exact h x (List.mem_cons_of_mem _ hx)
      · rw [h6 x, h2 x, chunks_of_files P idx sn.id files hf]
        simp only [List.takeWhile_cons, hf, if_true, List.flatMap_cons, List.map_append,
          List.mem_append]
        tauto

theorem filesReadable_iff (P : Prims) (idx : Index) :
    idx.filesReadable P = true ↔
      ∀ sn ∈ idx.ListSnapshots, ∃ fs, idx.GetFiles P sn.id = .ok fs := by
  simp only [Index.filesReadable, List.all_eq_true]
  constructor
  · intro h sn hsn
    have := h sn hsn
    cases hf : idx.GetFiles P sn.id with
    | ok fs => exact ⟨fs, rfl⟩
    | error e => rw [hf] at this; exact Bool.noConfusion this
  · intro h sn hsn
    obtain ⟨fs, hfs⟩ := h sn hsn
    rw [hfs]

/-- The audit goes through all listed snapshots exactly when the file rows of
each of them can be read. -/
theorem auditedSnapshots_eq_iff (P : Prims) (idx : Index) :
    idx.auditedSnapshots P = idx.ListSnapshots ↔ idx.filesReadable P = true := by
  simp only [Index.auditedSnapshots, Index.filesReadable, List.takeWhile_eq_self_iff,
    List.all_eq_true]

theorem AuditInv_empty (P : Prims) (store : ContentAddressableStore) :
    AuditInv P store
      { TotalFiles := 0, TotalChunks := 0, MissingChunks := 0, CorruptChunks := 0,
        Healthy := true, Score := 100 } [] [] where
  nodup := List.nodup_nil
  total := rfl
  missing := rfl
  corrupt := rfl
  calls := List.Perm.nil

/-- The audit ends without error exactly when the file rows of every listed
snapshot can be read. -/
theorem AuditRepositoryLog_error (P : Prims) (idx : Index) (store : ContentAddressableStore) :
    (AuditRepositoryLog P idx store).1.2 = none ↔ idx.filesReadable P = true := by
  rw [filesReadable_iff]
  exact (auditSnapshotsLog_inv P idx store idx.ListSnapshots _ [] [] (AuditInv_empty P store)).1

/-- What the audit has counted when it returns, with or without error, and
which hashes it has called `store.Get` with. -/
theorem AuditRepositoryLog_counts (P : Prims) (idx : Index) (store : ContentAddressableStore) :
    (AuditRepositoryLog P idx store).1.1.TotalChunks
      = (idx.hashesOf (idx.auditedSnapshots P)).length ∧
    (AuditRepositoryLog P idx store).1.1.MissingChunks
      = (idx.hashesOf (idx.auditedSnapshots P)).countP (hashMissing P store) ∧
    (AuditRepositoryLog P idx store).1.1.CorruptChunks
      = (idx.hashesOf (idx.auditedSnapshots P)).countP hashUnparsable
        + (idx.hashesOf (idx.auditedSnapshots P)).countP (hashDamaged P store) ∧
    (AuditRepositoryLog P idx store).2.Perm
      ((idx.hashesOf (idx.auditedSnapshots P)).filterMap Hash.Parse) := by
  obtain ⟨checked1, hinv, hmem⟩ :=
    (auditSnapshotsLog_inv P idx store idx.ListSnapshots _ [] [] (AuditInv_empty P store)).2
  have hperm : checked1.Perm (idx.hashesOf (idx.auditedSnapshots P)) := by
    unfold Index.hashesOf Index.auditedSnapshots
    rw [List.perm_ext_iff_of_nodup hinv.nodup (List.nodup_dedup _)]
    intro x
    rw [hmem x]
    simp only [List.mem_dedup, List.not_mem_nil, false_or]
  refine ⟨?_, ?_, ?_, ?_⟩
  · exact hinv.total.trans hperm.length_eq
  · exact hinv.missing.trans (hperm.countP_eq _)
  · exact hinv.corrupt.trans (by rw [hperm.countP_eq, hperm.countP_eq])
  · exact hinv.calls.trans (hperm.filterMap _)

theorem count_filterMap_parse (h : Hash) :
    ∀ l : List String, (l.filterMap Hash.Parse).count h
      = l.countP (fun t => decide (Hash.Parse t = some h)) := by
  intro l
  induction l with
  | nil => rfl
  | cons t rest ih =>
    cases hp : Hash.Parse t with
    | none => simp [List.filterMap_cons, hp, List.countP_cons, ih]
    | some k =>
      by_cases hk : k = h
      · subst hk
        simp [List.filterMap_cons, hp, List.countP_cons, ih]
      · have hk1 : ¬ (some k = some h) := fun hc => hk (Option.some.inj hc)
        simp [List.filterMap_cons, hp, List.countP_cons, ih, hk, List.count_cons]

theorem countP_le_one_of_unique {α : Type} (p : α → Bool) :
    ∀ l : List α, l.Nodup → (∀ a ∈ l, ∀ b ∈ l, p a = true → p b = true → a = b) →
      l.countP p ≤ 1 := by
  intro l
  induction l with
  | nil => intro _ _; simp
  | cons a rest ih =>
    intro hnd huniq
    obtain ⟨ha, hrest⟩ := List.nodup_cons.mp hnd
    have ihr := ih hrest (fun x hx y hy => huniq x (List.mem_cons_of_mem _ hx) y
      (List.mem_cons_of_mem _ hy))
    by_cases hpa : p a = true
    · have hzero : rest.countP p = 0 := by
        rw [List.countP_eq_zero]
        intro b hb hpb
        have := huniq a (List.mem_cons_self _ _) b (List.mem_cons_of_mem _ hb) hpa hpb
        exact ha (this ▸ hb)
      simp only [List.countP_cons, hzero, hpa, if_true]
      omega
    · simp only [List.countP_cons, hpa, Bool.false_eq_true, if_false]
      omega

/-! ## C11: the classes of the audit -/

/-- C11, the claim as the specification words it fails, in two ways. In the
index of the example repository with one hash text overwritten by text that is
no hexadecimal, the audit ends without error and counts one corrupt chunk,
while no referenced hash text is one for which `store.Get` fails and the
backend has the object. In the index with a further snapshot whose file row
cannot be read, the audit returns the error of `GetFiles` with the report so
far, which counts no missing chunk, while one referenced hash text is one for
which `store.Get` fails and the backend does not have the object. -/
theorem audit_leaves_the_classes :
    (AuditRepository toyPrims garbledIndex toyRepo.2).2 = none ∧
    (AuditRepository toyPrims garbledIndex toyRepo.2).1.CorruptChunks = 1 ∧
    (garbledIndex.hashesOf garbledIndex.ListSnapshots).countP
      (hashDamaged toyPrims toyRepo.2) = 0 ∧
    "zz" ∈ garbledIndex.hashesOf garbledIndex.ListSnapshots ∧
    Hash.Parse "zz" = none ∧
    (AuditRepository toyPrims unreadableIndex damagedStore).2 = some .hexDecode ∧
    (AuditRepository toyPrims unreadableIndex damagedStore).1.MissingChunks = 0 ∧
    (unreadableIndex.hashesOf unreadableIndex.ListSnapshots).countP
      (hashMissing toyPrims damagedStore) = 1 := by
  decide

/-- C11, amended: for every index and every store, `AuditRepository` returns a
report and no per-chunk failure makes it stop: its error is none exactly when
it has gone through all listed snapshots, which is when `GetFiles` fails for
none of them, and otherwise it returns that error with the report so far. In
the report `MissingChunks` is the number of distinct hash texts, referenced by
the snapshots gone through, that parse, for which `store.Get` fails and which
the backend does not have, and `CorruptChunks` is the number of those that do
not parse plus the number of those that parse, for which `store.Get` fails and
which the backend has. A text for which `store.Get` succeeds is in none of the
three classes. -/
theorem audit_classification (P : Prims) (idx : Index) (store : ContentAddressableStore) :
    ((AuditRepository P idx store).2 = none ↔ idx.auditedSnapshots P = idx.ListSnapshots) ∧
    (AuditRepository P idx store).1.MissingChunks
      = (idx.hashesOf (idx.auditedSnapshots P)).countP (hashMissing P store) ∧
    (AuditRepository P idx store).1.CorruptChunks
      = (idx.hashesOf (idx.auditedSnapshots P)).countP hashUnparsable
        + (idx.hashesOf (idx.auditedSnapshots P)).countP (hashDamaged P store) ∧
    (∀ text h d, Hash.Parse text = some h → store.Get P h = .ok d →
      hashMissing P store text = false ∧ hashUnparsable text = false ∧
      hashDamaged P store text = false) := by
  have herr := AuditRepositoryLog_error P idx store
  obtain ⟨_, h2, h3, _⟩ := AuditRepositoryLog_counts P idx store
  rw [AuditRepositoryLog_fst] at herr h2 h3
  refine ⟨herr.trans (auditedSnapshots_eq_iff P idx).symm, h2, h3, fun text h d hp hg => ?_⟩
  simp [hashMissing, hashUnparsable, hashDamaged, hp, hg]

/-- C11 at examples: the store that lost an object, and the index with an
unreadable snapshot listed first. -/
theorem audit_classification_witness :
    ((AuditRepository toyPrims toyRepo.1 damagedStore).2 = none ↔
      toyRepo.1.auditedSnapshots toyPrims = toyRepo.1.ListSnapshots) ∧
    (AuditRepository toyPrims toyRepo.1 damagedStore).1.MissingChunks = 1 ∧
    (toyRepo.1.hashesOf (toyRepo.1.auditedSnapshots toyPrims)).countP
      (hashMissing toyPrims damagedStore) = 1 ∧
    unreadableIndex.auditedSnapshots toyPrims = [] ∧
    (AuditRepository toyPrims unreadableIndex damagedStore).1.MissingChunks = 0 :=
  ⟨(audit_classification toyPrims toyRepo.1 damagedStore).1, by decide, by decide, by decide,
    (audit_classification toyPrims unreadableIndex damagedStore).2.1.trans (by decide)⟩

/-! ## C19: the audit visits each hash text once -/

/-- C19, the claim as worded fails, in two ways. In the index with a further
snapshot whose file row cannot be read, the audit returns an error and a
report with `TotalChunks` 0, while the files of the snapshots refer to 3
distinct hash texts. In the index where two chunk rows hold `ab` and `AB`,
two texts of one hash, the audit ends without error and `store.Get` is called
twice with that hash. -/
theorem audit_visits_texts_not_hashes :
    (AuditRepository toyPrims unreadableIndex toyRepo.2).2 = some .hexDecode ∧
    (AuditRepository toyPrims unreadableIndex toyRepo.2).1.TotalChunks = 0 ∧
    (unreadableIndex.hashesOf unreadableIndex.ListSnapshots).length = 3 ∧
    Hash.Parse "ab" = some (copy32 [0xab]) ∧ Hash.Parse "AB" = some (copy32 [0xab]) ∧
    (AuditRepositoryLog toyPrims caseIndex toyRepo.2).1.2 = none ∧
    (AuditRepositoryLog toyPrims caseIndex toyRepo.2).2.count (copy32 [0xab]) = 2 := by
  decide

/-- C19, amended: for every index and every store, `TotalChunks` of the report
is the number of distinct hash texts that the chunk rows of the files of the
snapshots gone through refer to; these are all listed snapshots exactly when
the audit ends without error, and otherwise those listed before the one
`GetFiles` fails for. `store.Get` is called once for each of these distinct
texts that parses, however many rows hold the text: it is called with a hash
as many times as there are distinct texts that parse to it, which is at most
once when each text is the hex text of the hash it parses to, as `AddChunk`
writes it. The log of the calls changes nothing of what `AuditRepository`
returns. -/
theorem audit_visits_once (P : Prims) (idx : Index) (store : ContentAddressableStore) :
    (AuditRepositoryLog P idx store).1 = AuditRepository P idx store ∧
    (AuditRepository P idx store).1.TotalChunks
      = (idx.hashesOf (idx.auditedSnapshots P)).length ∧
    ((AuditRepository P idx store).2 = none ↔ idx.auditedSnapshots P = idx.ListSnapshots) ∧
    (AuditRepositoryLog P idx store).2.length
      = ((idx.hashesOf (idx.auditedSnapshots P)).filter
          (fun t => (Hash.Parse t).isSome)).length ∧
    (∀ h, (AuditRepositoryLog P idx store).2.count h
      = (idx.hashesOf (idx.auditedSnapshots P)).countP
          (fun t => decide (Hash.Parse t = some h))) ∧
    ((∀ t ∈ idx.hashesOf (idx.auditedSnapshots P), ∀ h, Hash.Parse t = some h →
        h.hexString = t) →
      ∀ h, (AuditRepositoryLog P idx store).2.count h ≤ 1) := by
  have herr := AuditRepositoryLog_error P idx store
  obtain ⟨h1, _, _, h4⟩ := AuditRepositoryLog_counts P idx store
  rw [AuditRepositoryLog_fst] at herr h1
  have hcount : ∀ h, (AuditRepositoryLog P idx store).2.count h
      = (idx.hashesOf (idx.auditedSnapshots P)).countP
          (fun t => decide (Hash.Parse t = some h)) := by
    intro h
    rw [h4.count_eq, count_filterMap_parse]
  refine ⟨AuditRepositoryLog_fst P idx store, h1,
    herr.trans (auditedSnapshots_eq_iff P idx).symm, ?_, hcount, fun hcanon h => ?_⟩
  · rw [h4.length_eq]
    generalize idx.hashesOf (idx.auditedSnapshots P) = l
    induction l with
    | nil => rfl
    | cons t rest ih =>
      cases hp : Hash.Parse t with
      | none => simp [List.filterMap_cons, hp, List.filter_cons, ih]
      | some k => simp [List.filterMap_cons, hp, List.filter_cons, ih]
  · rw [hcount h]
    apply countP_le_one_of_unique _ _ (List.nodup_dedup _)
    intro a ha b hb hpa hpb
    have ea : Hash.Parse a = some h := of_decide_eq_true hpa
    have eb : Hash.Parse b = some h := of_decide_eq_true hpb
    rw [← hcanon a ha h ea, ← hcanon b hb h eb]

/-- C19 at examples: the repository of the example, where four chunk rows hold
three distinct hash texts and `store.Get` is called three times, no hash
twice. -/
theorem audit_visits_once_witness :
    (toyRepo.1.chunks).length = 4 ∧
    (AuditRepository toyPrims toyRepo.1 toyRepo.2).2 = none ∧
    (AuditRepository toyPrims toyRepo.1 toyRepo.2).1.TotalChunks = 3 ∧
    (AuditRepositoryLog toyPrims toyRepo.1 toyRepo.2).2.length = 3 ∧
    (∀ h, (AuditRepositoryLog toyPrims toyRepo.1 toyRepo.2).2.count h ≤ 1) :=
  ⟨by decide, by decide,
    (audit_visits_once toyPrims toyRepo.1 toyRepo.2).2.1.trans (by decide), by decide,
    (audit_visits_once toyPrims toyRepo.1 toyRepo.2).2.2.2.2.2 (by decide)⟩

/-! ## The dedupe scenario -/

/-- For a source that reads without error the loop of `processFile` is
`storePieces` over the pieces of the data. -/
theorem processLoop_clean (P : Prims) (fileID : Nat) (rnd : Nat → Option Nonce) (s : Nat)
    (hs : 0 < s) :
    ∀ (fuel : Nat) (data : Bytes) (i : Nat) (off : Int) (idx : Index)
      (store : ContentAddressableStore), data.length < fuel →
      processLoop P fileID rnd fuel i ⟨⟨data, none⟩, s⟩ off idx store
        = some (storePieces P fileID rnd i off (splitBytes s data) idx store) := by
  intro fuel
  induction fuel with
  | zero => intro data _ _ _ _ h; omega
  | succ fuel ih =>
    intro data i off idx store hlt
    by_cases hd : data = []
    · subst hd
      obtain ⟨e, c1, hnext, _⟩ := Next_empty P ⟨⟨[], none⟩, s⟩ hs rfl
      simp only [processLoop, hnext, splitBytes_nil, storePieces]
    · have hnext := Next_clean P ⟨⟨data, none⟩, s⟩ hs hd rfl
      have hpos : 0 < data.length := List.length_pos.mpr hd
      have hlen : (data.drop s).length < fuel := by rw [List.length_drop]; omega
      simp only [processLoop, hnext, splitBytes_cons s hs data hd, storePieces]
      cases hput : store.Put P (rnd i) (data.take s) with
      | mk res store1 =>
        cases res with
        | error e => rfl
        | ok h => exact ih (data.drop s) _ _ _ _ hlen

theorem chunkSizeOf_natCast (s : Nat) (hs : 0 < s) : chunkSizeOf (s : Int) = s := by
  rw [chunkSizeOf_of_pos _ (by omega)]
  exact Int.toNat_ofNat s

/-- What `processFile` does for a file that opens and reads without error when
the draw for the path succeeds. -/
theorem processFile_clean (P : Prims) (size : Int) (path : String) (content : Bytes)
    (snap : Nat) (rnd : Nat → Option Nonce) (idx : Index) (store : ContentAddressableStore)
    (n : Nonce) (h0 : rnd 0 = some n) :
    processFile P size (srcFile path content) snap rnd idx store
      = some (storePieces P (idx.seqFiles + 1) (fun i => rnd (i + 1)) 0 0
          (splitBytes (chunkSizeOf size) content)
          (idx.AddFile P (some n) snap path content.length 420 0).2 store) := by
  have := processLoop_clean P (idx.seqFiles + 1) (fun i => rnd (i + 1)) (chunkSizeOf size)
    (chunkSizeOf_pos size) (content.length + 1) content 0 0
    (idx.AddFile P (some n) snap path content.length 420 0).2 store (Nat.lt_succ_self _)
  simp only [processFile, srcFile, h0, Index.AddFile, MasterKey.Encrypt, Bool.false_eq_true,
    if_false]
  exact this

theorem readFile_none_iff (files : List (RelPath × Bytes)) (p : RelPath) :
    readFile files p = none ↔ p ∉ files.map Prod.fst := by
  induction files with
  | nil => simp [readFile]
  | cons e rest ih =>
    obtain ⟨q, d⟩ := e
    by_cases hq : q = p
    · simp [readFile, hq]
    · have hq1 : ¬ p = q := fun h => hq h.symm
      simp only [readFile, hq, if_false, ih, List.map_cons, List.mem_cons, hq1, false_or]

theorem Has_iff_mem_objects (s : ContentAddressableStore) (key : String) :
    s.backend.Has key = true ↔ objectPath key ∈ s.objects := by
  unfold LocalBackend.Has ContentAddressableStore.objects
  cases h : readFile s.backend.files (objectPath key) with
  | none =>
    have := (readFile_none_iff _ _).mp h
    simp only [Option.isSome_none, Bool.false_eq_true, false_iff]
    exact this
  | some d =>
    simp only [Option.isSome_some, true_iff]
    by_contra hc
    have := (readFile_none_iff _ _).mpr hc
    rw [h] at this
    exact Option.noConfusion this

theorem writeFile_absent (files : List (RelPath × Bytes)) (p : RelPath) (d : Bytes)
    (h : p ∉ files.map Prod.fst) : writeFile files p d = (p, d) :: files := by
  unfold writeFile
  congr 1
  rw [List.filter_eq_self]
  intro e he
  have : e.1 ≠ p := fun hc => h (hc ▸ List.mem_map_of_mem Prod.fst he)
  simpa using this

/-- A successful `Put` leaves the backend with the objects it had and the one
of the data, each once. -/
theorem Put_objects (P : Prims) (s s1 : ContentAddressableStore) (rnd : Option Nonce)
    (data : Bytes) (h : Hash) (hput : s.Put P rnd data = (.ok h, s1))
    (hnd : s.objects.Nodup) :
    s1.objects.Nodup ∧ s1.key = s.key ∧
    ∀ k, k ∈ s1.objects ↔ k ∈ s.objects ∨ k = objectOf P data := by
  rcases Put_cases P s rnd data with ⟨hhas, h1⟩ | ⟨_, _, h1⟩ | ⟨hno, nonce, env, _, _, h1⟩
  · rw [h1] at hput
    simp only [Prod.mk.injEq] at hput
    rw [← hput.2]
    have hmem := (Has_iff_mem_objects s _).mp hhas
    refine ⟨hnd, rfl, fun k => ⟨Or.inl, fun hk => ?_⟩⟩
    rcases hk with hk | hk
    · exact hk
    · rw [hk]; exact hmem
  · rw [h1] at hput
    simp only [Prod.mk.injEq, reduceCtorEq, false_and] at hput
  · rw [h1] at hput
    simp only [Prod.mk.injEq] at hput
    rw [← hput.2]
    have hnot : objectPath (P.blake3 data).hexString ∉ s.objects := by
      intro hc
      rw [(Has_iff_mem_objects s _).mpr hc] at hno
      exact Bool.noConfusion hno
    have hw := writeFile_absent s.backend.files _ env hnot
    simp only [ContentAddressableStore.objects, hw, List.map_cons, List.nodup_cons,
      List.mem_cons, objectOf]
    refine ⟨⟨hnot, hnd⟩, trivial, fun k => ?_⟩
    tauto

/-- When every draw succeeds `storePieces` ends well: the index gains one chunk
row per piece and nothing else, and the backend has the objects it had and
those of the pieces, each once. -/
theorem storePieces_objects (P : Prims) (fileID : Nat) (rnd : Nat → Option Nonce)
    (hrnd : ∀ i, (rnd i).isSome) :
    ∀ (pieces : List Bytes) (i : Nat) (off : Int) (idx : Index)
      (store : ContentAddressableStore), store.objects.Nodup →
      ∃ idx1 store1,
        storePieces P fileID rnd i off pieces idx store = (.ok (), idx1, store1) ∧
        idx1.chunks.length = idx.chunks.length + pieces.length ∧
        idx1.snapshots = idx.snapshots ∧ idx1.seqSnapshots = idx.seqSnapshots ∧
        idx1.files = idx.files ∧ idx1.seqFiles = idx.seqFiles ∧ idx1.key = idx.key ∧
        store1.objects.Nodup ∧ store1.key = store.key ∧
        ∀ k, k ∈ store1.objects ↔ k ∈ store.objects ∨ k ∈ pieces.map (objectOf P) := by
  intro pieces
  induction pieces with
  | nil =>
    intro i off idx store hnd
    exact ⟨idx, store, rfl, rfl, rfl, rfl, rfl, rfl, rfl, hnd, rfl, fun k => by simp⟩
  | cons p ps ih =>
    intro i off idx store hnd
    obtain ⟨n, hn⟩ := Option.isSome_iff_exists.mp (hrnd i)
    cases hput : store.Put P (rnd i) p with
    | mk res store1 =>
      cases res with
      | error e =>
        exfalso
        rcases Put_cases P store (rnd i) p with ⟨_, h1⟩ | ⟨_, hnone, _⟩ | ⟨_, _, _, _, _, h1⟩
        · rw [h1] at hput; simp only [Prod.mk.injEq, reduceCtorEq, false_and] at hput
        · rw [hn] at hnone; exact Option.noConfusion hnone
        · rw [h1] at hput; simp only [Prod.mk.injEq, reduceCtorEq, false_and] at hput
      | ok h =>
        obtain ⟨hnd1, hkey1, hmem1⟩ := Put_objects P store store1 (rnd i) p h hput hnd
        obtain ⟨idx2, store2, hrun, hc, hsn, hss, hf, hsf, hk, hnd2, hkey2, hmem2⟩ :=
          ih (i + 1) (wrapInt64 (off + (p.length : Int)))
            (idx.AddChunk fileID (P.blake3 p) off (p.length : Int)) store1 hnd1
        refine ⟨idx2, store2, ?_, ?_, hsn, hss, hf, hsf, hk, hnd2, hkey2.trans hkey1,
          fun k => ?_⟩
        · simp only [storePieces, hput]
          exact hrun
        · rw [hc]
          simp only [Index.AddChunk, List.length_append, List.length_cons, List.length_nil]
          omega
        · rw [hmem2 k, hmem1 k]
          simp only [List.map_cons, List.mem_cons]
          tauto

/-- A backup of one file that opens and reads without error, when every draw
succeeds: it ends well with the next snapshot id; the index gains the
snapshot, the file and one chunk row per piece, and the backend has the
objects it had and those of the pieces, each once. -/
theorem Backup_file_objects (P : Prims) (size : Int) (now : Nat) (absPath path : String)
    (content : Bytes) (rnd : Nat → Nat → Option Nonce) (hrnd : ∀ i, (rnd 0 i).isSome)
    (idx : Index) (store : ContentAddressableStore) (hnd : store.objects.Nodup) :
    ∃ idx1 store1,
      Backup P size now absPath (.file (srcFile path content)) rnd idx store
        = some (.ok (idx.seqSnapshots + 1), idx1, store1) ∧
      idx1.chunks.length
        = idx.chunks.length + (splitBytes (chunkSizeOf size) content).length ∧
      idx1.snapshots.length = idx.snapshots.length + 1 ∧
      idx1.seqSnapshots = idx.seqSnapshots + 1 ∧
      idx1.files.length = idx.files.length + 1 ∧
      store1.objects.Nodup ∧ store1.key = store.key ∧
      ∀ k, k ∈ store1.objects ↔
        k ∈ store.objects ∨ k ∈ (splitBytes (chunkSizeOf size) content).map (objectOf P) := by
  obtain ⟨n, hn⟩ := Option.isSome_iff_exists.mp (hrnd 0)
  have hfile := processFile_clean P size path content (idx.seqSnapshots + 1) (rnd 0)
    (idx.CreateSnapshot now ("Backup of " ++ absPath)).2 store n hn
  obtain ⟨idx1, store1, hrun, hc, hsn, hss, hf, _, _, hnd1, hkey1, hmem1⟩ :=
    storePieces_objects P
      ((idx.CreateSnapshot now ("Backup of " ++ absPath)).2.seqFiles + 1)
      (fun i => rnd 0 (i + 1)) (fun i => hrnd (i + 1))
      (splitBytes (chunkSizeOf size) content) 0 0
      ((idx.CreateSnapshot now ("Backup of " ++ absPath)).2.AddFile P (some n)
        (idx.seqSnapshots + 1) path content.length 420 0).2 store hnd
  rw [hrun] at hfile
  refine ⟨idx1, store1, ?_, ?_, ?_, ?_, ?_, hnd1, hkey1, hmem1⟩
  · simp only [Backup, Index.CreateSnapshot] at hfile ⊢
    rw [hfile]
  · rw [hc]
    simp only [Index.AddFile, MasterKey.Encrypt, Index.CreateSnapshot]
  · rw [hsn]
    simp only [Index.AddFile, MasterKey.Encrypt, Index.CreateSnapshot, List.length_append,
      List.length_cons, List.length_nil]
  · rw [hss]
    simp only [Index.AddFile, MasterKey.Encrypt, Index.CreateSnapshot]
  · rw [hf]
    simp only [Index.AddFile, MasterKey.Encrypt, Index.CreateSnapshot, List.length_append,
      List.length_cons, List.length_nil]

theorem replicate_ne_nil (n : Nat) (hn : 0 < n) (a : Byte) : List.replicate n a ≠ [] := by
  intro h
  have := congrArg List.length h
  rw [List.length_replicate, List.length_nil] at this
  omega

/-- Two full pieces and a rest of the same byte. -/
theorem splitBytes_replicate (s r : Nat) (hs : 0 < s) (hr : 0 < r) (hrs : r ≤ s) (a : Byte) :
    splitBytes s (List.replicate (s + s + r) a)
      = [List.replicate s a, List.replicate s a, List.replicate r a] := by
  have e1 : min s (s + s + r) = s := by omega
  have e2 : s + s + r - s = s + r := by omega
  have e3 : min s (s + r) = s := by omega
  have e4 : s + r - s = r := by omega
  have e5 : min s r = r := by omega
  have e6 : r - s = 0 := by omega
  rw [splitBytes_cons s hs _ (replicate_ne_nil _ (by omega) a), List.take_replicate,
    List.drop_replicate, e1, e2,
    splitBytes_cons s hs _ (replicate_ne_nil _ (by omega) a), List.take_replicate,
    List.drop_replicate, e3, e4,
    splitBytes_cons s hs _ (replicate_ne_nil _ hr a), List.take_replicate,
    List.drop_replicate, e5, e6, List.replicate_zero, splitBytes_nil]

/-- Two backups of a file of two full pieces and a rest, all of one byte, into
an empty repository: both end well, the index has six chunk rows, and the
backend has one object when the full piece and the rest have the same hash
and two objects otherwise. -/
theorem dedupe_two_backups (P : Prims) (key : MasterKey) (s r : Nat) (hs : 0 < s)
    (hr : 0 < r) (hrs : r ≤ s) (a : Byte) (path abs1 abs2 : String) (now1 now2 : Nat)
    (rnd1 rnd2 : Nat → Nat → Option Nonce)
    (hr1 : ∀ i, (rnd1 0 i).isSome) (hr2 : ∀ i, (rnd2 0 i).isSome) :
    ∃ idx1 s1 idx2 s2,
      Backup P (s : Int) now1 abs1 (.file (srcFile path (List.replicate (s + s + r) a))) rnd1
        (Index.empty key) { backend := { files := [], puts := 0 }, key := key }
        = some (.ok 1, idx1, s1) ∧
      Backup P (s : Int) now2 abs2 (.file (srcFile path (List.replicate (s + s + r) a))) rnd2
        idx1 s1 = some (.ok 2, idx2, s2) ∧
      idx2.snapshots.length = 2 ∧ idx2.files.length = 2 ∧ idx2.chunks.length = 6 ∧
      s2.backend.files.length
        = (if P.blake3 (List.replicate s a) = P.blake3 (List.replicate r a) then 1 else 2) := by
  obtain ⟨idx1, s1, hb1, hc1, hsn1, hss1, hf1, hnd1, _, hmem1⟩ :=
    Backup_file_objects P (s : Int) now1 abs1 path (List.replicate (s + s + r) a) rnd1 hr1
      (Index.empty key) { backend := { files := [], puts := 0 }, key := key } List.nodup_nil
  obtain ⟨idx2, s2, hb2, hc2, hsn2, _, hf2, hnd2, _, hmem2⟩ :=
    Backup_file_objects P (s : Int) now2 abs2 path (List.replicate (s + s + r) a) rnd2 hr2
      idx1 s1 hnd1
  rw [chunkSizeOf_natCast s hs, splitBytes_replicate s r hs hr hrs a] at hc1 hc2 hmem1 hmem2
  rw [hss1] at hb2
  refine ⟨idx1, s1, idx2, s2, hb1, hb2, ?_, ?_, ?_, ?_⟩
  · rw [hsn2, hsn1]; rfl
  · rw [hf2, hf1]; rfl
  · rw [hc2, hc1]; rfl
  · have hlen : s2.backend.files.length = s2.objects.length := by
      simp only [ContentAddressableStore.objects, List.length_map]
    have hmem : ∀ k, k ∈ s2.objects ↔
        k = objectOf P (List.replicate s a) ∨ k = objectOf P (List.replicate r a) := by
      intro k
      rw [hmem2 k, hmem1 k]
      simp only [ContentAddressableStore.objects, List.map_nil, List.not_mem_nil, false_or,
        List.map_cons, List.mem_cons, or_false]
      tauto
    rw [hlen]
    by_cases heq : P.blake3 (List.replicate s a) = P.blake3 (List.replicate r a)
    · rw [if_pos heq]
      have hperm : s2.objects.Perm [objectOf P (List.replicate s a)] := by
        rw [List.perm_ext_iff_of_nodup hnd2 (List.nodup_singleton _)]
        intro k
        rw [hmem k]
        simp only [objectOf, heq, or_self, List.mem_singleton]
      exact hperm.length_eq
    · rw [if_neg heq]
      have hne : objectOf P (List.replicate s a) ≠ objectOf P (List.replicate r a) :=
        fun hc => heq (objectPath_hexString_injective hc)
      have hperm : s2.objects.Perm
          [objectOf P (List.replicate s a), objectOf P (List.replicate r a)] := by
        rw [List.perm_ext_iff_of_nodup hnd2 (by simp [hne])]
        intro k
        rw [hmem k]
        simp only [List.mem_cons, List.not_mem_nil, or_false]
      exact hperm.length_eq

/-- The first byte of the hash of `widePrims`. -/
theorem widePrims_first_byte (d : Bytes) :
    (widePrims.blake3 d).bytes.head? = some (Fin.ofNat (d.length / 65536)) := rfl

/-- Under `widePrims` a full piece of the default size and one of 2 MiB have
different hashes. -/
theorem widePrims_apart (a : Byte) :
    widePrims.blake3 (List.replicate DefaultChunkSize a)
      ≠ widePrims.blake3 (List.replicate (2 * 1024 * 1024) a) := by
  intro h
  have h1 := congrArg (fun x => x.bytes.head?) h
  simp only [widePrims_first_byte, List.length_replicate] at h1
  revert h1
  decide

/-- C13, the claim as the specification words it fails: after the two backups
of the file of 10 MiB of `0x41`, here with the stand-ins `widePrims`, the
backend has 2 objects and not 3, while the index has 6 chunk rows. The first
two chunks of the file are the same 4 MiB and are stored once. -/
theorem dedupe_scenario_two_objects :
    ∃ idx1 s1 idx2 s2,
      Backup widePrims (DefaultChunkSize : Int) 0 "/data/a.bin" (.file tenMiB) toyRnd
        (Index.empty toyKey) toyStore = some (.ok 1, idx1, s1) ∧
      Backup widePrims (DefaultChunkSize : Int) 1 "/data/a.bin" (.file tenMiB) toyRnd
        idx1 s1 = some (.ok 2, idx2, s2) ∧
      idx2.chunks.length = 6 ∧ s2.backend.files.length = 2 ∧ s2.backend.files.length ≠ 3 := by
  obtain ⟨idx1, s1, idx2, s2, h1, h2, _, _, h5, h6⟩ :=
    dedupe_two_backups widePrims toyKey DefaultChunkSize (2 * 1024 * 1024) (by decide)
      (by decide) (by decide) 0x41 "/data/a.bin" "/data/a.bin" "/data/a.bin" 0 1 toyRnd toyRnd
      (fun _ => rfl) (fun _ => rfl)
  have e : DefaultChunkSize + DefaultChunkSize + 2 * 1024 * 1024 = 10 * 1024 * 1024 := by
    decide
  rw [e] at h1 h2
  rw [if_neg (widePrims_apart _)] at h6
  exact ⟨idx1, s1, idx2, s2, h1, h2, h5, h6, by rw [h6]; decide⟩

/-- C13, amended: starting from an empty repository, when the random source
delivers, the two backups of a file of 10 MiB of the byte `0x41` with the
default chunk size of 4 MiB end well with the snapshots 1 and 2, the index has
2 file rows and 6 chunk rows, and the backend has exactly 2 objects, one for
the chunk of 4 MiB that the file has twice and one for the chunk of 2 MiB
(exactly 1 if these two had the same hash). -/
theorem dedupe_scenario (P : Prims) (key : MasterKey) (path abs1 abs2 : String)
    (now1 now2 : Nat) (rnd1 rnd2 : Nat → Nat → Option Nonce)
    (hr1 : ∀ i, (rnd1 0 i).isSome) (hr2 : ∀ i, (rnd2 0 i).isSome) :
    ∃ idx1 s1 idx2 s2,
      Backup P (DefaultChunkSize : Int) now1 abs1
        (.file (srcFile path (List.replicate (10 * 1024 * 1024) 0x41))) rnd1
        (Index.empty key) { backend := { files := [], puts := 0 }, key := key }
        = some (.ok 1, idx1, s1) ∧
      Backup P (DefaultChunkSize : Int) now2 abs2
        (.file (srcFile path (List.replicate (10 * 1024 * 1024) 0x41))) rnd2 idx1 s1
        = some (.ok 2, idx2, s2) ∧
      idx2.snapshots.length = 2 ∧ idx2.files.length = 2 ∧ idx2.chunks.length = 6 ∧
      s2.backend.files.length
        = (if P.blake3 (List.replicate DefaultChunkSize 0x41)
              = P.blake3 (List.replicate (2 * 1024 * 1024) 0x41) then 1 else 2) := by
  have h := dedupe_two_backups P key DefaultChunkSize (2 * 1024 * 1024) (by decide)
    (by decide) (by decide) 0x41 path abs1 abs2 now1 now2 rnd1 rnd2 hr1 hr2
  have e : DefaultChunkSize + DefaultChunkSize + 2 * 1024 * 1024 = 10 * 1024 * 1024 := by
    decide
  rw [e] at h
  exact h

theorem dedupe_scenario_witness :
    (∀ i, (toyRnd 0 i).isSome) ∧
    ∃ idx1 s1 idx2 s2,
      Backup widePrims (DefaultChunkSize : Int) 0 "/data/a.bin"
        (.file (srcFile "/data/a.bin" (List.replicate (10 * 1024 * 1024) 0x41))) toyRnd
        (Index.empty toyKey) { backend := { files := [], puts := 0 }, key := toyKey }
        = some (.ok 1, idx1, s1) ∧
      Backup widePrims (DefaultChunkSize : Int) 1 "/data/b.bin"
        (.file (srcFile "/data/a.bin" (List.replicate (10 * 1024 * 1024) 0x41))) toyRnd idx1 s1
        = some (.ok 2, idx2, s2) ∧
      idx2.snapshots.length = 2 ∧ idx2.files.length = 2 ∧ idx2.chunks.length = 6 ∧
      s2.backend.files.length
        = (if widePrims.blake3 (List.replicate DefaultChunkSize 0x41)
              = widePrims.blake3 (List.replicate (2 * 1024 * 1024) 0x41) then 1 else 2) :=
  ⟨fun _ => rfl,
    dedupe_scenario widePrims toyKey "/data/a.bin" "/data/a.bin" "/data/b.bin" 0 1 toyRnd toyRnd
      (fun _ => rfl) (fun _ => rfl)⟩

/-! ## The scheduler -/

/-- C17: with two jobs, when one signal arrives and the receive of `Start`
takes it, `Start` returns and the backend is closed while both workers are
still in their loop and the counter of the wait group is 2; the buffer of
`quit` is empty, so no worker can take the case `<-quit`, and the next tick
of a worker starts a backup on the closed backend. When a worker takes the
signal instead, that worker alone exits and `Start` and the other worker wait
on. -/
theorem shutdown_leaves_workers_running :
    schedRun (Start [true, true]) [.signal, .startReceives]
      = some { quit := 0, start := .returned, workers := [.selecting, .selecting], wg := 2,
               backendClosed := true, backups := 0, backupsOnClosed := 0 } ∧
    schedRun (Start [true, true]) [.signal, .startReceives, .workerReceives 0] = none ∧
    schedRun (Start [true, true]) [.signal, .startReceives, .workerReceives 1] = none ∧
    (schedRun (Start [true, true]) [.signal, .startReceives, .tick 0]).map
      (fun s => s.backupsOnClosed) = some 1 ∧
    schedRun (Start [true, true]) [.signal, .workerReceives 0]
      = some { quit := 0, start := .waiting, workers := [.exited, .selecting], wg := 1,
               backendClosed := false, backups := 0, backupsOnClosed := 0 } ∧
    schedRun (Start [true, true]) [.signal, .workerReceives 0, .startReceives] = none := by
  decide

/-! ## The audit log: changes of the fields of an entry -/

theorem computeHash_eq (P : Prims) (e : AuditEntry) :
    computeHash P e = (P.sha256 (hashedText P e)).hexString := rfl

theorem string_append_right_inj (s a b : String) : s ++ a = s ++ b ↔ a = b := by
  constructor
  · intro h
    have h1 := congrArg String.data h
    simp only [String.data_append] at h1
    exact String.ext (List.append_cancel_left h1)
  · intro h; rw [h]

/-- With the same `prev_hash` and time stamp, two entries have the same hashed
text exactly when action, user and details, written one after the other, are
the same text. -/
theorem hashedText_eq_iff (P : Prims) (e e1 : AuditEntry) (hp : e1.PrevHash = e.PrevHash)
    (ht : e1.Timestamp = e.Timestamp) :
    hashedText P e1 = hashedText P e ↔
      e1.Action ++ e1.User ++ e1.Details = e.Action ++ e.User ++ e.Details := by
  simp only [hashedText, hp, ht, String.append_assoc, string_append_right_inj]

/-- A log that passes has no error. -/
theorem verifyLoop_true_none (P : Prims) :
    ∀ (items : List LogItem) (prev : String) (line : Nat),
      (verifyLoop P items prev line).1 = true → verifyLoop P items prev line = (true, none) := by
  intro items
  induction items with
  | nil => intro prev line _; rfl
  | cons x rest ih =>
    intro prev line h
    cases x with
    | undecodable => simp [verifyLoop] at h
    | entry e =>
      by_cases h1 : e.PrevHash = prev
      · by_cases h2 : e.Hash = computeHash P e
        · simp only [verifyLoop, h1, h2, ne_eq, not_true_eq_false, if_false] at h ⊢
          exact ih _ _ h
        · simp [verifyLoop, h1, h2] at h
      · simp [verifyLoop, h1] at h

/-- The items before a place of a log that passes lead the loop of
`VerifyChain` to that place, whatever follows them. -/
theorem verifyLoop_reaches (P : Prims) (rest : List LogItem) :
    ∀ (before : List LogItem) (prev : String) (line : Nat),
      (verifyLoop P (before ++ rest) prev line).1 = true →
      ∃ last, ∀ rest1, verifyLoop P (before ++ rest1) prev line
        = verifyLoop P rest1 last (line + before.length) := by
  intro before
  induction before with
  | nil => intro prev line _; exact ⟨prev, fun rest1 => rfl⟩
  | cons x before ih =>
    intro prev line h
    cases x with
    | undecodable => simp [verifyLoop] at h
    | entry e =>
      by_cases h1 : e.PrevHash = prev
      · by_cases h2 : e.Hash = computeHash P e
        · simp only [List.cons_append, verifyLoop, h1, h2, ne_eq, not_true_eq_false,
            if_false] at h
          obtain ⟨last, hlast⟩ := ih _ _ h
          refine ⟨last, fun rest1 => ?_⟩
          simp only [List.cons_append, verifyLoop, h1, h2, ne_eq, not_true_eq_false, if_false,
            List.length_cons]
          rw [show line + (before.length + 1) = line + 1 + before.length by omega]
          exact hlast rest1
        · simp [verifyLoop, h1, h2] at h
      · simp [verifyLoop, h1] at h

/-- What `VerifyChain` does with a log that passed after the fields of one
entry were changed while its hash and `prev_hash` were kept: the computed hash
decides. -/
theorem verify_changed_entry (P : Prims) (before after : List LogItem) (e e1 : AuditEntry)
    (hpass : (VerifyChain P (some (before ++ .entry e :: after))).1 = true)
    (hh : e1.Hash = e.Hash) (hp : e1.PrevHash = e.PrevHash) :
    (computeHash P e1 = computeHash P e →
      VerifyChain P (some (before ++ .entry e1 :: after)) = (true, none)) ∧
    (computeHash P e1 ≠ computeHash P e →
      VerifyChain P (some (before ++ .entry e1 :: after))
        = (false, some (.integrityFailure before.length))) := by
  simp only [VerifyChain] at hpass ⊢
  obtain ⟨last, hlast⟩ := verifyLoop_reaches P (.entry e :: after) before genesisHash 0 hpass
  rw [hlast] at hpass
  rw [hlast]
  have h1 : e.PrevHash = last := by
    by_contra hc
    simp [verifyLoop, hc] at hpass
  have h2 : e.Hash = computeHash P e := by
    by_contra hc
    simp [verifyLoop, h1, hc] at hpass
  have h3 : (verifyLoop P after e.Hash (0 + before.length + 1)).1 = true := by
    simp only [verifyLoop, h1, ne_eq, not_true_eq_false, if_false] at hpass
    rw [if_neg (by rw [not_not]; exact h2)] at hpass
    exact hpass
  have h1e : e1.PrevHash = last := hp.trans h1
  constructor
  · intro hsame
    have h2e : e1.Hash = computeHash P e1 := by rw [hh, hsame]; exact h2
    simp only [verifyLoop, h1e, ne_eq, not_true_eq_false, if_false]
    rw [if_neg (by rw [not_not]; exact h2e), hh]
    exact verifyLoop_true_none P _ _ _ h3
  · intro hdiff
    have h2e : e1.Hash ≠ computeHash P e1 := by
      rw [hh, h2]
      exact fun hc => hdiff hc.symm
    simp only [verifyLoop, h1e, ne_eq, not_true_eq_false, if_false]
    rw [if_pos h2e, Nat.zero_add]

/-- C21, the claim as worded fails: in the log that three calls of `LogAction`
made, the middle entry has user `ann` and details `snapshot 1`; with user `an`
and details `nsnapshot 1` instead, and hash, `prev_hash`, time stamp and
action as they were, the log still passes `VerifyChain`. The text that is
hashed is the same, so no collision of SHA-256 is involved. -/
theorem shifted_fields_pass :
    toyLog = logOf toyEntries ∧
    toyEntries = toyEntries.take 1 ++ toyMiddle :: toyEntries.drop 2 ∧
    VerifyChain toyPrims toyLog = (true, none) ∧
    toyMiddle.User = "ann" ∧ toyMiddle.Details = "snapshot 1" ∧
    shiftedEntry.User = "an" ∧ shiftedEntry.Details = "nsnapshot 1" ∧
    shiftedEntry.Action = toyMiddle.Action ∧ shiftedEntry.Hash = toyMiddle.Hash ∧
    shiftedEntry.PrevHash = toyMiddle.PrevHash ∧
    shiftedEntry.Timestamp = toyMiddle.Timestamp ∧
    hashedText toyPrims shiftedEntry = hashedText toyPrims toyMiddle ∧
    VerifyChain toyPrims (logOf (toyEntries.take 1 ++ shiftedEntry :: toyEntries.drop 2))
      = (true, none) := by
  decide

/-- C21, amended: for every log that passes `VerifyChain` and every log
obtained from it by changing the action, user or details of one entry while
that entry keeps its hash, `prev_hash` and time stamp, taking SHA-256 as free
of a collision between the hashed texts of the entry before and after the
change: if action, user and details, written one after the other, are no
longer the same text, `VerifyChain` fails with an integrity failure that names
the number of items before the entry; if they are the same text, as when text
moves from one field to the next, the changed log passes. -/
theorem field_tamper_evidence (P : Prims) (before after : List LogItem) (e e1 : AuditEntry)
    (hpass : (VerifyChain P (some (before ++ .entry e :: after))).1 = true)
    (hh : e1.Hash = e.Hash) (hp : e1.PrevHash = e.PrevHash) (ht : e1.Timestamp = e.Timestamp)
    (hfree : P.sha256 (hashedText P e1) = P.sha256 (hashedText P e) →
      hashedText P e1 = hashedText P e) :
    (e1.Action ++ e1.User ++ e1.Details ≠ e.Action ++ e.User ++ e.Details →
      VerifyChain P (some (before ++ .entry e1 :: after))
        = (false, some (.integrityFailure before.length))) ∧
    (e1.Action ++ e1.User ++ e1.Details = e.Action ++ e.User ++ e.Details →
      VerifyChain P (some (before ++ .entry e1 :: after)) = (true, none)) ∧
    ((VerifyChain P (some (before ++ .entry e1 :: after))).1 = false ↔
      e1.Action ++ e1.User ++ e1.Details ≠ e.Action ++ e.User ++ e.Details) := by
  obtain ⟨hsame, hdiff⟩ := verify_changed_entry P before after e e1 hpass hh hp
  have htext := hashedText_eq_iff P e e1 hp ht
  have h1 : e1.Action ++ e1.User ++ e1.Details ≠ e.Action ++ e.User ++ e.Details →
      computeHash P e1 ≠ computeHash P e := by
    intro hne hc
    rw [computeHash_eq, computeHash_eq] at hc
    exact hne (htext.mp (hfree (hexString_injective hc)))
  have h2 : e1.Action ++ e1.User ++ e1.Details = e.Action ++ e.User ++ e.Details →
      computeHash P e1 = computeHash P e := by
    intro heq
    rw [computeHash_eq, computeHash_eq, htext.mpr heq]
  refine ⟨fun hne => hdiff (h1 hne), fun heq => hsame (h2 heq), ?_, ?_⟩
  · intro hfalse heq
    rw [hsame (h2 heq)] at hfalse
    exact Bool.noConfusion hfalse
  · intro hne
    rw [hdiff (h1 hne)]

/-- C21 at an example: the details of the middle entry of the log of three
entries changed from `snapshot 1` to `snapshot 9`. -/
theorem field_tamper_evidence_witness :
    (VerifyChain toyPrims (some ((toyEntries.take 1).map LogItem.entry
      ++ .entry toyMiddle :: (toyEntries.drop 2).map LogItem.entry))).1 = true ∧
    alteredEntry.Hash = toyMiddle.Hash ∧ alteredEntry.PrevHash = toyMiddle.PrevHash ∧
    alteredEntry.Timestamp = toyMiddle.Timestamp ∧
    tamperedLog = some ((toyEntries.take 1).map LogItem.entry
      ++ .entry alteredEntry :: (toyEntries.drop 2).map LogItem.entry) ∧
    VerifyChain toyPrims (some ((toyEntries.take 1).map LogItem.entry
      ++ .entry alteredEntry :: (toyEntries.drop 2).map LogItem.entry))
      = (false, some (.integrityFailure 1)) :=
  ⟨by decide, rfl, rfl, rfl, by decide,
    (field_tamper_evidence toyPrims ((toyEntries.take 1).map LogItem.entry)
      ((toyEntries.drop 2).map LogItem.entry) toyMiddle alteredEntry (by decide) rfl rfl rfl
      (by decide)).1 (by decide)⟩

end Aegis
